import Mathlib

/-!
# glog: an asynchronous buffered logger (shallow embedding of `glog.go`)

Go strings are modelled as `List Char`; `len` of a Go string is its UTF-8 byte length.
Go maps are modelled as association lists with unique keys; a missing key reads as the
zero value of the element type, as in Go.  Go `int`/`int64` are 64 bit wide: values are
`Int`, and the operations that can leave the range are wrapped with `wrap64`.
A Go `panic` is modelled as an `Except.error`.

The worker is a function of the events its `select` delivers, in the order of delivery.
What it reads from outside is held in a `World`: the successive readings of `time.Now()`,
which calls of `os.OpenFile` and `Stat` fail, the order in which each `range` loop visits
its map, the disk, and the case tables `unicode.ToLower` consults for the runes outside
ASCII.  `WriteString`, `Sync` and `Close`, whose results the code ignores, succeed; sending
on the channel never blocks.
-/

set_option autoImplicit false

deriving instance DecidableEq for Except

namespace Glog

/-! ## Constants of `glog.go` -/

def SIGNAL_CLOSE : Nat := 0

def ERROR : Nat := 1
def WARNING : Nat := 2
def NOTICE : Nat := 4
def INFO : Nat := 8
def DEBUG : Nat := 16

def SPLIT_DAY : Nat := 1
def SPLIT_HOUR : Nat := 2
def SPLIT_MIN : Nat := 3
def SPLIT_SIZE : Nat := 9

def CHAN_BUFFER_SIZE : Int := 1024
def DEFAULT_BUFFER_SIZE : Int := 10240
def LEVEL_COUNT : Nat := 5

/-! ## Machine integers -/

/-- Two's complement wrap-around of a 64 bit signed integer. -/
def wrap64 (x : Int) : Int := (x + 2 ^ 63) % 2 ^ 64 - 2 ^ 63

def minInt : Int := -(2 ^ 63)
def maxInt : Int := 2 ^ 63 - 1

/-! ## The fragments of `strings` and `strconv` used by `glog.go` -/

/-- Embedding of `unicode.ToLower` on one rune.  Up to `unicode.MaxASCII` the library maps
the capitals `A`..`Z` to their small letters and returns every other rune as it is; above
it the library looks the rune up in the case tables of its Unicode version, which are the
argument `caseTable` (it is only ever applied to runes above `unicode.MaxASCII`). -/
def toLowerRune (caseTable : Char → Char) (c : Char) : Char :=
  if c.toNat ≤ 127 then
    if 65 ≤ c.toNat ∧ c.toNat ≤ 90 then Char.ofNat (c.toNat + 32) else c
  else caseTable c

/-- Embedding of `strings.ToLower`: every rune of the string is mapped by
`unicode.ToLower`. -/
def ToLower (caseTable : Char → Char) (s : List Char) : List Char :=
  s.map (toLowerRune caseTable)

/-- Model of `strings.HasSuffix`. -/
def HasSuffix (s suffix : List Char) : Bool :=
  decide (suffix.length ≤ s.length) && decide (s.drop (s.length - suffix.length) = suffix)

/-- Model of `strings.TrimSuffix`. -/
def TrimSuffix (s suffix : List Char) : List Char :=
  if HasSuffix s suffix then s.take (s.length - suffix.length) else s

/-- A decimal digit, as `strconv` tests it. -/
def isDigit (c : Char) : Bool := decide (48 ≤ c.toNat) && decide (c.toNat ≤ 57)

/-- Accumulating loop of `strconv.Atoi` over the digits: `n = n*10 + int(ch - '0')`,
failing at the first byte that is not a digit. -/
def parseDigits : Nat → List Char → Option Nat
  | n, [] => some n
  | n, ch :: rest => if isDigit ch then parseDigits (n * 10 + (ch.toNat - 48)) rest else none

/-- The two errors of `strconv.Atoi`. -/
inductive NumError where
  | ErrSyntax
  | ErrRange
  deriving DecidableEq, Repr

/-- The digits loop of `strconv.Atoi` and its range check, on the string after the sign;
`neg` tells that the sign was `-`. -/
def atoiDigits (neg : Bool) (body : List Char) : Except NumError Int :=
  match body with
  | [] => .error .ErrSyntax
  | _ :: _ =>
    match parseDigits 0 body with
    | none => .error .ErrSyntax
    | some n =>
      let v : Int := if neg then -(n : Int) else (n : Int)
      if v < minInt ∨ maxInt < v then .error .ErrRange else .ok v

/-- Model of `strconv.Atoi` for a 64 bit `int`: an optional sign, then at least one
decimal digit and nothing else; a value outside the range of `int` is `ErrRange`. -/
def Atoi (s : List Char) : Except NumError Int :=
  atoiDigits (decide (s.head? = some '-'))
    (if s.head? = some '-' ∨ s.head? = some '+' then s.tail else s)

/-- The character of a digit `d < 10`. -/
def digitChar (d : Nat) : Char := Char.ofNat (48 + d)

/-- Decimal digits of a natural number, most significant first (`fuel` bounds the
number of digits). -/
def natDigitsFuel : Nat → Nat → List Char
  | 0, _ => []
  | fuel + 1, n =>
    if n < 10 then [digitChar n] else natDigitsFuel fuel (n / 10) ++ [digitChar (n % 10)]

def natDigits (n : Nat) : List Char := natDigitsFuel (n + 1) n

/-- Model of `strconv.Itoa`. -/
def Itoa (i : Int) : List Char :=
  if i < 0 then '-' :: natDigits i.natAbs else natDigits i.natAbs

/-! ## `parse_split` -/

/-- The errors `parse_split` returns. -/
inductive SplitError where
  | atoi (e : NumError)
  | unknowSplit
  deriving DecidableEq, Repr

def strDay : List Char := ['d', 'a', 'y']
def strHour : List Char := ['h', 'o', 'u', 'r']
def strMin : List Char := ['m', 'i', 'n']
def strM : List Char := ['m']

/-- Embedding of `parse_split`: the result is `(id, value)` when `err == nil`.
`caseTable` is the case mapping that `strings.ToLower` applies to the runes outside
ASCII. -/
def parse_split (caseTable : Char → Char) (split : List Char) : Except SplitError (Nat × Int) :=
  let split := ToLower caseTable split
  if split = strDay then .ok (SPLIT_DAY, 1)
  else if HasSuffix split strHour then
    match Atoi (TrimSuffix split strHour) with
    | .error e => .error (.atoi e)
    | .ok value => .ok (SPLIT_HOUR, if value < 1 ∨ value > 23 then 1 else value)
  else if HasSuffix split strMin then
    match Atoi (TrimSuffix split strMin) with
    | .error e => .error (.atoi e)
    | .ok value => .ok (SPLIT_MIN, if value > 60 ∨ value < 5 then 5 else value)
  else if HasSuffix split strM then
    match Atoi (TrimSuffix split strM) with
    | .error e => .error (.atoi e)
    | .ok value => .ok (SPLIT_SIZE, if value < 1 then 1 else value)
  else .error .unknowSplit

/-! ## Maps -/

/-- Read of a Go map: `none` when the key is absent. -/
def mapGet? {K V : Type} [DecidableEq K] : List (K × V) → K → Option V
  | [], _ => none
  | (k1, v) :: rest, k => if k1 = k then some v else mapGet? rest k

/-- Assignment `m[k] = v` of a Go map. -/
def mapSet {K V : Type} [DecidableEq K] : List (K × V) → K → V → List (K × V)
  | [], k, v => [(k, v)]
  | (k1, v1) :: rest, k, v => if k1 = k then (k, v) :: rest else (k1, v1) :: mapSet rest k v

def mapKeys {K V : Type} (m : List (K × V)) : List K := m.map Prod.fst

/-! ## Time and formatting -/

/-- A reading of `time.Now()` in local time, broken into its calendar fields. -/
structure Time where
  year : Nat
  month : Nat
  day : Nat
  hour : Nat
  minute : Nat
  second : Nat
  deriving DecidableEq, Repr

/-- Model of the verb `%02d` of `fmt.Sprintf`. -/
def fmt02d (n : Int) : List Char :=
  if n < 0 then '-' :: natDigits n.natAbs
  else if n < 10 then '0' :: natDigits n.natAbs
  else natDigits n.natAbs

/-- Model of `Time.Format("060102")`: two digits each of year, month, day. -/
def Format060102 (t : Time) : List Char :=
  fmt02d ((t.year % 100 : Nat) : Int) ++ fmt02d (t.month : Int) ++ fmt02d (t.day : Int)

/-- Model of `Time.Format("06010215")`. -/
def Format06010215 (t : Time) : List Char :=
  Format060102 t ++ fmt02d (t.hour : Int)

/-- Model of `Time.Format("06/01/02 15:04:05")`. -/
def FormatStamp (t : Time) : List Char :=
  fmt02d ((t.year % 100 : Nat) : Int) ++ '/' :: fmt02d (t.month : Int) ++ '/' :: fmt02d (t.day : Int)
    ++ ' ' :: fmt02d (t.hour : Int) ++ ':' :: fmt02d (t.minute : Int) ++ ':' :: fmt02d (t.second : Int)

/-- Model of the verb `%-7s`: the string padded with blanks on the right to seven runes. -/
def fmtLeft7 (s : List Char) : List Char := s ++ List.replicate (7 - s.length) ' '

/-- Length of a Go string in bytes. -/
def byteLen (s : List Char) : Int := ((s.map Char.utf8Size).sum : Nat)

/-- Last element of `strings.Split(s, ".")`: what follows the last dot, or all of `s`. -/
def lastDotField (s : List Char) : List Char :=
  (s.reverse.takeWhile (fun c => decide (c ≠ '.'))).reverse

/-! ## Data model of `glog.go` -/

structure LevelConf where
  Level : Nat
  IsPrint : Bool
  FileName : List Char
  deriving DecidableEq, Repr

structure Log where
  Buf : Int
  FlushTime : Int
  Split : List Char
  Level : Nat
  FileMode : Nat
  isClosed : Bool
  levelConf : List (Nat × LevelConf)
  deriving DecidableEq, Repr

structure logMsg where
  level : Nat
  str : List Char
  deriving DecidableEq, Repr

structure split where
  id : Nat
  value : Int
  deriving DecidableEq, Repr

/-- A non-nil `*os.File`: the handle is identified by the name it was opened with. -/
structure File where
  name : List Char
  deriving DecidableEq, Repr

structure runtime where
  fileName : List (Nat × List Char)
  files : List (List Char × Option File)
  bufsCounter : List (List Char × Int)
  fileSizeCounter : List (List Char × Int)
  writeBufs : List (List Char × List (List Char))
  split : Glog.split
  deriving DecidableEq, Repr

/-- `LevelToStr`. -/
def LevelToStr : List (Nat × List Char) :=
  [(ERROR, ['E', 'R', 'R', 'O', 'R']), (WARNING, ['W', 'A', 'R', 'N', 'I', 'N', 'G']),
   (NOTICE, ['N', 'O', 'T', 'I', 'C', 'E']), (INFO, ['I', 'N', 'F', 'O']),
   (DEBUG, ['D', 'E', 'B', 'U', 'G'])]

/-- `Level.String`. -/
def Level.String (t : Nat) : List Char := (mapGet? LevelToStr t).getD []

/-! ## The environment of the worker -/

/-- What the worker sees of the outside: the clock, the file system, the order in
which `range` visits a map, and the case tables of the `unicode` package.  `trace` is the
history of `WriteString` calls, each with the logical destination it was made for, the
name of the handle and the text. -/
structure World where
  caseTable : Char → Char
  now : Nat → Time
  reads : Nat
  ioFails : Nat → Bool
  ios : Nat
  rangeOrder : Nat → (α : Type) → List α → List α
  ranges : Nat
  disk : List (List Char × List Char)
  trace : List (List Char × List Char × List Char)

/-- The panics of the package and of the Go runtime that the code can raise. -/
inductive Panic where
  | splitConfig (e : SplitError)
  | createFile
  | indexOutOfRange
  | divideByZero
  | makeSliceLen
  | nilDereference
  | typeAssertion
  | nonPositiveInterval
  deriving DecidableEq, Repr

/-- The error value of a failed `os.OpenFile` or `File.Stat`. -/
inductive IOError where
  | open
  | stat
  deriving DecidableEq, Repr

/-- One call of `time.Now()`. -/
def World.readClock (w : World) : Time × World :=
  (w.now w.reads, { w with reads := w.reads + 1 })

/-- The order in which one `range` loop visits the entries of a map. -/
def World.range (w : World) (α : Type) (m : List α) : List α × World :=
  (w.rangeOrder w.ranges α m, { w with ranges := w.ranges + 1 })

/-- On-disk size of a file, as `Stat().Size()` reports it. -/
def World.size (w : World) (name : List Char) : Int :=
  byteLen ((mapGet? w.disk name).getD [])

/-- `WriteString` on the handle `fd` (opened with `O_APPEND`), made for destination `dest`. -/
def World.writeString (w : World) (dest : List Char) (fd : File) (text : List Char) : World :=
  { w with
    disk := mapSet w.disk fd.name ((mapGet? w.disk fd.name).getD [] ++ text)
    trace := w.trace ++ [(dest, fd.name, text)] }

/-- Embedding of `createFile`: `os.OpenFile` with `O_RDWR|O_APPEND|O_CREATE`. -/
def createFile (w : World) (fileName : List Char) : Except IOError File × World :=
  if w.ioFails w.ios then (.error .open, { w with ios := w.ios + 1 })
  else
    (.ok { name := fileName },
     { w with
       ios := w.ios + 1
       disk := match mapGet? w.disk fileName with
         | some _ => w.disk
         | none => mapSet w.disk fileName [] })

/-- Product of two `int`s. -/
def mul64 (a b : Int) : Int := wrap64 (a * b)

/-- The handle `gruntime.files[fileName]`, `none` for nil or a missing key. -/
def runtime.file (rt : runtime) (fileName : List Char) : Option File :=
  (mapGet? rt.files fileName).getD none

/-! ## `getFile` -/

/-- The `switch` of `getFile` that makes the suffix (lines "make suffix").  The outer
result is a panic of the Go runtime, the inner one the error of `Stat`. -/
def makeSuffix (rt : runtime) (w : World) (fileName : List Char) :
    Except Panic (Except IOError (List Char) × World) :=
  if rt.split.id = SPLIT_DAY then
    let (t, w1) := w.readClock
    .ok (.ok (Format060102 t), w1)
  else if rt.split.id = SPLIT_HOUR then
    let (t1, w1) := w.readClock
    let (t2, w2) := w1.readClock
    if rt.split.value = 0 then .error .divideByZero
    else .ok (.ok (Format060102 t1 ++ fmt02d (Int.tdiv (t2.hour : Int) rt.split.value * rt.split.value)), w2)
  else if rt.split.id = SPLIT_MIN then
    let (t1, w1) := w.readClock
    let (t2, w2) := w1.readClock
    if rt.split.value = 0 then .error .divideByZero
    else .ok (.ok (Format06010215 t1 ++ fmt02d (Int.tdiv (t2.minute : Int) rt.split.value * rt.split.value)), w2)
  else if rt.split.id = SPLIT_SIZE then
    match rt.file fileName with
    | none => .ok (.ok ['1'], w)
    | some old =>
      if w.ioFails w.ios then .ok (.error .stat, { w with ios := w.ios + 1 })
      else
        let w1 := { w with ios := w.ios + 1 }
        let oldSuffix := lastDotField old.name
        match Atoi oldSuffix with
        | .ok i =>
          if w1.size old.name > mul64 (mul64 rt.split.value 1024) 1024 then
            .ok (.ok (Itoa (wrap64 (i + 1))), w1)
          else .ok (.ok oldSuffix, w1)
        | .error _ => .ok (.ok oldSuffix, w1)
  else .ok (.ok [], w)

/-- Embedding of `getFile`: the suffix, the name `fileName.suffix`, then the handle:
opened when none is open, reopened when the name changed, reused otherwise. -/
def getFile (rt : runtime) (w : World) (fileName : List Char) :
    Except Panic (Except IOError File × runtime × World) :=
  match makeSuffix rt w fileName with
  | .error p => .error p
  | .ok (.error e, w1) => .ok (.error e, rt, w1)
  | .ok (.ok suffix, w1) =>
    let newFileName := fileName ++ '.' :: suffix
    match rt.file fileName with
    | none =>
      match createFile w1 newFileName with
      | (.ok fd, w2) => .ok (.ok fd, { rt with files := mapSet rt.files fileName (some fd) }, w2)
      | (.error e, w2) => .ok (.error e, rt, w2)
    | some old =>
      if old.name ≠ newFileName then
        match createFile w1 newFileName with
        | (.ok fd, w2) => .ok (.ok fd, { rt with files := mapSet rt.files fileName (some fd) }, w2)
        | (.error e, w2) => .ok (.error e, rt, w2)
      else .ok (.ok old, rt, w1)

/-! ## The worker -/

/-- The loop of `flush` over the pending lines, each a `WriteString`. -/
def writeLines (w : World) (dest : List Char) (fd : File) : List (List Char) → World
  | [] => w
  | line :: rest => writeLines (w.writeString dest fd line) dest fd rest

/-- Embedding of `flush`: the first `bufsCounter[fileName]` entries of the buffer are
written to `fd` in index order (`Sync` changes nothing in the model). -/
def flush (rt : runtime) (w : World) (fileName : List Char) (fd : File) : Except Panic World :=
  let n := (mapGet? rt.bufsCounter fileName).getD 0
  let buf := (mapGet? rt.writeBufs fileName).getD []
  if (buf.length : Int) < n then .error .indexOutOfRange
  else .ok (writeLines w fileName fd (buf.take n.toNat))

/-- Embedding of `restoreCounter`. -/
def restoreCounter (rt : runtime) : runtime :=
  (mapKeys rt.bufsCounter).foldl
    (fun r fileName =>
      { r with
        bufsCounter := mapSet r.bufsCounter fileName 0
        fileSizeCounter := mapSet r.fileSizeCounter fileName 0 })
    rt

/-- The body of the loop of `flushAll`, over the entries in the order of the visit. -/
def flushEach (rt : runtime) (w : World) :
    List (List Char × Int) → Except Panic (runtime × World)
  | [] => .ok (rt, w)
  | (fileName, index) :: rest =>
    if 0 < index ∧ fileName ≠ [] then
      match getFile rt w fileName with
      | .error p => .error p
      | .ok (.error _, _, _) => .error .createFile
      | .ok (.ok fd, rt1, w1) =>
        match flush rt1 w1 fileName fd with
        | .error p => .error p
        | .ok w2 => flushEach rt1 w2 rest
    else flushEach rt w rest

/-- Embedding of `flushAll`. -/
def flushAll (rt : runtime) (w : World) : Except Panic (runtime × World) :=
  let (entries, w0) := w.range (List Char × Int) rt.bufsCounter
  match flushEach rt w0 entries with
  | .error p => .error p
  | .ok (rt1, w1) => .ok (restoreCounter rt1, w1)

/-- Embedding of `initRuntime`. -/
def initRuntime (rt : runtime) : runtime :=
  { rt with fileName := [], files := [], writeBufs := [], bufsCounter := [], fileSizeCounter := [] }

/-- The loop "merge logfiles and init" of `runLogChan`, over the level routes in the order
of the visit; `make([]string, glog.Buf)` panics on a negative length. -/
def mergeLogfiles (buf : Int) (rt : runtime) : List (Nat × LevelConf) → Except Panic runtime
  | [] => .ok rt
  | (_, levelConf) :: rest =>
    if buf < 0 then .error .makeSliceLen
    else
      mergeLogfiles buf
        { rt with
          fileName := mapSet rt.fileName levelConf.Level levelConf.FileName
          files := mapSet rt.files levelConf.FileName none
          writeBufs := mapSet rt.writeBufs levelConf.FileName (List.replicate buf.toNat [])
          bufsCounter := mapSet rt.bufsCounter levelConf.FileName 0 }
        rest

/-- The destination `gruntime.fileName[level]` of a level (empty for a missing key). -/
def runtime.route (rt : runtime) (level : Nat) : List Char := (mapGet? rt.fileName level).getD []

/-- The pending counter `gruntime.bufsCounter[fileName]`. -/
def runtime.counter (rt : runtime) (fileName : List Char) : Int :=
  (mapGet? rt.bufsCounter fileName).getD 0

/-- The buffer `gruntime.writeBufs[fileName]` (a nil slice for a missing key). -/
def runtime.buffer (rt : runtime) (fileName : List Char) : List (List Char) :=
  (mapGet? rt.writeBufs fileName).getD []

/-- The pending lines of a destination: the first `counter` entries of its buffer. -/
def runtime.pending (rt : runtime) (fileName : List Char) : List (List Char) :=
  (rt.buffer fileName).take (rt.counter fileName).toNat

/-- The three statements "write to buf" of the worker: the record is stored at `bufIndex`,
the pending counter is incremented and the length of the record added to the byte counter. -/
def storeRecord (rt : runtime) (fileName : List Char) (bufIndex : Int) (logStr : List Char) :
    runtime :=
  { rt with
    writeBufs := mapSet rt.writeBufs fileName ((rt.buffer fileName).set bufIndex.toNat logStr)
    bufsCounter := mapSet rt.bufsCounter fileName (bufIndex + 1)
    fileSizeCounter := mapSet rt.fileSizeCounter fileName
      (wrap64 ((mapGet? rt.fileSizeCounter fileName).getD 0 + byteLen logStr)) }

/-- The condition "writeBuf full, flush now" of the worker. -/
def flushNow (glog : Log) (rt : runtime) (fileName : List Char) (bufIndex : Int) : Prop :=
  bufIndex ≥ glog.Buf - 1 ∨
    (rt.split.id = SPLIT_SIZE ∧
      (mapGet? rt.fileSizeCounter fileName).getD 0 > mul64 (mul64 rt.split.value 1024) 1024)

instance (glog : Log) (rt : runtime) (fileName : List Char) (bufIndex : Int) :
    Decidable (flushNow glog rt fileName bufIndex) := by
  unfold flushNow
  exact inferInstance

/-- The resets after the flush of one destination: the pending counter, and in size mode
the byte counter. -/
def resetCounters (rt : runtime) (fileName : List Char) : runtime :=
  let rt1 : runtime := { rt with bufsCounter := mapSet rt.bufsCounter fileName 0 }
  if rt1.split.id = SPLIT_SIZE then
    { rt1 with fileSizeCounter := mapSet rt1.fileSizeCounter fileName 0 }
  else rt1

/-- The `case logMsg := <-logChan` of the loop of `runLogChan`, for a message that is not
the close signal. -/
def handleRecord (glog : Log) (rt : runtime) (w : World) (m : logMsg) :
    Except Panic (runtime × World) :=
  let fileName := rt.route m.level
  let bufIndex := rt.counter fileName
  if bufIndex < 0 ∨ ((rt.buffer fileName).length : Int) ≤ bufIndex then .error .indexOutOfRange
  else
    let rt1 := storeRecord rt fileName bufIndex m.str
    if flushNow glog rt1 fileName bufIndex then
      match getFile rt1 w fileName with
      | .error p => .error p
      | .ok (.error _, _, _) => .error .createFile
      | .ok (.ok fd, rt2, w1) =>
        match flush rt2 w1 fileName fd with
        | .error p => .error p
        | .ok w2 => .ok (resetCounters rt2 fileName, w2)
    else .ok (rt1, w)

/-- What the `select` of the worker receives: a message of the channel or a tick. -/
inductive Event where
  | msg (m : logMsg)
  | tick
  deriving DecidableEq, Repr

/-- How a run of the worker over a finite sequence of events ends: `closed` after the
close signal (the deferred function has run and `glog.isClosed` is set), `waiting` when
the events are used up and the worker blocks in `select`. -/
inductive Outcome where
  | closed (rt : runtime) (w : World)
  | waiting (rt : runtime) (w : World)

/-- The loop `L` of `runLogChan` with its deferred function. -/
def workerLoop (glog : Log) (rt : runtime) (w : World) : List Event → Except Panic Outcome
  | [] => .ok (.waiting rt w)
  | .msg m :: rest =>
    if m.level = SIGNAL_CLOSE then
      match flushAll rt w with
      | .error p => .error p
      | .ok (rt1, w1) => .ok (.closed rt1 w1)
    else
      match handleRecord glog rt w m with
      | .error p => .error p
      | .ok (rt1, w1) => workerLoop glog rt1 w1 rest
  | .tick :: rest =>
    match flushAll rt w with
    | .error p => .error p
    | .ok (rt1, w1) => workerLoop glog rt1 w1 rest

/-- Embedding of `runLogChan`, run on the events the `select` delivers; `rt0` is the
value of the global `gruntime` when the worker starts and `glog` the logger the worker
finds in the global `glog`.  `New` starts the worker (`go runLogChan()`) before it assigns
that global: the embedding describes the worker that is scheduled after the assignment.
A worker scheduled before it reads a nil `glog` in its first statement, which is outside
this embedding. -/
def runLogChan (glog : Log) (rt0 : runtime) (w : World) (events : List Event) :
    Except Panic Outcome :=
  match parse_split w.caseTable glog.Split with
  | .error e => .error (.splitConfig e)
  | .ok (splitId, splitValue) =>
    let rt1 := initRuntime { rt0 with split := { id := splitId, value := splitValue } }
    let (confs, w1) := w.range (Nat × LevelConf) glog.levelConf
    match mergeLogfiles glog.Buf rt1 confs with
    | .error p => .error p
    | .ok rt2 => workerLoop glog rt2 w1 events

/-! ## `New`, the emit calls and `Close` -/

/-- One argument of the variadic `New(args ...interface{})`, by its dynamic type. -/
inductive Arg where
  | log (l : Log)
  | levelMap (m : List (Nat × LevelConf))
  | levelConf (c : LevelConf)
  | other
  deriving DecidableEq, Repr

/-- The package variables `glog` and `logChan`, the standard output and the number of
worker goroutines started. -/
structure Globals where
  glog : Option Log
  logChan : List logMsg
  stdout : List (List Char)
  workers : Nat
  deriving DecidableEq, Repr

/-- The errors `New` returns. -/
inductive NewError where
  | arg0
  | arg (i : Nat)
  deriving DecidableEq, Repr

/-- The default level config of `New`. -/
def defaultLevelConf : List (Nat × LevelConf) :=
  [(ERROR, { Level := ERROR, IsPrint := true, FileName := [] }),
   (WARNING, { Level := WARNING, IsPrint := true, FileName := [] }),
   (NOTICE, { Level := NOTICE, IsPrint := true, FileName := [] }),
   (INFO, { Level := INFO, IsPrint := true, FileName := [] }),
   (DEBUG, { Level := DEBUG, IsPrint := true, FileName := [] })]

/-- The default `Log` of `New`. -/
def defaultLog : Log :=
  { Buf := DEFAULT_BUFFER_SIZE, FlushTime := 1000, Split := strDay, Level := 7, FileMode := 0o400,
    isClosed := false, levelConf := defaultLevelConf }

/-- Assignments `levelConf[t] = c` for the entries of a map argument. -/
def setAll (levelConf : List (Nat × LevelConf)) : List (Nat × LevelConf) → List (Nat × LevelConf)
  | [] => levelConf
  | (t, c) :: rest => setAll (mapSet levelConf t c) rest

/-- The loop `for i, arg := range args[1:]` of `New`; `arg1` is `args[1]`, which the map
case asserts to be a map whatever the position of `arg`. -/
def setLevelConfs (arg1 : Option Arg) :
    Nat → List Arg → List (Nat × LevelConf) × Option NewError →
      Except Panic (List (Nat × LevelConf) × Option NewError)
  | _, [], acc => .ok acc
  | i, .levelMap _ :: rest, (levelConf, err) =>
    match arg1 with
    | some (.levelMap m) => setLevelConfs arg1 (i + 1) rest (setAll levelConf m, err)
    | _ => .error .typeAssertion
  | i, .levelConf c :: rest, (levelConf, err) =>
    setLevelConfs arg1 (i + 1) rest (mapSet levelConf c.Level c, err)
  | i, _ :: rest, (levelConf, _) =>
    setLevelConfs arg1 (i + 1) rest (levelConf, some (.arg i))

/-- Embedding of `New`: the logger returned, the error returned and the package state. -/
def New (g : Globals) (args : List Arg) : Except Panic (Log × Option NewError × Globals) :=
  match g.glog with
  | some existing => .ok (existing, none, g)
  | none =>
    let parsed : Except Panic (Log × Option NewError) :=
      match args with
      | [] => .ok (defaultLog, none)
      | .log l :: rest =>
        let log : Log :=
          { defaultLog with
            Buf := l.Buf, FlushTime := l.FlushTime, Split := l.Split, Level := l.Level,
            FileMode := l.FileMode }
        match setLevelConfs rest.head? 0 rest (log.levelConf, none) with
        | .error p => .error p
        | .ok (levelConf, err) => .ok ({ log with levelConf := levelConf }, err)
      | _ :: _ => .ok (defaultLog, some .arg0)
    match parsed with
    | .error p => .error p
    | .ok (log0, err) =>
      let log : Log := if log0.Buf < CHAN_BUFFER_SIZE then { log0 with Buf := CHAN_BUFFER_SIZE } else log0
      if mul64 log.FlushTime 1000000 ≤ 0 then .error .nonPositiveInterval
      else .ok (log, err, { g with glog := some log, logChan := [], workers := g.workers + 1 })

/-- Embedding of `format`. -/
def format (level : List Char) (logStr : List Char) (now : Time) : List Char :=
  fmtLeft7 level ++ '\t' :: FormatStamp now ++ '\t' :: logStr ++ ['\n']

/-- Embedding of `(*Log).write`.  `Sprintf` stands for `fmt.Sprintf` on the template and
its arguments and `now` for the reading of the clock in `format`. -/
def Log.write (Sprintf : List Char → List (List Char) → List Char) (log : Log) (g : Globals)
    (level : Nat) (logStr : List Char) (args : List (List Char)) (now : Time) :
    Except Panic Globals :=
  if Nat.land level log.Level ≠ level then .ok g
  else
    let logStr1 := if 0 < args.length then Sprintf logStr args else logStr
    let m : logMsg := { level := level, str := format (Level.String level) logStr1 now }
    match g.glog with
    | none => .error .nilDereference
    | some gl =>
      let conf : LevelConf :=
        (mapGet? gl.levelConf level).getD { Level := 0, IsPrint := false, FileName := [] }
      let g1 : Globals := if conf.IsPrint then { g with stdout := g.stdout ++ [m.str] } else g
      if conf.FileName = [] then .ok g1
      else .ok { g1 with logChan := g1.logChan ++ [m] }

/-- The message `Close` puts on the channel. -/
def closeMsg : logMsg := { level := SIGNAL_CLOSE, str := [] }

/-- The emit calls `Error`, `Warning`, `Notice`, `Info` and `Debug`. -/
def Log.Error (Sprintf : List Char → List (List Char) → List Char) (log : Log) (g : Globals)
    (logStr : List Char) (args : List (List Char)) (now : Time) : Except Panic Globals :=
  log.write Sprintf g ERROR logStr args now

def Log.Warning (Sprintf : List Char → List (List Char) → List Char) (log : Log) (g : Globals)
    (logStr : List Char) (args : List (List Char)) (now : Time) : Except Panic Globals :=
  log.write Sprintf g WARNING logStr args now

def Log.Notice (Sprintf : List Char → List (List Char) → List Char) (log : Log) (g : Globals)
    (logStr : List Char) (args : List (List Char)) (now : Time) : Except Panic Globals :=
  log.write Sprintf g NOTICE logStr args now

def Log.Info (Sprintf : List Char → List (List Char) → List Char) (log : Log) (g : Globals)
    (logStr : List Char) (args : List (List Char)) (now : Time) : Except Panic Globals :=
  log.write Sprintf g INFO logStr args now

def Log.Debug (Sprintf : List Char → List (List Char) → List Char) (log : Log) (g : Globals)
    (logStr : List Char) (args : List (List Char)) (now : Time) : Except Panic Globals :=
  log.write Sprintf g DEBUG logStr args now

/-- The five emit methods of `*Log`. -/
inductive Method where
  | Error
  | Warning
  | Notice
  | Info
  | Debug
  deriving DecidableEq, Repr

/-- The level an emit method passes to `write`. -/
def Method.level : Method → Nat
  | .Error => ERROR
  | .Warning => WARNING
  | .Notice => NOTICE
  | .Info => INFO
  | .Debug => DEBUG

/-- The call of an emit method on `log`. -/
def Log.emit (Sprintf : List Char → List (List Char) → List Char) (log : Log) (g : Globals)
    (method : Method) (logStr : List Char) (args : List (List Char)) (now : Time) :
    Except Panic Globals :=
  match method with
  | .Error => log.Error Sprintf g logStr args now
  | .Warning => log.Warning Sprintf g logStr args now
  | .Notice => log.Notice Sprintf g logStr args now
  | .Info => log.Info Sprintf g logStr args now
  | .Debug => log.Debug Sprintf g logStr args now

/-- What happens between `New` and `Close`, as the worker can observe it: a call of one of
the emit methods, or the ticker firing. -/
inductive Action where
  | emit (method : Method) (logStr : List Char) (args : List (List Char)) (now : Time)
  | tick
  deriving DecidableEq, Repr

/-- The events the worker receives for a sequence of actions: each emit call runs on an
empty channel and the worker receives what the call left on it. -/
def drive (Sprintf : List Char → List (List Char) → List Char) (log : Log) (g : Globals) :
    List Action → Except Panic (List Event × Globals)
  | [] => .ok ([], g)
  | .tick :: rest =>
    match drive Sprintf log g rest with
    | .error p => .error p
    | .ok (events, g1) => .ok (.tick :: events, g1)
  | .emit method logStr args now :: rest =>
    match log.emit Sprintf { g with logChan := [] } method logStr args now with
    | .error p => .error p
    | .ok g1 =>
      match drive Sprintf log { g1 with logChan := [] } rest with
      | .error p => .error p
      | .ok (events, g2) => .ok (g1.logChan.map Event.msg ++ events, g2)

/-- A whole life of the logger after `New`: the actions, then `Close`; the result is how
the worker ends. -/
def runSession (Sprintf : List Char → List (List Char) → List Char) (log : Log) (g : Globals)
    (rt0 : runtime) (w : World) (actions : List Action) : Except Panic Outcome :=
  match drive Sprintf log g actions with
  | .error p => .error p
  | .ok (events, _) => runLogChan log rt0 w (events ++ [Event.msg closeMsg])

/-- The texts written for the logical destination `dest`, in write order. -/
def World.written (w : World) (dest : List Char) : List (List Char) :=
  (w.trace.filter (fun e => decide (e.1 = dest))).map (fun e => e.2.2)

/-! ## Notions of the specification, stated independently of the code -/

/-- Value of a sequence of decimal digits, most significant first. -/
def digitsValue (digits : List Char) : Nat :=
  digits.foldl (fun acc c => 10 * acc + (c.toNat - 48)) 0

/-- The string `s` is a decimal integer denoting `N`: an optional sign followed by one or
more decimal digits. -/
def DecimalInteger (s : List Char) (N : Int) : Prop :=
  ∃ digits : List Char, digits ≠ [] ∧ (∀ c ∈ digits, isDigit c = true) ∧
    ((s = digits ∧ N = digitsValue digits) ∨ (s = '+' :: digits ∧ N = digitsValue digits) ∨
      (s = '-' :: digits ∧ N = -(digitsValue digits : Int)))

/-- The rotation spec strings of the specification, on a lower-cased string: `day`, or a
decimal integer immediately followed by `hour`, `min` or `m`. -/
def RecognizedSpec (s : List Char) : Prop :=
  s = strDay ∨ ∃ (body : List Char) (N : Int), DecimalInteger body N ∧
    (s = body ++ strHour ∨ s = body ++ strMin ∨ s = body ++ strM)

/-- The recognized strings whose integer fits the type `int`. -/
def RecognizedSpecInRange (s : List Char) : Prop :=
  s = strDay ∨ ∃ (body : List Char) (N : Int), DecimalInteger body N ∧ minInt ≤ N ∧ N ≤ maxInt ∧
    (s = body ++ strHour ∨ s = body ++ strMin ∨ s = body ++ strM)

/-- The result is an error. -/
def isError {ε α : Type} : Except ε α → Bool
  | .error _ => true
  | .ok _ => false

/-- The two-digit rendering of a number below one hundred. -/
def twoDigits (n : Nat) : List Char := [digitChar (n / 10), digitChar (n % 10)]

/-- The fields of a clock reading are in their calendar ranges. -/
def Time.Valid (t : Time) : Prop :=
  1 ≤ t.month ∧ t.month ≤ 12 ∧ 1 ≤ t.day ∧ t.day ≤ 31 ∧ t.hour ≤ 23 ∧ t.minute ≤ 59 ∧
    t.second ≤ 59

instance (t : Time) : Decidable t.Valid := by
  unfold Time.Valid
  exact inferInstance

/-- The world `w2` has the clock, the failures and the visiting orders of `w1` and the
same history of writes: only counters and the disk may differ. -/
def World.SameEnv (w1 w2 : World) : Prop :=
  w2.trace = w1.trace ∧ w2.ioFails = w1.ioFails ∧ w2.now = w1.now ∧
    w2.rangeOrder = w1.rangeOrder ∧ w2.ranges = w1.ranges

/-- The name of the handle a call of `getFile` returns, when it returns one. -/
def resolvedName (r : Except Panic (Except IOError File × runtime × World)) : Option (List Char) :=
  match r with
  | .ok (.ok fd, _, _) => some fd.name
  | _ => none

/-- A case table for examples: U+0130 (capital I with dot above) has the small letter `i`
and U+212A (the Kelvin sign) the small letter `k`, as in every version of the Unicode
tables; the other runes are left as they are. -/
def exampleCaseTable (c : Char) : Char :=
  if c.toNat = 304 then 'i' else if c.toNat = 8490 then 'k' else c

/-- A world for examples: the clock stands at 2024-01-02 03:04:05, no call fails, maps are
visited in insertion order, the case table is `exampleCaseTable`, and the disk holds the
given files. -/
def exampleWorld (disk : List (List Char × List Char)) : World :=
  { caseTable := exampleCaseTable
    now := fun _ => { year := 2024, month := 1, day := 2, hour := 3, minute := 4, second := 5 }
    reads := 0
    ioFails := fun _ => false
    ios := 0
    rangeOrder := fun _ _ m => m
    ranges := 0
    disk := disk
    trace := [] }

/-- A world for examples whose clock stands at the given reading. -/
def exampleWorldAt (t : Time) : World :=
  { exampleWorld [] with now := fun _ => t }

/-- The runtime of a worker for examples: one destination `fileName`, with the given open
handle, in the given split mode. -/
def exampleRuntime (fileName : List Char) (fd : Option File) (sp : Glog.split) : runtime :=
  { fileName := [], files := [(fileName, fd)], bufsCounter := [(fileName, 0)],
    fileSizeCounter := [], writeBufs := [(fileName, [])], split := sp }

/-! ## State of the worker, as the proofs read it -/

/-- No `os.OpenFile` and no `Stat` fails. -/
def World.NoFailure (w : World) : Prop := ∀ i, w.ioFails i = false

/-- Every `range` loop visits each entry of its map exactly once. -/
def World.FairRange (w : World) : Prop :=
  ∀ (n : Nat) (α : Type) (m : List α), (w.rangeOrder n α m).Perm m

/-- The world `w2` has the clock, the failures and the visiting orders of `w1`. -/
def World.SameOracles (w1 w2 : World) : Prop :=
  w2.ioFails = w1.ioFails ∧ w2.rangeOrder = w1.rangeOrder ∧ w2.now = w1.now

/-- The invariant of the running worker: the buffer size is positive, the tracked
destinations are distinct, each has a buffer of `Buf` entries and a pending counter in
`[0, Buf)`, and the time modes have a non-zero magnitude. -/
structure Ready (glog : Log) (rt : runtime) : Prop where
  buf_pos : 1 ≤ glog.Buf
  nodup : (mapKeys rt.bufsCounter).Nodup
  bounds : ∀ d ∈ mapKeys rt.bufsCounter,
    0 ≤ rt.counter d ∧ rt.counter d < glog.Buf ∧ ((rt.buffer d).length : Int) = glog.Buf
  divsafe : rt.split.id = SPLIT_HOUR ∨ rt.split.id = SPLIT_MIN → rt.split.value ≠ 0

/-- The level of the message has a tracked destination. -/
def runtime.Routed (rt : runtime) (level : Nat) : Prop :=
  rt.route level ∈ mapKeys rt.bufsCounter

instance (rt : runtime) (level : Nat) : Decidable (rt.Routed level) := by
  unfold runtime.Routed
  exact inferInstance

/-- The runtime `rt2` has the routes, counters, buffers and split of `rt1`: only the open
handles may differ. -/
def runtime.SameBuffers (rt1 rt2 : runtime) : Prop :=
  rt2.bufsCounter = rt1.bufsCounter ∧ rt2.writeBufs = rt1.writeBufs ∧
    rt2.fileName = rt1.fileName ∧ rt2.split = rt1.split ∧
    rt2.fileSizeCounter = rt1.fileSizeCounter

/-- The texts of the messages among `events` whose level has the destination `d` under the
routing `route`, in arrival order. -/
def routedTexts (route : Nat → List Char) (events : List Event) (d : List Char) :
    List (List Char) :=
  events.filterMap (fun e =>
    match e with
    | .msg m => if route m.level = d then some m.str else none
    | .tick => none)

/-- The destination the configuration gives a level: `glog.levelConf[level].FileName`. -/
def Log.dest (glog : Log) (level : Nat) : List Char :=
  ((mapGet? glog.levelConf level).getD { Level := 0, IsPrint := false, FileName := [] }).FileName

/-- The package state before the first `New`. -/
def freshGlobals : Globals := { glog := none, logChan := [], stdout := [], workers := 0 }

/-- The value of `gruntime` before the first worker starts. -/
def zeroRuntime : runtime :=
  { fileName := [], files := [], bufsCounter := [], fileSizeCounter := [], writeBufs := [],
    split := { id := 0, value := 0 } }

/-- The texts a finished run of the worker has written for `dest`; `none` when the worker
did not leave its loop through the close signal. -/
def writtenAtClose (r : Except Panic Outcome) (dest : List Char) : Option (List (List Char)) :=
  match r with
  | .ok (.closed _ w) => some (w.written dest)
  | _ => none

/-- A stand-in for `fmt.Sprintf` in examples without arguments. -/
def noSprintf : List Char → List (List Char) → List Char := fun s _ => s

/-- The arguments `Log{Buf: 10240, FlushTime: 1000, Split: "day", Level: 7, FileMode: 0400}`
and `map[Level]LevelConf{ERROR: {IsPrint: false, FileName: "a.log"}}`, the `Level` field of
the route left at its zero value. -/
def misKeyedArgs : List Arg :=
  [.log defaultLog, .levelMap [(ERROR, { Level := 0, IsPrint := false, FileName := "a.log".toList })]]

/-- The logger `New` returns for `misKeyedArgs`. -/
def misKeyedLog : Log :=
  { defaultLog with
    levelConf := mapSet defaultLevelConf ERROR { Level := 0, IsPrint := false, FileName := "a.log".toList } }

/-- The clock reading of the examples. -/
def exampleTime : Time :=
  { year := 2024, month := 1, day := 2, hour := 3, minute := 4, second := 5 }

/-- The arguments `Log{Buf: -5, FlushTime: 1000, Split: "day", Level: 7, FileMode: 0400}`
and `LevelConf{Level: ERROR, IsPrint: false, FileName: "a.log"}`. -/
def routedArgs : List Arg :=
  [.log { defaultLog with Buf := -5 },
   .levelConf { Level := ERROR, IsPrint := false, FileName := "a.log".toList }]

/-- The logger `New` returns for `routedArgs`. -/
def routedLog : Log :=
  { defaultLog with
    Buf := 1024
    levelConf := mapSet defaultLevelConf ERROR
      { Level := ERROR, IsPrint := false, FileName := "a.log".toList } }

/-- The arguments `Log{Buf: 1024, FlushTime: 1000, Split: "1m", Level: 7, FileMode: 0400}`
and `LevelConf{Level: ERROR, IsPrint: false, FileName: "a.log"}`. -/
def sizeArgs : List Arg :=
  [.log { defaultLog with Buf := 1024, Split := "1m".toList },
   .levelConf { Level := ERROR, IsPrint := false, FileName := "a.log".toList }]

/-- The logger `New` returns for `sizeArgs`. -/
def sizeLog : Log :=
  { routedLog with Split := "1m".toList }

/-- The record `Error` queues for a message of 1048577 bytes. -/
def bigMsg : logMsg :=
  { level := ERROR, str := format (Level.String ERROR) (List.replicate 1048577 'x') exampleTime }

/-- The record `Error` queues for the message `y`. -/
def smallMsg : logMsg :=
  { level := ERROR, str := format (Level.String ERROR) ['y'] exampleTime }

/-- The record `Error` queues for the message `x`. -/
def smallMsgX : logMsg :=
  { level := ERROR, str := format (Level.String ERROR) ['x'] exampleTime }

/-- The pending counter of `dest` in the state in which the worker waits for its next
event; `none` when the run ended otherwise. -/
def counterWaiting (r : Except Panic Outcome) (dest : List Char) : Option Int :=
  match r with
  | .ok (.waiting rt _) => some (rt.counter dest)
  | _ => none

/-- The texts written for `dest` when the worker waits for its next event; `none` when
the run ended otherwise. -/
def writtenWaiting (r : Except Panic Outcome) (dest : List Char) : Option (List (List Char)) :=
  match r with
  | .ok (.waiting _ w) => some (w.written dest)
  | _ => none

/-! ## Decimal numerals -/


theorem toLowerRune_fixed (caseTable : Char → Char) (c : Char) (h : c.toNat < 65) :
    toLowerRune caseTable c = c := by
  unfold toLowerRune
  rw [if_pos (by omega), if_neg (by omega)]

theorem toLowerRune_ascii (t1 t2 : Char → Char) (c : Char) (h : c.toNat ≤ 127) :
    toLowerRune t1 c = toLowerRune t2 c := by
  unfold toLowerRune
  rw [if_pos h, if_pos h]

theorem digitChar_spec (d : Nat) (h : d < 10) :
    isDigit (digitChar d) = true ∧ (digitChar d).toNat - 48 = d ∧ digitChar d ≠ '-' ∧
      digitChar d ≠ '+' ∧ digitChar d ≠ '.' ∧ (digitChar d).toNat < 65 := by
  interval_cases d <;> decide

theorem parseDigits_append (xs : List Char) (c : Char) (a : Nat) :
    parseDigits a (xs ++ [c]) =
      (parseDigits a xs).bind (fun v => if isDigit c then some (v * 10 + (c.toNat - 48)) else none) := by
  induction xs generalizing a with
  | nil => simp [parseDigits]
  | cons x xs ih =>
    simp only [List.cons_append, parseDigits]
    split
    · exact ih _
    · rfl

theorem parseDigits_natDigitsFuel (fuel n : Nat) (h : n < fuel) :
    parseDigits 0 (natDigitsFuel fuel n) = some n := by
  induction fuel generalizing n with
  | zero => omega
  | succ fuel ih =>
    unfold natDigitsFuel
    split
    · rename_i h10
      simp [parseDigits, (digitChar_spec n h10).1, (digitChar_spec n h10).2.1]
    · rename_i h10
      have hd := digitChar_spec (n % 10) (Nat.mod_lt _ (by norm_num))
      rw [parseDigits_append, ih (n / 10) (by omega)]
      simp [hd.1, hd.2.1]
      omega

theorem parseDigits_eq (digits : List Char) (a : Nat) (h : ∀ c ∈ digits, isDigit c = true) :
    parseDigits a digits = some (digits.foldl (fun acc c => 10 * acc + (c.toNat - 48)) a) := by
  induction digits generalizing a with
  | nil => rfl
  | cons c cs ih =>
    have hc := h c (by simp)
    simp only [parseDigits, hc, if_true, List.foldl_cons]
    rw [ih _ (fun x hx => h x (by simp [hx])), Nat.mul_comm]

theorem parseDigits_some (digits : List Char) (a n : Nat) (h : parseDigits a digits = some n) :
    ∀ c ∈ digits, isDigit c = true := by
  induction digits generalizing a with
  | nil => simp
  | cons c cs ih =>
    simp only [parseDigits] at h
    split at h
    · rename_i hc
      intro x hx
      rcases List.mem_cons.1 hx with rfl | hx
      · exact hc
      · exact ih _ h x hx
    · exact absurd h (by simp)

theorem isDigit_not_sign (c : Char) (h : isDigit c = true) : c ≠ '-' ∧ c ≠ '+' := by
  constructor <;> rintro rfl <;> revert h <;> decide

theorem atoiDigits_ok_iff (neg : Bool) (body : List Char) (v : Int) :
    atoiDigits neg body = .ok v ↔
      body ≠ [] ∧ (∀ c ∈ body, isDigit c = true) ∧
        v = (if neg then -(digitsValue body : Int) else (digitsValue body : Int)) ∧
        minInt ≤ v ∧ v ≤ maxInt := by
  rcases body with _ | ⟨c, cs⟩
  · simp [atoiDigits]
  · cases hp : parseDigits 0 (c :: cs) with
    | none =>
      simp only [atoiDigits, hp]
      constructor
      · intro h; exact absurd h (by simp)
      · rintro ⟨_, hdig, _⟩
        rw [parseDigits_eq _ 0 hdig] at hp
        exact absurd hp (by simp)
    | some n =>
      have hdig := parseDigits_some _ _ _ hp
      have hval := parseDigits_eq _ 0 hdig
      rw [hp] at hval
      have hn : n = digitsValue (c :: cs) := by simpa [digitsValue] using hval
      simp only [atoiDigits, hp]
      rw [← hn]
      by_cases hr : ((if neg = true then -(n : Int) else (n : Int)) < minInt ∨
          maxInt < (if neg = true then -(n : Int) else (n : Int)))
      · rw [if_pos hr]
        constructor
        · intro h; exact absurd h (by simp)
        · rintro ⟨_, _, rfl, hlo, hhi⟩
          rcases hr with hr | hr <;> omega
      · rw [if_neg hr]
        push_neg at hr
        constructor
        · intro h
          have hv := Except.ok.inj h
          refine ⟨by simp, hdig, hv.symm, ?_, ?_⟩ <;> rw [← hv]
          · exact hr.1
          · exact hr.2
        · rintro ⟨_, _, rfl, _, _⟩
          rfl

theorem Atoi_ok_iff (s : List Char) (v : Int) :
    Atoi s = .ok v ↔ DecimalInteger s v ∧ minInt ≤ v ∧ v ≤ maxInt := by
  unfold Atoi
  rw [atoiDigits_ok_iff]
  constructor
  · rintro ⟨hne, hdig, hv, hlo, hhi⟩
    refine ⟨?_, hlo, hhi⟩
    rcases s with _ | ⟨x, xs⟩
    · simp at hne
    · by_cases hm : x = '-'
      · subst hm
        simp at hne hdig hv
        exact ⟨xs, hne, hdig, Or.inr (Or.inr ⟨rfl, hv⟩)⟩
      · by_cases hpl : x = '+'
        · subst hpl
          simp at hne hdig hv
          exact ⟨xs, hne, hdig, Or.inr (Or.inl ⟨rfl, hv⟩)⟩
        · simp [hm, hpl] at hne hdig hv
          exact ⟨x :: xs, by simp, by simpa using hdig, Or.inl ⟨rfl, hv⟩⟩
  · rintro ⟨⟨digits, hne, hdig, hcase⟩, hlo, hhi⟩
    obtain ⟨d, ds, rfl⟩ := List.exists_cons_of_ne_nil hne
    have hd := isDigit_not_sign d (hdig d (by simp))
    rcases hcase with ⟨rfl, rfl⟩ | ⟨rfl, rfl⟩ | ⟨rfl, rfl⟩
    · simp [hd.1, hd.2] at hlo hhi ⊢
      exact ⟨by simpa using hdig, hlo, hhi⟩
    · simp at hlo hhi ⊢
      exact ⟨by simpa using hdig, hlo, hhi⟩
    · simp at hlo hhi ⊢
      exact ⟨by simpa using hdig, hlo, hhi⟩

theorem natDigitsFuel_digits (fuel n : Nat) :
    ∀ c ∈ natDigitsFuel fuel n, ∃ d, d < 10 ∧ c = digitChar d := by
  induction fuel generalizing n with
  | zero => simp [natDigitsFuel]
  | succ fuel ih =>
    unfold natDigitsFuel
    split
    · rename_i h10
      intro c hc
      exact ⟨n, h10, by simpa using hc⟩
    · intro c hc
      rcases List.mem_append.1 hc with hc | hc
      · exact ih _ c hc
      · exact ⟨n % 10, Nat.mod_lt _ (by norm_num), by simpa using hc⟩

theorem natDigits_ne_nil (n : Nat) : natDigits n ≠ [] := by
  unfold natDigits natDigitsFuel
  split <;> simp

theorem natDigits_isDigit (n : Nat) : ∀ c ∈ natDigits n, isDigit c = true := by
  intro c hc
  obtain ⟨d, hd, rfl⟩ := natDigitsFuel_digits _ _ c hc
  exact (digitChar_spec d hd).1

theorem digitsValue_natDigits (n : Nat) : digitsValue (natDigits n) = n := by
  have h1 := parseDigits_natDigitsFuel (n + 1) n (by omega)
  have h2 := parseDigits_eq (natDigits n) 0 (natDigits_isDigit n)
  unfold natDigits at h2
  rw [h1] at h2
  exact (Option.some.inj h2).symm

theorem DecimalInteger_Itoa (N : Int) : DecimalInteger (Itoa N) N := by
  refine ⟨natDigits N.natAbs, natDigits_ne_nil _, natDigits_isDigit _, ?_⟩
  unfold Itoa
  rw [digitsValue_natDigits]
  by_cases h : N < 0
  · right; right
    simp only [h, if_true, true_and]
    omega
  · left
    simp only [h, if_false, true_and]
    omega

theorem Atoi_Itoa (N : Int) (hlo : minInt ≤ N) (hhi : N ≤ maxInt) : Atoi (Itoa N) = .ok N :=
  (Atoi_ok_iff _ _).2 ⟨DecimalInteger_Itoa N, hlo, hhi⟩

theorem Itoa_chars (N : Int) :
    ∀ c ∈ Itoa N, c ≠ '.' ∧ c.toNat < 65 := by
  intro c hc
  have hdig : ∀ c ∈ natDigits N.natAbs, c ≠ '.' ∧ c.toNat < 65 := by
    intro c hc
    obtain ⟨d, hd, rfl⟩ := natDigitsFuel_digits _ _ c hc
    exact ⟨(digitChar_spec d hd).2.2.2.2.1, (digitChar_spec d hd).2.2.2.2.2⟩
  unfold Itoa at hc
  split at hc
  · rcases List.mem_cons.1 hc with rfl | hc
    · decide
    · exact hdig c hc
  · exact hdig c hc

theorem ToLower_Itoa (caseTable : Char → Char) (N : Int) :
    ToLower caseTable (Itoa N) = Itoa N := by
  unfold ToLower
  conv_rhs => rw [← List.map_id (Itoa N)]
  exact List.map_congr_left
    (fun c hc => toLowerRune_fixed caseTable c (Itoa_chars N c hc).2)

theorem ToLower_ascii (t1 t2 : Char → Char) (s : List Char) (h : ∀ c ∈ s, c.toNat ≤ 127) :
    ToLower t1 s = ToLower t2 s := by
  unfold ToLower
  exact List.map_congr_left (fun c hc => toLowerRune_ascii t1 t2 c (h c hc))

/-! ## Suffixes -/

theorem HasSuffix_append (a suffix : List Char) : HasSuffix (a ++ suffix) suffix = true := by
  simp [HasSuffix]

theorem TrimSuffix_append (a suffix : List Char) : TrimSuffix (a ++ suffix) suffix = a := by
  simp [TrimSuffix, HasSuffix_append]

theorem HasSuffix_eq (s suffix : List Char) (h : HasSuffix s suffix = true) :
    s = TrimSuffix s suffix ++ suffix := by
  have h2 := h
  simp only [HasSuffix, Bool.and_eq_true, decide_eq_true_eq] at h2
  simp only [TrimSuffix, h, if_true]
  conv_lhs => rw [← List.take_append_drop (s.length - suffix.length) s]
  rw [h2.2]

theorem HasSuffix_last (s suffix : List Char) (c d : Char) (hcd : c ≠ d) :
    HasSuffix (s ++ [c]) (suffix ++ [d]) = false := by
  cases h : HasSuffix (s ++ [c]) (suffix ++ [d]) with
  | false => rfl
  | true =>
    have h2 := HasSuffix_eq _ _ h
    have h3 := congrArg List.reverse h2
    simp at h3
    exact absurd h3.1 hcd

/-! ## `parse_split` -/

theorem ToLower_append (caseTable : Char → Char) (a b : List Char) :
    ToLower caseTable (a ++ b) = ToLower caseTable a ++ ToLower caseTable b := by
  simp [ToLower]

theorem parse_split_ascii (t1 t2 : Char → Char) (s : List Char) (h : ∀ c ∈ s, c.toNat ≤ 127) :
    parse_split t1 s = parse_split t2 s := by
  unfold parse_split
  rw [ToLower_ascii t1 t2 s h]

theorem parse_split_day (caseTable : Char → Char) :
    parse_split caseTable strDay = .ok (SPLIT_DAY, 1) := by
  rw [parse_split_ascii caseTable exampleCaseTable strDay (by decide)]
  decide

theorem parse_split_hour (caseTable : Char → Char) (s body : List Char) (N : Int)
    (hlow : ToLower caseTable s = body ++ strHour)
    (h : Atoi body = .ok N) :
    parse_split caseTable s = .ok (SPLIT_HOUR, if 1 ≤ N ∧ N ≤ 23 then N else 1) := by
  have hday : body ++ strHour ≠ strDay := by
    intro he
    have := congrArg List.length he
    simp [strHour, strDay] at this
  unfold parse_split
  simp only [hlow, hday, if_false, HasSuffix_append, if_true, TrimSuffix_append, h]
  have hc : (if N < 1 ∨ N > 23 then (1 : Int) else N) = (if 1 ≤ N ∧ N ≤ 23 then N else 1) := by
    split_ifs <;> omega
  rw [hc]

theorem parse_split_min (caseTable : Char → Char) (s body : List Char) (N : Int)
    (hlow : ToLower caseTable s = body ++ strMin)
    (h : Atoi body = .ok N) :
    parse_split caseTable s = .ok (SPLIT_MIN, if 5 ≤ N ∧ N ≤ 60 then N else 5) := by
  have hday : body ++ strMin ≠ strDay := by
    intro he
    have := congrArg List.reverse he
    simp [strMin, strDay] at this
  have hhour : HasSuffix (body ++ strMin) strHour = false := by
    have := HasSuffix_last (body ++ ['m', 'i']) ['h', 'o', 'u'] 'n' 'r' (by decide)
    simpa [strMin, strHour] using this
  unfold parse_split
  simp only [hlow, hday, if_false, hhour, HasSuffix_append, if_true, TrimSuffix_append, h]
  have hc : (if N > 60 ∨ N < 5 then (5 : Int) else N) = (if 5 ≤ N ∧ N ≤ 60 then N else 5) := by
    split_ifs <;> omega
  rw [hc]
  simp only [Bool.false_eq_true, if_false]

theorem parse_split_m (caseTable : Char → Char) (s body : List Char) (N : Int)
    (hlow : ToLower caseTable s = body ++ strM)
    (h : Atoi body = .ok N) :
    parse_split caseTable s = .ok (SPLIT_SIZE, if 1 ≤ N then N else 1) := by
  have hday : body ++ strM ≠ strDay := by
    intro he
    have := congrArg List.reverse he
    simp [strM, strDay] at this
  have hhour : HasSuffix (body ++ strM) strHour = false := by
    have := HasSuffix_last body ['h', 'o', 'u'] 'm' 'r' (by decide)
    simpa [strM, strHour] using this
  have hmin : HasSuffix (body ++ strM) strMin = false := by
    have := HasSuffix_last body ['m', 'i'] 'm' 'n' (by decide)
    simpa [strM, strMin] using this
  unfold parse_split
  simp only [hlow, hday, if_false, hhour, hmin, HasSuffix_append, if_true, TrimSuffix_append, h]
  have hc : (if N < 1 then (1 : Int) else N) = (if 1 ≤ N then N else 1) := by
    split_ifs <;> omega
  rw [hc]
  simp only [Bool.false_eq_true, if_false]

theorem parse_split_ok_cases (caseTable : Char → Char) (s : List Char) (id : Nat) (v : Int)
    (h : parse_split caseTable s = .ok (id, v)) :
    (ToLower caseTable s = strDay ∧ id = SPLIT_DAY ∧ v = 1) ∨
    (∃ N, HasSuffix (ToLower caseTable s) strHour = true ∧ Atoi (TrimSuffix (ToLower caseTable s) strHour) = .ok N ∧
        id = SPLIT_HOUR ∧ v = if N < 1 ∨ N > 23 then 1 else N) ∨
    (∃ N, HasSuffix (ToLower caseTable s) strMin = true ∧ Atoi (TrimSuffix (ToLower caseTable s) strMin) = .ok N ∧
        id = SPLIT_MIN ∧ v = if N > 60 ∨ N < 5 then 5 else N) ∨
    (∃ N, HasSuffix (ToLower caseTable s) strM = true ∧ Atoi (TrimSuffix (ToLower caseTable s) strM) = .ok N ∧
        id = SPLIT_SIZE ∧ v = if N < 1 then 1 else N) := by
  unfold parse_split at h
  simp only at h
  by_cases h1 : ToLower caseTable s = strDay
  · rw [if_pos h1] at h
    have := Except.ok.inj h
    simp only [Prod.mk.injEq] at this
    exact Or.inl ⟨h1, this.1.symm, this.2.symm⟩
  · rw [if_neg h1] at h
    by_cases h2 : HasSuffix (ToLower caseTable s) strHour = true
    · rw [if_pos h2] at h
      cases ha : Atoi (TrimSuffix (ToLower caseTable s) strHour) with
      | error e => rw [ha] at h; exact absurd h (by simp)
      | ok N =>
        rw [ha] at h
        have := Except.ok.inj h
        simp only [Prod.mk.injEq] at this
        exact Or.inr (Or.inl ⟨N, h2, rfl, this.1.symm, this.2.symm⟩)
    · rw [if_neg h2] at h
      by_cases h3 : HasSuffix (ToLower caseTable s) strMin = true
      · rw [if_pos h3] at h
        cases ha : Atoi (TrimSuffix (ToLower caseTable s) strMin) with
        | error e => rw [ha] at h; exact absurd h (by simp)
        | ok N =>
          rw [ha] at h
          have := Except.ok.inj h
          simp only [Prod.mk.injEq] at this
          exact Or.inr (Or.inr (Or.inl ⟨N, h3, rfl, this.1.symm, this.2.symm⟩))
      · rw [if_neg h3] at h
        by_cases h4 : HasSuffix (ToLower caseTable s) strM = true
        · rw [if_pos h4] at h
          cases ha : Atoi (TrimSuffix (ToLower caseTable s) strM) with
          | error e => rw [ha] at h; exact absurd h (by simp)
          | ok N =>
            rw [ha] at h
            have := Except.ok.inj h
            simp only [Prod.mk.injEq] at this
            exact Or.inr (Or.inr (Or.inr ⟨N, h4, rfl, this.1.symm, this.2.symm⟩))
        · rw [if_neg h4] at h
          exact absurd h (by simp)

theorem parse_split_bounds (caseTable : Char → Char) (s : List Char) (id : Nat) (v : Int)
    (h : parse_split caseTable s = .ok (id, v)) :
    (id = SPLIT_DAY ∨ id = SPLIT_HOUR ∨ id = SPLIT_MIN ∨ id = SPLIT_SIZE) ∧
    (id = SPLIT_DAY → v = 1) ∧
    (id = SPLIT_HOUR → 1 ≤ v ∧ v ≤ 23) ∧ (id = SPLIT_MIN → 5 ≤ v ∧ v ≤ 60) ∧
      (id = SPLIT_SIZE → 1 ≤ v) := by
  rcases parse_split_ok_cases caseTable s id v h with ⟨_, rfl, rfl⟩ | ⟨N, _, _, rfl, rfl⟩ |
    ⟨N, _, _, rfl, rfl⟩ | ⟨N, _, _, rfl, rfl⟩
  · simp [SPLIT_DAY, SPLIT_HOUR, SPLIT_MIN, SPLIT_SIZE]
  · simp only [SPLIT_DAY, SPLIT_HOUR, SPLIT_MIN, SPLIT_SIZE]
    refine ⟨by simp, by simp, fun _ => ?_, by simp, by simp⟩
    split_ifs <;> omega
  · simp only [SPLIT_DAY, SPLIT_HOUR, SPLIT_MIN, SPLIT_SIZE]
    refine ⟨by simp, by simp, by simp, fun _ => ?_, by simp⟩
    split_ifs <;> omega
  · simp only [SPLIT_DAY, SPLIT_HOUR, SPLIT_MIN, SPLIT_SIZE]
    refine ⟨by simp, by simp, by simp, by simp, fun _ => ?_⟩
    split_ifs <;> omega

/-! ## Formatting of numbers and dates -/

theorem natDigits_lt_ten (n : Nat) (h : n < 10) : natDigits n = [digitChar n] := by
  simp [natDigits, natDigitsFuel, h]

theorem natDigits_two (n : Nat) (h1 : 10 ≤ n) (h2 : n < 100) : natDigits n = twoDigits n := by
  have h3 : ¬ n < 10 := by omega
  have h4 : n / 10 < 10 := by omega
  obtain ⟨k, rfl⟩ : ∃ k, n = k + 1 := ⟨n - 1, by omega⟩
  simp only [natDigits, natDigitsFuel, h3, if_false, h4, if_true, twoDigits]
  rfl

theorem fmt02d_eq (n : Nat) (h : n < 100) : fmt02d (n : Int) = twoDigits n := by
  unfold fmt02d
  have h0 : ¬ (n : Int) < 0 := by omega
  simp only [h0, if_false, Int.natAbs_ofNat]
  by_cases h10 : n < 10
  · have : (n : Int) < 10 := by omega
    simp only [this, if_true, natDigits_lt_ten n h10, twoDigits]
    have h1 : n / 10 = 0 := by omega
    have h2 : n % 10 = n := by omega
    rw [h1, h2]
    rfl
  · have : ¬ (n : Int) < 10 := by omega
    simp only [this, if_false]
    exact natDigits_two n (by omega) h

theorem digitChar_inj (a b : Nat) (ha : a < 10) (hb : b < 10) (h : digitChar a = digitChar b) :
    a = b := by
  have h1 := (digitChar_spec a ha).2.1
  have h2 := (digitChar_spec b hb).2.1
  rw [h] at h1
  omega

theorem twoDigits_inj (a b : Nat) (ha : a < 100) (hb : b < 100) (h : twoDigits a = twoDigits b) :
    a = b := by
  simp only [twoDigits, List.cons.injEq, and_true] at h
  have h1 := digitChar_inj _ _ (by omega) (by omega) h.1
  have h2 := digitChar_inj _ _ (Nat.mod_lt _ (by norm_num)) (Nat.mod_lt _ (by norm_num)) h.2
  omega

theorem Format060102_eq (t : Time) (h : t.Valid) :
    Format060102 t = twoDigits (t.year % 100) ++ twoDigits t.month ++ twoDigits t.day := by
  obtain ⟨_, hm, _, hd, _⟩ := h
  unfold Format060102
  rw [fmt02d_eq _ (Nat.mod_lt _ (by norm_num)), fmt02d_eq _ (by omega), fmt02d_eq _ (by omega)]

theorem Format060102_inj (t1 t2 : Time) (h1 : t1.Valid) (h2 : t2.Valid)
    (h : Format060102 t1 = Format060102 t2) :
    t1.year % 100 = t2.year % 100 ∧ t1.month = t2.month ∧ t1.day = t2.day := by
  rw [Format060102_eq t1 h1, Format060102_eq t2 h2] at h
  obtain ⟨_, hm1, _, hd1, _⟩ := h1
  obtain ⟨_, hm2, _, hd2, _⟩ := h2
  simp only [twoDigits, List.cons_append, List.nil_append, List.cons.injEq, and_true] at h
  obtain ⟨a1, a2, b1, b2, c1, c2⟩ := h
  refine ⟨twoDigits_inj _ _ (Nat.mod_lt _ (by norm_num)) (Nat.mod_lt _ (by norm_num)) ?_,
    twoDigits_inj _ _ (by omega) (by omega) ?_, twoDigits_inj _ _ (by omega) (by omega) ?_⟩ <;>
  simp [twoDigits, *]

/-! ## Maps -/

theorem mapGet?_mapSet_self {K V : Type} [DecidableEq K] (m : List (K × V)) (k : K) (v : V) :
    mapGet? (mapSet m k v) k = some v := by
  induction m with
  | nil => simp [mapSet, mapGet?]
  | cons e rest ih =>
    obtain ⟨k1, v1⟩ := e
    by_cases h : k1 = k
    · simp [mapSet, mapGet?, h]
    · simp [mapSet, mapGet?, h, ih]

theorem mapGet?_mapSet_ne {K V : Type} [DecidableEq K] (m : List (K × V)) (k k2 : K) (v : V)
    (hne : k2 ≠ k) : mapGet? (mapSet m k v) k2 = mapGet? m k2 := by
  induction m with
  | nil => simp [mapSet, mapGet?, Ne.symm hne]
  | cons e rest ih =>
    obtain ⟨k1, v1⟩ := e
    by_cases h : k1 = k
    · subst h
      simp [mapSet, mapGet?, Ne.symm hne]
    · by_cases h2 : k1 = k2
      · subst h2
        simp [mapSet, mapGet?, h]
      · simp [mapSet, mapGet?, h, h2, ih]

theorem mapGet?_mapSet {K V : Type} [DecidableEq K] (m : List (K × V)) (k k2 : K) (v : V) :
    mapGet? (mapSet m k v) k2 = if k2 = k then some v else mapGet? m k2 := by
  by_cases h : k2 = k
  · subst h; simp [mapGet?_mapSet_self]
  · simp [h, mapGet?_mapSet_ne m k k2 v h]

theorem mem_mapKeys_iff {K V : Type} [DecidableEq K] (m : List (K × V)) (k : K) :
    k ∈ mapKeys m ↔ ∃ v, mapGet? m k = some v := by
  induction m with
  | nil => simp [mapKeys, mapGet?]
  | cons e rest ih =>
    obtain ⟨k1, v1⟩ := e
    by_cases h : k1 = k
    · subst h; simp [mapKeys, mapGet?]
    · have ih2 : k ∈ List.map Prod.fst rest ↔ ∃ v, mapGet? rest k = some v := ih
      simp only [mapKeys, List.map_cons, List.mem_cons, mapGet?, h, if_false]
      rw [ih2]
      constructor
      · rintro (h1 | h1)
        · exact absurd h1.symm h
        · exact h1
      · exact Or.inr

theorem mapKeys_mapSet_mem {K V : Type} [DecidableEq K] (m : List (K × V)) (k k2 : K) (v : V) :
    k2 ∈ mapKeys (mapSet m k v) ↔ k2 = k ∨ k2 ∈ mapKeys m := by
  rw [mem_mapKeys_iff, mem_mapKeys_iff, mapGet?_mapSet]
  by_cases h : k2 = k
  · simp [h]
  · simp [h]

theorem mapKeys_mapSet_nodup {K V : Type} [DecidableEq K] (m : List (K × V)) (k : K) (v : V)
    (h : (mapKeys m).Nodup) : (mapKeys (mapSet m k v)).Nodup := by
  induction m with
  | nil => simp [mapSet, mapKeys]
  | cons e rest ih =>
    obtain ⟨k1, v1⟩ := e
    have h2 : k1 ∉ mapKeys rest ∧ (mapKeys rest).Nodup := by
      simpa [mapKeys] using h
    by_cases hk : k1 = k
    · subst hk
      simpa [mapSet, mapKeys] using h
    · have := ih h2.2
      simp only [mapSet, hk, if_false, mapKeys, List.map_cons, List.nodup_cons]
      refine ⟨?_, this⟩
      intro hmem
      have hmem2 : k1 ∈ mapKeys (mapSet rest k v) := hmem
      rw [mapKeys_mapSet_mem] at hmem2
      rcases hmem2 with h3 | h3
      · exact hk h3
      · exact h2.1 h3

/-! ## `getFile` -/

theorem World.SameEnv.sameEnv_refl (w : World) : w.SameEnv w := ⟨rfl, rfl, rfl, rfl, rfl⟩

theorem World.SameEnv.sameEnv_trans {w1 w2 w3 : World} (h1 : w1.SameEnv w2) (h2 : w2.SameEnv w3) :
    w1.SameEnv w3 :=
  ⟨h2.1.trans h1.1, h2.2.1.trans h1.2.1, h2.2.2.1.trans h1.2.2.1,
    h2.2.2.2.1.trans h1.2.2.2.1, h2.2.2.2.2.trans h1.2.2.2.2⟩

theorem makeSuffix_ok (rt : runtime) (w : World) (fileName : List Char)
    (hio : ∀ i, w.ioFails i = false)
    (hdiv : rt.split.id = SPLIT_HOUR ∨ rt.split.id = SPLIT_MIN → rt.split.value ≠ 0) :
    ∃ suffix w1, makeSuffix rt w fileName = .ok (.ok suffix, w1) ∧ w.SameEnv w1 := by
  unfold makeSuffix
  by_cases h1 : rt.split.id = SPLIT_DAY
  · rw [if_pos h1]
    exact ⟨_, _, rfl, rfl, rfl, rfl, rfl, rfl⟩
  · rw [if_neg h1]
    by_cases h2 : rt.split.id = SPLIT_HOUR
    · rw [if_pos h2]
      simp only [World.readClock, hdiv (Or.inl h2), if_false]
      exact ⟨_, _, rfl, rfl, rfl, rfl, rfl, rfl⟩
    · rw [if_neg h2]
      by_cases h3 : rt.split.id = SPLIT_MIN
      · rw [if_pos h3]
        simp only [World.readClock, hdiv (Or.inr h3), if_false]
        exact ⟨_, _, rfl, rfl, rfl, rfl, rfl, rfl⟩
      · rw [if_neg h3]
        by_cases h4 : rt.split.id = SPLIT_SIZE
        · rw [if_pos h4]
          cases hf : rt.file fileName with
          | none => exact ⟨_, _, rfl, World.SameEnv.sameEnv_refl w⟩
          | some old =>
            simp only [hio w.ios, Bool.false_eq_true, if_false]
            cases ha : Atoi (lastDotField old.name) with
            | error e => exact ⟨_, _, rfl, rfl, rfl, rfl, rfl, rfl⟩
            | ok i =>
              simp only
              split
              · exact ⟨_, _, rfl, rfl, rfl, rfl, rfl, rfl⟩
              · exact ⟨_, _, rfl, rfl, rfl, rfl, rfl, rfl⟩
        · rw [if_neg h4]
          exact ⟨_, _, rfl, World.SameEnv.sameEnv_refl w⟩

theorem createFile_ok (w : World) (name : List Char) (hio : ∀ i, w.ioFails i = false) :
    ∃ w1, createFile w name = (.ok { name := name }, w1) ∧ w.SameEnv w1 := by
  unfold createFile
  simp only [hio w.ios, Bool.false_eq_true, if_false]
  exact ⟨_, rfl, rfl, rfl, rfl, rfl, rfl⟩

theorem getFile_of_suffix (rt : runtime) (w w1 : World) (fileName suffix : List Char)
    (hs : makeSuffix rt w fileName = .ok (.ok suffix, w1)) (henv : w.SameEnv w1)
    (hio : ∀ i, w.ioFails i = false) :
    ∃ files w2, getFile rt w fileName =
        .ok (.ok { name := fileName ++ '.' :: suffix }, { rt with files := files }, w2) ∧
      w.SameEnv w2 ∧
      runtime.file { rt with files := files } fileName = some { name := fileName ++ '.' :: suffix } := by
  have hio1 : ∀ i, w1.ioFails i = false := by
    intro i; rw [henv.2.1]; exact hio i
  obtain ⟨w2, hc, henv2⟩ := createFile_ok w1 (fileName ++ '.' :: suffix) hio1
  unfold getFile
  simp only [hs]
  cases hf : rt.file fileName with
  | none =>
    simp only [hc]
    refine ⟨_, _, rfl, henv.sameEnv_trans henv2, ?_⟩
    simp [runtime.file, mapGet?_mapSet_self]
  | some old =>
    simp only
    by_cases hn : old.name = fileName ++ '.' :: suffix
    · simp only [hn, ne_eq, not_true_eq_false, if_false]
      refine ⟨rt.files, w1, ?_, henv, ?_⟩
      · have : old = { name := fileName ++ '.' :: suffix } := by
          cases old; simp_all
        rw [this]
      · rw [← hn]; exact hf
    · simp only [ne_eq, hn, not_false_eq_true, if_true, hc]
      refine ⟨_, _, rfl, henv.sameEnv_trans henv2, ?_⟩
      simp [runtime.file, mapGet?_mapSet_self]

theorem takeWhile_append_stop {α : Type} (p : α → Bool) (l1 l2 : List α) (x : α)
    (h1 : ∀ a ∈ l1, p a = true) (hx : p x = false) :
    (l1 ++ x :: l2).takeWhile p = l1 := by
  induction l1 with
  | nil => simp [List.takeWhile, hx]
  | cons a l ih =>
    have ha := h1 a (by simp)
    rw [List.cons_append, List.takeWhile_cons, ha]
    simp only [if_true]
    rw [ih (fun b hb => h1 b (by simp [hb]))]

theorem lastDotField_append (base suffix : List Char) (h : ∀ c ∈ suffix, c ≠ '.') :
    lastDotField (base ++ '.' :: suffix) = suffix := by
  unfold lastDotField
  have : (base ++ '.' :: suffix).reverse = suffix.reverse ++ '.' :: base.reverse := by simp
  rw [this, takeWhile_append_stop]
  · simp
  · intro a ha
    simpa using h a (by simpa using ha)
  · simp

theorem wrap64_eq (x : Int) (hlo : minInt ≤ x) (hhi : x ≤ maxInt) : wrap64 x = x := by
  unfold wrap64
  unfold minInt at hlo
  unfold maxInt at hhi
  norm_num at hlo hhi ⊢
  omega

theorem threshold_eq (v : Int) (h1 : 0 ≤ v) (h2 : v < 2 ^ 43) :
    mul64 (mul64 v 1024) 1024 = v * 1024 * 1024 := by
  unfold mul64
  have e1 : wrap64 (v * 1024) = v * 1024 := by
    apply wrap64_eq <;> simp only [minInt, maxInt] <;> norm_num at h2 ⊢ <;> omega
  rw [e1]
  apply wrap64_eq <;> simp only [minInt, maxInt] <;> norm_num at h2 ⊢ <;> omega

theorem makeSuffix_size (rt : runtime) (w : World) (base : List Char) (old : File) (i : Int)
    (hs : rt.split.id = SPLIT_SIZE) (hf : rt.file base = some old)
    (hio : w.ioFails w.ios = false) (ha : Atoi (lastDotField old.name) = .ok i) :
    makeSuffix rt w base =
      .ok (.ok (if w.size old.name > mul64 (mul64 rt.split.value 1024) 1024
          then Itoa (wrap64 (i + 1)) else lastDotField old.name),
        { w with ios := w.ios + 1 }) := by
  unfold makeSuffix
  rw [hs]
  simp only [SPLIT_SIZE, SPLIT_DAY, SPLIT_HOUR, SPLIT_MIN, Nat.reduceEqDiff, if_false, if_true, hf,
    hio, Bool.false_eq_true, ha]
  split <;> rename_i h
  · rw [if_pos]; exact h
  · rw [if_neg]; exact h

theorem makeSuffix_size_none (rt : runtime) (w : World) (base : List Char)
    (hs : rt.split.id = SPLIT_SIZE) (hf : rt.file base = none) :
    makeSuffix rt w base = .ok (.ok ['1'], w) := by
  unfold makeSuffix
  rw [hs]
  simp only [SPLIT_SIZE, SPLIT_DAY, SPLIT_HOUR, SPLIT_MIN, Nat.reduceEqDiff, if_false, if_true, hf]

theorem makeSuffix_day (rt : runtime) (w : World) (base : List Char)
    (hs : rt.split.id = SPLIT_DAY) :
    makeSuffix rt w base = .ok (.ok (Format060102 (w.now w.reads)), { w with reads := w.reads + 1 }) := by
  unfold makeSuffix
  rw [if_pos hs]
  rfl

theorem makeSuffix_hour (rt : runtime) (w : World) (base : List Char)
    (hs : rt.split.id = SPLIT_HOUR) (hv : rt.split.value ≠ 0) :
    makeSuffix rt w base =
      .ok (.ok (Format060102 (w.now w.reads) ++
          fmt02d (Int.tdiv ((w.now (w.reads + 1)).hour : Int) rt.split.value * rt.split.value)),
        { w with reads := w.reads + 1 + 1 }) := by
  unfold makeSuffix
  rw [hs]
  simp only [SPLIT_DAY, SPLIT_HOUR, Nat.reduceEqDiff, if_false, if_true, hv, World.readClock]

theorem makeSuffix_min (rt : runtime) (w : World) (base : List Char)
    (hs : rt.split.id = SPLIT_MIN) (hv : rt.split.value ≠ 0) :
    makeSuffix rt w base =
      .ok (.ok (Format06010215 (w.now w.reads) ++
          fmt02d (Int.tdiv ((w.now (w.reads + 1)).minute : Int) rt.split.value * rt.split.value)),
        { w with reads := w.reads + 1 + 1 }) := by
  unfold makeSuffix
  rw [hs]
  simp only [SPLIT_DAY, SPLIT_HOUR, SPLIT_MIN, Nat.reduceEqDiff, if_false, if_true, hv,
    World.readClock]

theorem bucket_eq (h v : Nat) (hv : 1 ≤ v) :
    Int.tdiv (h : Int) (v : Int) * (v : Int) = ((h / v * v : Nat) : Int) := by
  rw [Int.tdiv_eq_ediv (by omega) (by omega)]
  push_cast
  rfl

theorem bucket_greatest (h v : Nat) (hv : 1 ≤ v) :
    v ∣ h / v * v ∧ h / v * v ≤ h ∧ ∀ k, v ∣ k → k ≤ h → k ≤ h / v * v := by
  refine ⟨Dvd.intro_left _ rfl, Nat.div_mul_le_self h v, ?_⟩
  rintro k ⟨q, rfl⟩ hk
  have : q ≤ h / v := by
    rw [Nat.le_div_iff_mul_le (by omega)]
    rw [Nat.mul_comm]; exact hk
  calc v * q = q * v := Nat.mul_comm _ _
    _ ≤ h / v * v := Nat.mul_le_mul_right _ this

/-! ## The worker: flushing -/

theorem World.SameEnv.oracles {w1 w2 : World} (h : w1.SameEnv w2) : w1.SameOracles w2 :=
  ⟨h.2.1, h.2.2.2.1, h.2.2.1⟩

theorem World.SameOracles.sameOracles_refl (w : World) : w.SameOracles w := ⟨rfl, rfl, rfl⟩

theorem World.SameOracles.sameOracles_trans {w1 w2 w3 : World} (h1 : w1.SameOracles w2)
    (h2 : w2.SameOracles w3) : w1.SameOracles w3 :=
  ⟨h2.1.trans h1.1, h2.2.1.trans h1.2.1, h2.2.2.trans h1.2.2⟩

theorem World.SameOracles.noFailure {w1 w2 : World} (h : w1.SameOracles w2) :
    w2.NoFailure ↔ w1.NoFailure := by
  unfold World.NoFailure
  rw [h.1]

theorem World.SameOracles.fairRange {w1 w2 : World} (h : w1.SameOracles w2)
    (hf : w1.FairRange) : w2.FairRange := by
  unfold World.FairRange
  rw [h.2.1]
  exact hf

theorem not_noFailure (w : World) (i : Nat) (h : w.ioFails i = true) : ¬ w.NoFailure := by
  intro hn
  rw [hn i] at h
  exact absurd h (by simp)

theorem written_writeString (w : World) (dest : List Char) (fd : File) (text d : List Char) :
    (w.writeString dest fd text).written d = w.written d ++ (if d = dest then [text] else []) := by
  unfold World.written World.writeString
  by_cases h : d = dest
  · subst h
    simp [List.filter_append]
  · have h2 : ¬ dest = d := fun e => h e.symm
    simp [List.filter_append, h, h2]

theorem writeLines_spec (w : World) (dest : List Char) (fd : File) (lines : List (List Char)) :
    w.SameOracles (writeLines w dest fd lines) ∧
    ∀ d, (writeLines w dest fd lines).written d = w.written d ++ (if d = dest then lines else []) := by
  induction lines generalizing w with
  | nil => exact ⟨World.SameOracles.sameOracles_refl w, fun d => by simp [writeLines]⟩
  | cons line rest ih =>
    obtain ⟨h1, h2⟩ := ih (w.writeString dest fd line)
    refine ⟨World.SameOracles.sameOracles_trans ⟨rfl, rfl, rfl⟩ h1, fun d => ?_⟩
    simp only [writeLines]
    rw [h2 d, written_writeString]
    by_cases h : d = dest <;> simp [h]

theorem flush_spec (rt : runtime) (w : World) (fileName : List Char) (fd : File)
    (h : rt.counter fileName ≤ ((rt.buffer fileName).length : Int)) :
    ∃ w1, flush rt w fileName fd = .ok w1 ∧ w.SameOracles w1 ∧
      ∀ d, w1.written d = w.written d ++ (if d = fileName then rt.pending fileName else []) := by
  have hn : ¬ (((mapGet? rt.writeBufs fileName).getD []).length : Int) <
      (mapGet? rt.bufsCounter fileName).getD 0 := by
    simpa [runtime.counter, runtime.buffer] using h
  refine ⟨_, ?_, writeLines_spec w fileName fd (rt.pending fileName)⟩
  unfold flush
  simp only [hn, if_false]
  rfl

theorem makeSuffix_cases (rt : runtime) (w : World) (fileName : List Char)
    (hdiv : rt.split.id = SPLIT_HOUR ∨ rt.split.id = SPLIT_MIN → rt.split.value ≠ 0) :
    (∃ suffix w1, makeSuffix rt w fileName = .ok (.ok suffix, w1) ∧ w.SameEnv w1) ∨
    (∃ e w1, makeSuffix rt w fileName = .ok (.error e, w1) ∧ w.SameEnv w1 ∧ ¬ w.NoFailure) := by
  by_cases hio : w.ioFails w.ios = true
  · have hnf := not_noFailure w _ hio
    unfold makeSuffix
    by_cases h1 : rt.split.id = SPLIT_DAY
    · rw [if_pos h1]
      exact Or.inl ⟨_, _, rfl, rfl, rfl, rfl, rfl, rfl⟩
    · rw [if_neg h1]
      by_cases h2 : rt.split.id = SPLIT_HOUR
      · rw [if_pos h2]
        simp only [World.readClock, hdiv (Or.inl h2), if_false]
        exact Or.inl ⟨_, _, rfl, rfl, rfl, rfl, rfl, rfl⟩
      · rw [if_neg h2]
        by_cases h3 : rt.split.id = SPLIT_MIN
        · rw [if_pos h3]
          simp only [World.readClock, hdiv (Or.inr h3), if_false]
          exact Or.inl ⟨_, _, rfl, rfl, rfl, rfl, rfl, rfl⟩
        · rw [if_neg h3]
          by_cases h4 : rt.split.id = SPLIT_SIZE
          · rw [if_pos h4]
            cases hf : rt.file fileName with
            | none => exact Or.inl ⟨_, _, rfl, World.SameEnv.sameEnv_refl w⟩
            | some old =>
              simp only [hio, if_true]
              exact Or.inr ⟨_, _, rfl, ⟨rfl, rfl, rfl, rfl, rfl⟩, hnf⟩
          · rw [if_neg h4]
            exact Or.inl ⟨_, _, rfl, World.SameEnv.sameEnv_refl w⟩
  · have hio2 : w.ioFails w.ios = false := by simpa using hio
    unfold makeSuffix
    by_cases h1 : rt.split.id = SPLIT_DAY
    · rw [if_pos h1]
      exact Or.inl ⟨_, _, rfl, rfl, rfl, rfl, rfl, rfl⟩
    · rw [if_neg h1]
      by_cases h2 : rt.split.id = SPLIT_HOUR
      · rw [if_pos h2]
        simp only [World.readClock, hdiv (Or.inl h2), if_false]
        exact Or.inl ⟨_, _, rfl, rfl, rfl, rfl, rfl, rfl⟩
      · rw [if_neg h2]
        by_cases h3 : rt.split.id = SPLIT_MIN
        · rw [if_pos h3]
          simp only [World.readClock, hdiv (Or.inr h3), if_false]
          exact Or.inl ⟨_, _, rfl, rfl, rfl, rfl, rfl, rfl⟩
        · rw [if_neg h3]
          by_cases h4 : rt.split.id = SPLIT_SIZE
          · rw [if_pos h4]
            cases hf : rt.file fileName with
            | none => exact Or.inl ⟨_, _, rfl, World.SameEnv.sameEnv_refl w⟩
            | some old =>
              simp only [hio2, Bool.false_eq_true, if_false]
              cases ha : Atoi (lastDotField old.name) with
              | error e => exact Or.inl ⟨_, _, rfl, rfl, rfl, rfl, rfl, rfl⟩
              | ok i =>
                simp only
                split
                · exact Or.inl ⟨_, _, rfl, rfl, rfl, rfl, rfl, rfl⟩
                · exact Or.inl ⟨_, _, rfl, rfl, rfl, rfl, rfl, rfl⟩
          · rw [if_neg h4]
            exact Or.inl ⟨_, _, rfl, World.SameEnv.sameEnv_refl w⟩

theorem createFile_cases (w : World) (name : List Char) :
    (∃ w1, createFile w name = (.ok { name := name }, w1) ∧ w.SameEnv w1) ∨
    (∃ e w1, createFile w name = (.error e, w1) ∧ w.SameEnv w1 ∧ ¬ w.NoFailure) := by
  unfold createFile
  by_cases hio : w.ioFails w.ios = true
  · simp only [hio, if_true]
    exact Or.inr ⟨_, _, rfl, ⟨rfl, rfl, rfl, rfl, rfl⟩, not_noFailure w _ hio⟩
  · simp only [hio, if_false]
    exact Or.inl ⟨_, rfl, rfl, rfl, rfl, rfl, rfl⟩

theorem getFile_cases (rt : runtime) (w : World) (fileName : List Char)
    (hdiv : rt.split.id = SPLIT_HOUR ∨ rt.split.id = SPLIT_MIN → rt.split.value ≠ 0) :
    (∃ fd files w1, getFile rt w fileName = .ok (.ok fd, { rt with files := files }, w1) ∧
      w.SameEnv w1) ∨
    (∃ e rt1 w1, getFile rt w fileName = .ok (.error e, rt1, w1) ∧ ¬ w.NoFailure) := by
  unfold getFile
  rcases makeSuffix_cases rt w fileName hdiv with ⟨suffix, w1, hs, henv⟩ | ⟨e, w1, hs, _, hnf⟩
  · simp only [hs]
    have hnf1 : ¬ w1.NoFailure → ¬ w.NoFailure := fun h1 h2 => h1 (henv.oracles.noFailure.2 h2)
    cases hf : rt.file fileName with
    | none =>
      simp only
      rcases createFile_cases w1 (fileName ++ '.' :: suffix) with ⟨w2, hc, henv2⟩ | ⟨e, w2, hc, _, hnf⟩
      · simp only [hc]
        exact Or.inl ⟨_, _, _, rfl, henv.sameEnv_trans henv2⟩
      · simp only [hc]
        exact Or.inr ⟨_, _, _, rfl, hnf1 hnf⟩
    | some old =>
      simp only
      by_cases hn : old.name = fileName ++ '.' :: suffix
      · simp only [hn, ne_eq, not_true_eq_false, if_false]
        exact Or.inl ⟨old, rt.files, w1, rfl, henv⟩
      · simp only [ne_eq, hn, not_false_eq_true, if_true]
        rcases createFile_cases w1 (fileName ++ '.' :: suffix) with ⟨w2, hc, henv2⟩ | ⟨e, w2, hc, _, hnf⟩
        · simp only [hc]
          exact Or.inl ⟨_, _, _, rfl, henv.sameEnv_trans henv2⟩
        · simp only [hc]
          exact Or.inr ⟨_, _, _, rfl, hnf1 hnf⟩
  · simp only [hs]
    exact Or.inr ⟨_, _, _, rfl, hnf⟩

/-! ## The worker: one record -/

theorem take_set_succ {α : Type} (l : List α) (n : Nat) (a : α) (h : n < l.length) :
    (l.set n a).take (n + 1) = l.take n ++ [a] := by
  induction l generalizing n with
  | nil => simp at h
  | cons x xs ih =>
    cases n with
    | zero => simp
    | succ n =>
      simp only [List.set_cons_succ, List.take_succ_cons, List.cons_append, List.cons.injEq, true_and]
      exact ih n (by simpa using h)

theorem storeRecord_counter (rt : runtime) (d : List Char) (idx : Int) (s d2 : List Char) :
    (storeRecord rt d idx s).counter d2 = if d2 = d then idx + 1 else rt.counter d2 := by
  simp only [runtime.counter, storeRecord, mapGet?_mapSet]
  split <;> rfl

theorem storeRecord_buffer (rt : runtime) (d : List Char) (idx : Int) (s d2 : List Char) :
    (storeRecord rt d idx s).buffer d2 =
      if d2 = d then (rt.buffer d).set idx.toNat s else rt.buffer d2 := by
  simp only [runtime.buffer, storeRecord, mapGet?_mapSet]
  split <;> rfl

theorem storeRecord_pending (rt : runtime) (d : List Char) (s d2 : List Char)
    (h0 : 0 ≤ rt.counter d) (h1 : rt.counter d < ((rt.buffer d).length : Int)) :
    (storeRecord rt d (rt.counter d) s).pending d2 =
      rt.pending d2 ++ (if d2 = d then [s] else []) := by
  unfold runtime.pending
  rw [storeRecord_counter, storeRecord_buffer]
  by_cases h : d2 = d
  · subst h
    simp only [if_true]
    have e : (rt.counter d2 + 1).toNat = (rt.counter d2).toNat + 1 := by omega
    rw [e, take_set_succ _ _ _ (by omega)]
  · simp [h]

theorem resetCounters_counter (rt : runtime) (d d2 : List Char) :
    (resetCounters rt d).counter d2 = if d2 = d then 0 else rt.counter d2 := by
  unfold resetCounters
  simp only
  split <;> simp only [runtime.counter, mapGet?_mapSet] <;> split <;> rfl

theorem resetCounters_writeBufs (rt : runtime) (d : List Char) :
    (resetCounters rt d).writeBufs = rt.writeBufs ∧ (resetCounters rt d).fileName = rt.fileName ∧
      (resetCounters rt d).split = rt.split ∧
      (resetCounters rt d).bufsCounter = mapSet rt.bufsCounter d 0 := by
  unfold resetCounters
  simp only
  split <;> exact ⟨rfl, rfl, rfl, rfl⟩

theorem resetCounters_pending (rt : runtime) (d d2 : List Char) :
    (resetCounters rt d).pending d2 = if d2 = d then [] else rt.pending d2 := by
  unfold runtime.pending
  rw [resetCounters_counter]
  have hb : (resetCounters rt d).buffer d2 = rt.buffer d2 := by
    unfold runtime.buffer
    rw [(resetCounters_writeBufs rt d).1]
  rw [hb]
  split <;> simp

theorem mapKeys_mapSet_of_mem {K V : Type} [DecidableEq K] (m : List (K × V)) (k : K) (v : V)
    (h : k ∈ mapKeys m) : mapKeys (mapSet m k v) = mapKeys m := by
  induction m with
  | nil => simp [mapKeys] at h
  | cons e rest ih =>
    obtain ⟨k1, v1⟩ := e
    by_cases hk : k1 = k
    · simp [mapSet, mapKeys, hk]
    · have h2 : k ∈ mapKeys rest := by
        have : k = k1 ∨ k ∈ mapKeys rest := by simpa [mapKeys] using h
        rcases this with h3 | h3
        · exact absurd h3.symm hk
        · exact h3
      have := ih h2
      simp only [mapKeys] at this
      simp [mapSet, mapKeys, hk, this]

theorem Ready_storeRecord {glog : Log} {rt : runtime} (hr : Ready glog rt) (d s : List Char)
    (hd : d ∈ mapKeys rt.bufsCounter) (hlt : rt.counter d + 1 < glog.Buf) :
    Ready glog (storeRecord rt d (rt.counter d) s) := by
  have hk : mapKeys (storeRecord rt d (rt.counter d) s).bufsCounter = mapKeys rt.bufsCounter :=
    mapKeys_mapSet_of_mem _ _ _ hd
  refine ⟨hr.buf_pos, by rw [hk]; exact hr.nodup, ?_, hr.divsafe⟩
  intro d2 hd2
  rw [hk] at hd2
  obtain ⟨b0, b1, b2⟩ := hr.bounds d2 hd2
  rw [storeRecord_counter, storeRecord_buffer]
  by_cases h : d2 = d
  · subst h
    simp only [if_true, List.length_set]
    exact ⟨by omega, hlt, b2⟩
  · simp only [h, if_false]
    exact ⟨b0, b1, b2⟩

theorem Ready_resetCounters {glog : Log} {rt : runtime} (d : List Char)
    (hd : d ∈ mapKeys rt.bufsCounter) (hpos : 1 ≤ glog.Buf)
    (hnd : (mapKeys rt.bufsCounter).Nodup)
    (hb : ∀ d2 ∈ mapKeys rt.bufsCounter, d2 ≠ d →
      0 ≤ rt.counter d2 ∧ rt.counter d2 < glog.Buf ∧ ((rt.buffer d2).length : Int) = glog.Buf)
    (hbd : ((rt.buffer d).length : Int) = glog.Buf)
    (hdiv : rt.split.id = SPLIT_HOUR ∨ rt.split.id = SPLIT_MIN → rt.split.value ≠ 0) :
    Ready glog (resetCounters rt d) := by
  obtain ⟨e1, _, e3, e4⟩ := resetCounters_writeBufs rt d
  have hk : mapKeys (resetCounters rt d).bufsCounter = mapKeys rt.bufsCounter := by
    rw [e4]; exact mapKeys_mapSet_of_mem _ _ _ hd
  refine ⟨hpos, by rw [hk]; exact hnd, ?_, by rw [e3]; exact hdiv⟩
  intro d2 hd2
  rw [hk] at hd2
  have hbuf : (resetCounters rt d).buffer d2 = rt.buffer d2 := by
    unfold runtime.buffer; rw [e1]
  rw [resetCounters_counter, hbuf]
  by_cases h : d2 = d
  · subst h
    simp only [if_true]
    exact ⟨le_refl _, by omega, hbd⟩
  · simp only [h, if_false]
    exact hb d2 hd2 h

theorem runtime.SameBuffers.counter {rt1 rt2 : runtime} (h : rt1.SameBuffers rt2)
    (d : List Char) : rt2.counter d = rt1.counter d := by
  unfold runtime.counter; rw [h.1]

theorem runtime.SameBuffers.buffer {rt1 rt2 : runtime} (h : rt1.SameBuffers rt2)
    (d : List Char) : rt2.buffer d = rt1.buffer d := by
  unfold runtime.buffer; rw [h.2.1]

theorem runtime.SameBuffers.pending {rt1 rt2 : runtime} (h : rt1.SameBuffers rt2)
    (d : List Char) : rt2.pending d = rt1.pending d := by
  unfold runtime.pending; rw [h.counter, h.buffer]

theorem runtime.SameBuffers.ready {glog : Log} {rt1 rt2 : runtime} (h : rt1.SameBuffers rt2)
    (hr : Ready glog rt1) : Ready glog rt2 := by
  refine ⟨hr.buf_pos, by rw [h.1]; exact hr.nodup, ?_, by rw [h.2.2.2.1]; exact hr.divsafe⟩
  intro d hd
  rw [h.1] at hd
  rw [h.counter, h.buffer]
  exact hr.bounds d hd

theorem runtime.SameBuffers.sameBuffers_trans {rt1 rt2 rt3 : runtime} (h1 : rt1.SameBuffers rt2)
    (h2 : rt2.SameBuffers rt3) : rt1.SameBuffers rt3 :=
  ⟨h2.1.trans h1.1, h2.2.1.trans h1.2.1, h2.2.2.1.trans h1.2.2.1, h2.2.2.2.1.trans h1.2.2.2.1,
    h2.2.2.2.2.trans h1.2.2.2.2⟩

theorem getFile_frame (rt : runtime) (w : World) (fileName : List Char)
    (hdiv : rt.split.id = SPLIT_HOUR ∨ rt.split.id = SPLIT_MIN → rt.split.value ≠ 0) :
    (∃ fd rt1 w1, getFile rt w fileName = .ok (.ok fd, rt1, w1) ∧ rt.SameBuffers rt1 ∧
      w.SameEnv w1) ∨
    (∃ e rt1 w1, getFile rt w fileName = .ok (.error e, rt1, w1) ∧ ¬ w.NoFailure) := by
  rcases getFile_cases rt w fileName hdiv with ⟨fd, files, w1, hg, henv⟩ | h
  · exact Or.inl ⟨fd, _, w1, hg, ⟨rfl, rfl, rfl, rfl, rfl⟩, henv⟩
  · exact Or.inr h

theorem written_of_trace {w1 w2 : World} (h : w2.trace = w1.trace) (d : List Char) :
    w2.written d = w1.written d := by
  unfold World.written; rw [h]

theorem handleRecord_spec (glog : Log) (rt : runtime) (w : World) (m : logMsg)
    (hr : Ready glog rt) (hrt : rt.Routed m.level) :
    (∃ rt1 w1, handleRecord glog rt w m = .ok (rt1, w1) ∧ Ready glog rt1 ∧
      rt1.fileName = rt.fileName ∧ mapKeys rt1.bufsCounter = mapKeys rt.bufsCounter ∧
      w.SameOracles w1 ∧
      (∀ d, w1.written d ++ rt1.pending d =
        w.written d ++ rt.pending d ++ (if d = rt.route m.level then [m.str] else [])) ∧
      (∀ d, d ≠ rt.route m.level → rt1.counter d = rt.counter d ∧ w1.written d = w.written d) ∧
      (¬ flushNow glog (storeRecord rt (rt.route m.level) (rt.counter (rt.route m.level)) m.str)
          (rt.route m.level) (rt.counter (rt.route m.level)) →
        rt1.counter (rt.route m.level) = rt.counter (rt.route m.level) + 1 ∧
          ∀ d, w1.written d = w.written d) ∧
      (flushNow glog (storeRecord rt (rt.route m.level) (rt.counter (rt.route m.level)) m.str)
          (rt.route m.level) (rt.counter (rt.route m.level)) →
        rt1.counter (rt.route m.level) = 0) ∧
      rt1.split = rt.split ∧
      (flushNow glog (storeRecord rt (rt.route m.level) (rt.counter (rt.route m.level)) m.str)
          (rt.route m.level) (rt.counter (rt.route m.level)) →
        rt.split.id = SPLIT_SIZE →
          (mapGet? rt1.fileSizeCounter (rt.route m.level)).getD 0 = 0) ∧
      (¬ flushNow glog (storeRecord rt (rt.route m.level) (rt.counter (rt.route m.level)) m.str)
          (rt.route m.level) (rt.counter (rt.route m.level)) →
        rt1 = storeRecord rt (rt.route m.level) (rt.counter (rt.route m.level)) m.str ∧ w1 = w)) ∨
    (handleRecord glog rt w m = .error .createFile ∧ ¬ w.NoFailure) := by
  obtain ⟨b0, b1, b2⟩ := hr.bounds _ hrt
  replace hrt : rt.route m.level ∈ mapKeys rt.bufsCounter := hrt
  generalize hd : rt.route m.level = d at *
  have hidx : ¬ (rt.counter d < 0 ∨ ((rt.buffer d).length : Int) ≤ rt.counter d) := by omega
  have hpend := fun d2 => storeRecord_pending rt d m.str d2 b0 (by omega)
  have hkeys : mapKeys (storeRecord rt d (rt.counter d) m.str).bufsCounter = mapKeys rt.bufsCounter :=
    mapKeys_mapSet_of_mem _ _ _ hrt
  unfold handleRecord
  simp only [hd, hidx, if_false]
  by_cases hfl : flushNow glog (storeRecord rt d (rt.counter d) m.str) d (rt.counter d)
  · rw [if_pos hfl]
    rcases getFile_frame (storeRecord rt d (rt.counter d) m.str) w d hr.divsafe with
      ⟨fd, rt2, w1, hg, hsb, henv⟩ | ⟨e, rt1, w1, hg, hnf⟩
    · simp only [hg]
      have hc2 : rt2.counter d = rt.counter d + 1 := by
        rw [hsb.counter, storeRecord_counter]; simp
      have hb2 : rt2.buffer d = (rt.buffer d).set (rt.counter d).toNat m.str := by
        rw [hsb.buffer, storeRecord_buffer]; simp
      have hcnt : rt2.counter d ≤ ((rt2.buffer d).length : Int) := by
        rw [hc2, hb2, List.length_set]; omega
      obtain ⟨w2, hflush, hor, hwr⟩ := flush_spec rt2 w1 d fd hcnt
      simp only [hflush]
      have hp2 : ∀ d2, rt2.pending d2 = rt.pending d2 ++ (if d2 = d then [m.str] else []) :=
        fun d2 => by rw [hsb.pending, hpend d2]
      have hwritten : ∀ d2, w2.written d2 =
          w.written d2 ++ (if d2 = d then rt.pending d ++ [m.str] else []) := by
        intro d2
        rw [hwr d2, hp2 d, written_of_trace henv.1]
        simp only [if_true]
      have hk2 : mapKeys rt2.bufsCounter = mapKeys rt.bufsCounter := by rw [hsb.1, hkeys]
      have hd2 : d ∈ mapKeys rt2.bufsCounter := by rw [hk2]; exact hrt
      refine Or.inl ⟨_, _, rfl, ?_, ?_, ?_,
        World.SameOracles.sameOracles_trans henv.oracles hor, ?_, ?_, fun h => absurd hfl h, fun _ => ?_,
        ?_, fun _ hs => ?_, fun h => absurd hfl h⟩
      rotate_left 6
      · rw [(resetCounters_writeBufs _ d).2.2.1, hsb.2.2.2.1]; rfl
      · have hs2 : rt2.split.id = SPLIT_SIZE := by rw [hsb.2.2.2.1]; exact hs
        unfold resetCounters
        simp only [hs2, if_true, mapGet?_mapSet_self, Option.getD_some]
      · apply Ready_resetCounters d hd2 hr.buf_pos (by rw [hk2]; exact hr.nodup)
        · intro d3 hd3 hne
          rw [hk2] at hd3
          rw [hsb.counter, hsb.buffer, storeRecord_counter, storeRecord_buffer]
          simp only [hne, if_false]
          exact hr.bounds d3 hd3
        · rw [hb2, List.length_set]; exact b2
        · rw [hsb.2.2.2.1]; exact hr.divsafe
      · rw [(resetCounters_writeBufs _ d).2.1, hsb.2.2.1]; rfl
      · rw [(resetCounters_writeBufs _ d).2.2.2, mapKeys_mapSet_of_mem _ _ _ hd2, hk2]
      · intro d2
        rw [hwritten d2, resetCounters_pending]
        by_cases h : d2 = d
        · subst h; simp
        · simp [h, hp2 d2]
      · intro d2 hne
        rw [hwritten d2, resetCounters_counter]
        simp only [hne, if_false, List.append_nil, and_true]
        rw [hsb.counter, storeRecord_counter]
        simp only [hne, if_false]
      · rw [resetCounters_counter]
        simp
    · rw [hg]
      exact Or.inr ⟨rfl, hnf⟩
  · rw [if_neg hfl]
    have hlt : rt.counter d + 1 < glog.Buf := by
      have : ¬ rt.counter d ≥ glog.Buf - 1 := fun h => hfl (Or.inl h)
      omega
    refine Or.inl ⟨_, _, rfl, Ready_storeRecord hr d m.str hrt hlt, rfl,
      hkeys, World.SameOracles.sameOracles_refl w, ?_, ?_, fun _ => ?_,
      fun h => absurd h hfl, rfl, fun h => absurd h hfl, fun _ => ⟨rfl, rfl⟩⟩
    · intro d2
      rw [hpend d2, List.append_assoc]
    · intro d2 hne
      rw [storeRecord_counter]
      simp only [hne, if_false, and_self]
    · rw [storeRecord_counter]
      simp

/-! ## The worker: `flushAll` -/

theorem mapGet?_of_mem {K V : Type} [DecidableEq K] (m : List (K × V)) (k : K) (v : V)
    (hnd : (mapKeys m).Nodup) (h : (k, v) ∈ m) : mapGet? m k = some v := by
  induction m with
  | nil => simp at h
  | cons e rest ih =>
    obtain ⟨k1, v1⟩ := e
    have hnd2 : k1 ∉ mapKeys rest ∧ (mapKeys rest).Nodup := by simpa [mapKeys] using hnd
    rcases List.mem_cons.1 h with h1 | h1
    · have e1 : k = k1 := (Prod.mk.inj h1).1
      have e2 : v = v1 := (Prod.mk.inj h1).2
      subst e1; subst e2
      simp [mapGet?]
    · have hk : k ∈ mapKeys rest := List.mem_map.2 ⟨(k, v), h1, rfl⟩
      have hne : k1 ≠ k := fun e => hnd2.1 (e ▸ hk)
      simp only [mapGet?, hne, if_false]
      exact ih hnd2.2 h1

theorem mem_of_mapGet? {K V : Type} [DecidableEq K] (m : List (K × V)) (k : K) (v : V)
    (h : mapGet? m k = some v) : (k, v) ∈ m := by
  induction m with
  | nil => simp [mapGet?] at h
  | cons e rest ih =>
    obtain ⟨k1, v1⟩ := e
    by_cases hk : k1 = k
    · subst hk
      simp only [mapGet?, if_true, Option.some.injEq] at h
      subst h
      simp
    · simp only [mapGet?, hk, if_false] at h
      exact List.mem_cons_of_mem _ (ih h)

theorem restoreCounter_fold (ks : List (List Char)) (rt : runtime)
    (hks : ∀ k ∈ ks, k ∈ mapKeys rt.bufsCounter) :
    rt.writeBufs = (ks.foldl (fun r fileName =>
        { r with
          bufsCounter := mapSet r.bufsCounter fileName 0
          fileSizeCounter := mapSet r.fileSizeCounter fileName 0 }) rt).writeBufs ∧
    rt.fileName = (ks.foldl (fun r fileName =>
        { r with
          bufsCounter := mapSet r.bufsCounter fileName 0
          fileSizeCounter := mapSet r.fileSizeCounter fileName 0 }) rt).fileName ∧
    rt.split = (ks.foldl (fun r fileName =>
        { r with
          bufsCounter := mapSet r.bufsCounter fileName 0
          fileSizeCounter := mapSet r.fileSizeCounter fileName 0 }) rt).split ∧
    mapKeys (ks.foldl (fun r fileName =>
        { r with
          bufsCounter := mapSet r.bufsCounter fileName 0
          fileSizeCounter := mapSet r.fileSizeCounter fileName 0 }) rt).bufsCounter =
      mapKeys rt.bufsCounter ∧
    ∀ d, runtime.counter (ks.foldl (fun r fileName =>
        { r with
          bufsCounter := mapSet r.bufsCounter fileName 0
          fileSizeCounter := mapSet r.fileSizeCounter fileName 0 }) rt) d =
      if d ∈ ks then 0 else rt.counter d := by
  induction ks generalizing rt with
  | nil => simp
  | cons k rest ih =>
    have hk : k ∈ mapKeys rt.bufsCounter := hks k (by simp)
    have hkeys : mapKeys (mapSet rt.bufsCounter k 0) = mapKeys rt.bufsCounter :=
      mapKeys_mapSet_of_mem _ _ _ hk
    obtain ⟨h1, h2, h3, h4, h5⟩ := ih
      { rt with
        bufsCounter := mapSet rt.bufsCounter k 0
        fileSizeCounter := mapSet rt.fileSizeCounter k 0 }
      (fun x hx => by
        show x ∈ mapKeys (mapSet rt.bufsCounter k 0)
        rw [hkeys]; exact hks x (by simp [hx]))
    simp only [List.foldl_cons]
    refine ⟨h1, h2, h3, h4.trans hkeys, fun d => ?_⟩
    rw [h5 d]
    by_cases hd : d ∈ rest
    · simp [hd]
    · simp only [hd, if_false, List.mem_cons, or_false]
      simp only [runtime.counter, mapGet?_mapSet]
      split <;> rfl

theorem restoreCounter_spec (rt : runtime) :
    rt.writeBufs = (restoreCounter rt).writeBufs ∧ rt.fileName = (restoreCounter rt).fileName ∧
    rt.split = (restoreCounter rt).split ∧
    mapKeys (restoreCounter rt).bufsCounter = mapKeys rt.bufsCounter ∧
    ∀ d, (restoreCounter rt).counter d = 0 := by
  obtain ⟨h1, h2, h3, h4, h5⟩ := restoreCounter_fold (mapKeys rt.bufsCounter) rt (fun _ h => h)
  refine ⟨h1, h2, h3, h4, fun d => ?_⟩
  unfold restoreCounter
  rw [h5 d]
  by_cases hd : d ∈ mapKeys rt.bufsCounter
  · simp [hd]
  · simp only [hd, if_false]
    have : mapGet? rt.bufsCounter d = none := by
      cases hg : mapGet? rt.bufsCounter d with
      | none => rfl
      | some v => exact absurd ((mem_mapKeys_iff _ _).2 ⟨v, hg⟩) hd
    simp [runtime.counter, this]

theorem flushEach_spec (glog : Log) (rt : runtime) (w : World) (es : List (List Char × Int))
    (hr : Ready glog rt) (hes : ∀ e ∈ es, mapGet? rt.bufsCounter e.1 = some e.2)
    (hnd : (es.map Prod.fst).Nodup) :
    (∃ rt1 w1, flushEach rt w es = .ok (rt1, w1) ∧ rt.SameBuffers rt1 ∧ w.SameOracles w1 ∧
      ∀ d, w1.written d = w.written d ++
        (if d ∈ es.map Prod.fst ∧ 0 < rt.counter d ∧ d ≠ [] then rt.pending d else [])) ∨
    (flushEach rt w es = .error .createFile ∧ ¬ w.NoFailure) := by
  induction es generalizing rt w with
  | nil =>
    exact Or.inl ⟨rt, w, rfl, ⟨rfl, rfl, rfl, rfl, rfl⟩, World.SameOracles.sameOracles_refl w, fun d => by simp⟩
  | cons e rest ih =>
    obtain ⟨d0, i0⟩ := e
    have hget : mapGet? rt.bufsCounter d0 = some i0 := hes (d0, i0) (by simp)
    have hc0 : rt.counter d0 = i0 := by simp [runtime.counter, hget]
    have hd0 : d0 ∈ mapKeys rt.bufsCounter := (mem_mapKeys_iff _ _).2 ⟨i0, hget⟩
    have hnd2 : d0 ∉ rest.map Prod.fst ∧ (rest.map Prod.fst).Nodup := by simpa using hnd
    have hes2 : ∀ e ∈ rest, mapGet? rt.bufsCounter e.1 = some e.2 :=
      fun e he => hes e (List.mem_cons_of_mem _ he)
    unfold flushEach
    by_cases hc : 0 < i0 ∧ d0 ≠ []
    · rw [if_pos hc]
      rcases getFile_frame rt w d0 hr.divsafe with ⟨fd, rt2, w1, hg, hsb, henv⟩ | ⟨e, rt1, w1, hg, hnf⟩
      · rw [hg]
        simp only
        have hcnt : rt2.counter d0 ≤ ((rt2.buffer d0).length : Int) := by
          rw [hsb.counter, hsb.buffer]
          have := hr.bounds d0 hd0
          omega
        obtain ⟨w2, hflush, hor, hwr⟩ := flush_spec rt2 w1 d0 fd hcnt
        rw [hflush]
        simp only
        have hor2 : w.SameOracles w2 := World.SameOracles.sameOracles_trans henv.oracles hor
        rcases ih rt2 w2 (hsb.ready hr) (by rw [hsb.1]; exact hes2) hnd2.2 with
          ⟨rt3, w3, hf, hsb3, hor3, hw3⟩ | ⟨hf, hnf⟩
        · refine Or.inl ⟨rt3, w3, hf, hsb.sameBuffers_trans hsb3, World.SameOracles.sameOracles_trans hor2 hor3,
            fun d => ?_⟩
          rw [hw3 d, hwr d, written_of_trace henv.1, hsb.counter, hsb.pending, hsb.pending]
          by_cases hd : d = d0
          · subst hd
            have h1 : ¬ (d ∈ rest.map Prod.fst ∧ 0 < rt.counter d ∧ d ≠ []) := fun h => hnd2.1 h.1
            have h2 : (d ∈ (((d, i0) :: rest).map Prod.fst) ∧ 0 < rt.counter d ∧ d ≠ []) :=
              ⟨by simp, by rw [hc0]; exact hc.1, hc.2⟩
            rw [if_neg h1, if_pos h2]
            simp
          · have h3 : (d ∈ (((d0, i0) :: rest).map Prod.fst) ∧ 0 < rt.counter d ∧ d ≠ []) ↔
                (d ∈ rest.map Prod.fst ∧ 0 < rt.counter d ∧ d ≠ []) := by
              simp [hd]
            simp only [hd, if_false, List.append_nil]
            by_cases h4 : d ∈ rest.map Prod.fst ∧ 0 < rt.counter d ∧ d ≠ []
            · rw [if_pos h4, if_pos (h3.2 h4)]
            · rw [if_neg h4, if_neg (fun h => h4 (h3.1 h))]
        · exact Or.inr ⟨hf, fun h => hnf (hor2.noFailure.2 h)⟩
      · rw [hg]
        exact Or.inr ⟨rfl, hnf⟩
    · rw [if_neg hc]
      rcases ih rt w hr hes2 hnd2.2 with ⟨rt3, w3, hf, hsb3, hor3, hw3⟩ | h
      · refine Or.inl ⟨rt3, w3, hf, hsb3, hor3, fun d => ?_⟩
        rw [hw3 d]
        by_cases hd : d = d0
        · subst hd
          have h1 : ¬ (d ∈ rest.map Prod.fst ∧ 0 < rt.counter d ∧ d ≠ []) := fun h => hnd2.1 h.1
          have h2 : ¬ (d ∈ (((d, i0) :: rest).map Prod.fst) ∧ 0 < rt.counter d ∧ d ≠ []) :=
            fun h => hc ⟨by rw [← hc0]; exact h.2.1, h.2.2⟩
          rw [if_neg h1, if_neg h2]
        · have h3 : (d ∈ (((d0, i0) :: rest).map Prod.fst) ∧ 0 < rt.counter d ∧ d ≠ []) ↔
              (d ∈ rest.map Prod.fst ∧ 0 < rt.counter d ∧ d ≠ []) := by
            simp [hd]
          by_cases h4 : d ∈ rest.map Prod.fst ∧ 0 < rt.counter d ∧ d ≠ []
          · rw [if_pos h4, if_pos (h3.2 h4)]
          · rw [if_neg h4, if_neg (fun h => h4 (h3.1 h))]
      · exact Or.inr h

theorem pending_of_counter_le (rt : runtime) (d : List Char) (h : rt.counter d ≤ 0) :
    rt.pending d = [] := by
  unfold runtime.pending
  have : (rt.counter d).toNat = 0 := by omega
  rw [this]
  rfl

theorem flushAll_spec (glog : Log) (rt : runtime) (w : World) (hr : Ready glog rt)
    (hfair : w.FairRange) :
    (∃ rt1 w1, flushAll rt w = .ok (rt1, w1) ∧ Ready glog rt1 ∧ rt1.fileName = rt.fileName ∧
      mapKeys rt1.bufsCounter = mapKeys rt.bufsCounter ∧ w.SameOracles w1 ∧
      (∀ d, rt1.counter d = 0) ∧
      (∀ d, w1.written d = w.written d ++ (if d = [] then [] else rt.pending d)) ∧
      rt1.split = rt.split) ∨
    (flushAll rt w = .error .createFile ∧ ¬ w.NoFailure) := by
  have hperm := hfair w.ranges (List Char × Int) rt.bufsCounter
  have hes : ∀ e ∈ w.rangeOrder w.ranges (List Char × Int) rt.bufsCounter,
      mapGet? rt.bufsCounter e.1 = some e.2 := by
    intro e he
    exact mapGet?_of_mem _ _ _ hr.nodup (hperm.mem_iff.1 he)
  have hnd : ((w.rangeOrder w.ranges (List Char × Int) rt.bufsCounter).map Prod.fst).Nodup :=
    (hperm.map Prod.fst).nodup_iff.2 hr.nodup
  have hor0 : w.SameOracles { w with ranges := w.ranges + 1 } := ⟨rfl, rfl, rfl⟩
  unfold flushAll
  simp only [World.range]
  rcases flushEach_spec glog rt { w with ranges := w.ranges + 1 } _ hr hes hnd with
    ⟨rt1, w1, hf, hsb, hor, hw⟩ | ⟨hf, hnf⟩
  · rw [hf]
    simp only
    obtain ⟨r1, r2, r3, r4, r5⟩ := restoreCounter_spec rt1
    refine Or.inl ⟨_, _, rfl, ?_, ?_, ?_, World.SameOracles.sameOracles_trans hor0 hor, r5, fun d => ?_,
      by rw [← r3, hsb.2.2.2.1]⟩
    · refine ⟨hr.buf_pos, by rw [r4, hsb.1]; exact hr.nodup, ?_, by rw [← r3, hsb.2.2.2.1]; exact hr.divsafe⟩
      intro d hd
      rw [r4, hsb.1] at hd
      have hb : (restoreCounter rt1).buffer d = rt.buffer d := by
        unfold runtime.buffer; rw [← r1, hsb.2.1]
      rw [r5 d, hb]
      have := hr.bounds d hd
      exact ⟨le_refl _, by have := hr.buf_pos; omega, this.2.2⟩
    · rw [← r2, hsb.2.2.1]
    · rw [r4, hsb.1]
    · rw [hw d]
      have hw0 : World.written { w with ranges := w.ranges + 1 } d = w.written d := rfl
      rw [hw0]
      by_cases hd : d = []
      · simp [hd]
      · simp only [hd, if_false, ne_eq, not_false_eq_true, and_true]
        by_cases hc : 0 < rt.counter d
        · have hmem : d ∈ (w.rangeOrder w.ranges (List Char × Int) rt.bufsCounter).map Prod.fst := by
            have : d ∈ mapKeys rt.bufsCounter := by
              rw [mem_mapKeys_iff]
              cases hg : mapGet? rt.bufsCounter d with
              | none => simp [runtime.counter, hg] at hc
              | some v => exact ⟨v, rfl⟩
            exact (hperm.map Prod.fst).mem_iff.2 this
          rw [if_pos ⟨hmem, hc⟩]
        · rw [if_neg (fun h => hc h.2), pending_of_counter_le rt d (by omega)]
  · rw [hf]
    exact Or.inr ⟨rfl, fun h => hnf (hor0.noFailure.2 h)⟩

/-! ## The worker: start -/

theorem mem_mapSet {K V : Type} [DecidableEq K] (m : List (K × V)) (k : K) (v : V) (e : K × V)
    (h : e ∈ mapSet m k v) : e = (k, v) ∨ e ∈ m := by
  induction m with
  | nil => simpa [mapSet] using h
  | cons x rest ih =>
    obtain ⟨k1, v1⟩ := x
    by_cases hk : k1 = k
    · simp only [mapSet, hk, if_true, List.mem_cons] at h
      rcases h with h | h
      · exact Or.inl h
      · exact Or.inr (List.mem_cons_of_mem _ h)
    · simp only [mapSet, hk, if_false, List.mem_cons] at h
      rcases h with h | h
      · exact Or.inr (by simp [h])
      · rcases ih h with h2 | h2
        · exact Or.inl h2
        · exact Or.inr (List.mem_cons_of_mem _ h2)

/-- The state of the loop "merge logfiles and init": distinct destinations, each with an
empty buffer of `Buf` entries, and every route leading to a tracked destination. -/
theorem mergeLogfiles_spec (buf : Int) (hbuf : 0 ≤ buf) (confs : List (Nat × LevelConf))
    (rt : runtime)
    (hnd : (mapKeys rt.bufsCounter).Nodup)
    (hzero : ∀ d ∈ mapKeys rt.bufsCounter, rt.counter d = 0 ∧ ((rt.buffer d).length : Int) = buf)
    (hroute : ∀ L f, mapGet? rt.fileName L = some f → f ∈ mapKeys rt.bufsCounter) :
    ∃ rt1, mergeLogfiles buf rt confs = .ok rt1 ∧ rt1.split = rt.split ∧
      (mapKeys rt1.bufsCounter).Nodup ∧
      (∀ d ∈ mapKeys rt1.bufsCounter, rt1.counter d = 0 ∧ ((rt1.buffer d).length : Int) = buf) ∧
      (∀ L f, mapGet? rt1.fileName L = some f → f ∈ mapKeys rt1.bufsCounter) ∧
      (∀ L, L ∉ confs.map (fun e => e.2.Level) → mapGet? rt1.fileName L = mapGet? rt.fileName L) ∧
      ((confs.map (fun e => e.2.Level)).Nodup →
        ∀ e ∈ confs, mapGet? rt1.fileName e.2.Level = some e.2.FileName) ∧
      (∀ d ∈ mapKeys rt.bufsCounter, d ∈ mapKeys rt1.bufsCounter) ∧
      (∀ e ∈ confs, e.2.FileName ∈ mapKeys rt1.bufsCounter) ∧
      rt1.fileSizeCounter = rt.fileSizeCounter := by
  induction confs generalizing rt with
  | nil =>
    exact ⟨rt, rfl, rfl, hnd, hzero, hroute, fun _ _ => rfl, fun _ e he => by simp at he,
      fun _ h => h, fun e he => by simp at he, rfl⟩
  | cons c rest ih =>
    obtain ⟨k, lc⟩ := c
    have hnb : ¬ buf < 0 := by omega
    simp only [mergeLogfiles, hnb, if_false]
    obtain ⟨rt1, h1, h2, h3, h4, h5, h6, h7, h8, h9, h10⟩ := ih
      { rt with
        fileName := mapSet rt.fileName lc.Level lc.FileName
        files := mapSet rt.files lc.FileName none
        writeBufs := mapSet rt.writeBufs lc.FileName (List.replicate buf.toNat [])
        bufsCounter := mapSet rt.bufsCounter lc.FileName 0 }
      (mapKeys_mapSet_nodup _ _ _ hnd)
      (by
        intro d hd
        have hd2 : d = lc.FileName ∨ d ∈ mapKeys rt.bufsCounter := (mapKeys_mapSet_mem _ _ _ _).1 hd
        simp only [runtime.counter, runtime.buffer, mapGet?_mapSet]
        by_cases h : d = lc.FileName
        · simp only [h, if_true, Option.getD_some, List.length_replicate, true_and]
          omega
        · simp only [h, if_false]
          rcases hd2 with h2 | h2
          · exact absurd h2 h
          · exact hzero d h2)
      (by
        intro L f hf
        show f ∈ mapKeys (mapSet rt.bufsCounter lc.FileName 0)
        rw [mapKeys_mapSet_mem]
        have hf2 : mapGet? (mapSet rt.fileName lc.Level lc.FileName) L = some f := hf
        rw [mapGet?_mapSet] at hf2
        by_cases h : L = lc.Level
        · simp only [h, if_true, Option.some.injEq] at hf2
          exact Or.inl hf2.symm
        · simp only [h, if_false] at hf2
          exact Or.inr (hroute L f hf2))
    have hgrow : ∀ d, d = lc.FileName ∨ d ∈ mapKeys rt.bufsCounter → d ∈ mapKeys rt1.bufsCounter := by
      intro d hd
      apply h8
      show d ∈ mapKeys (mapSet rt.bufsCounter lc.FileName 0)
      rw [mapKeys_mapSet_mem]
      exact hd
    refine ⟨rt1, h1, h2, h3, h4, h5, ?_, ?_, fun d hd => hgrow d (Or.inr hd), ?_, h10⟩
    rotate_left 2
    · intro e he
      rcases List.mem_cons.1 he with he | he
      · subst he
        exact hgrow _ (Or.inl rfl)
      · exact h9 e he
    · intro L hL
      have hL2 : L ≠ lc.Level ∧ L ∉ rest.map (fun e => e.2.Level) := by simpa using hL
      rw [h6 L hL2.2]
      show mapGet? (mapSet rt.fileName lc.Level lc.FileName) L = _
      rw [mapGet?_mapSet_ne _ _ _ _ hL2.1]
    · intro hnd2 e he
      have hnd3 : lc.Level ∉ rest.map (fun e => e.2.Level) ∧ (rest.map (fun e => e.2.Level)).Nodup := by
        simpa using hnd2
      rcases List.mem_cons.1 he with he | he
      · subst he
        rw [h6 _ hnd3.1]
        show mapGet? (mapSet rt.fileName lc.Level lc.FileName) lc.Level = _
        rw [mapGet?_mapSet_self]
      · exact h7 hnd3.2 e he

/-! ## The worker: the loop -/

theorem route_congr {rt1 rt2 : runtime} (h : rt2.fileName = rt1.fileName) :
    rt2.route = rt1.route := by
  funext L
  unfold runtime.route
  rw [h]

theorem workerLoop_close (glog : Log) (rt : runtime) (w : World) (events : List Event)
    (hr : Ready glog rt) (hfair : w.FairRange)
    (hev : ∀ m, Event.msg m ∈ events →
      m.level ≠ SIGNAL_CLOSE ∧ rt.Routed m.level ∧ rt.route m.level ≠ []) :
    (∃ rt1 w1, workerLoop glog rt w (events ++ [Event.msg closeMsg]) = .ok (.closed rt1 w1) ∧
      (∀ d, rt1.counter d = 0) ∧
      ∀ d, w1.written d =
        w.written d ++ (if d = [] then [] else rt.pending d) ++ routedTexts rt.route events d) ∨
    (workerLoop glog rt w (events ++ [Event.msg closeMsg]) = .error .createFile ∧
      ¬ w.NoFailure) := by
  induction events generalizing rt w with
  | nil =>
    simp only [List.nil_append, workerLoop, closeMsg, if_true]
    rcases flushAll_spec glog rt w hr hfair with ⟨rt1, w1, hf, _, _, _, _, hc, hw, _⟩ | ⟨hf, hnf⟩
    · rw [hf]
      exact Or.inl ⟨rt1, w1, rfl, hc, fun d => by rw [hw d]; simp [routedTexts]⟩
    · rw [hf]
      exact Or.inr ⟨rfl, hnf⟩
  | cons e rest ih =>
    cases e with
    | msg m =>
      obtain ⟨hne, hrouted, hdest⟩ := hev m (by simp)
      simp only [List.cons_append, workerLoop, hne, if_false]
      rcases handleRecord_spec glog rt w m hr hrouted with
        ⟨rt1, w1, hh, hr1, hfn, hkeys, hor, hinv, hother, _, _⟩ | ⟨hh, hnf⟩
      · rw [hh]
        simp only
        have hroute := route_congr hfn
        have hev1 : ∀ m, Event.msg m ∈ rest →
            m.level ≠ SIGNAL_CLOSE ∧ rt1.Routed m.level ∧ rt1.route m.level ≠ [] := by
          intro m2 hm2
          obtain ⟨a, b, c⟩ := hev m2 (List.mem_cons_of_mem _ hm2)
          refine ⟨a, ?_, by rw [hroute]; exact c⟩
          unfold runtime.Routed
          rw [hroute, hkeys]
          exact b
        rcases ih rt1 w1 hr1 (hor.fairRange hfair) hev1 with ⟨rt2, w2, hl, hc, hw⟩ | ⟨hl, hnf⟩
        · refine Or.inl ⟨rt2, w2, hl, hc, fun d => ?_⟩
          rw [hw d, hroute]
          by_cases hd : d = []
          · have hdr : d ≠ rt.route m.level := fun h => hdest (h ▸ hd)
            have hdr2 : ¬ rt.route m.level = d := fun h => hdr h.symm
            simp only [hd, if_true, List.append_nil] at *
            rw [(hother [] hdr).2]
            simp [routedTexts, hdr2]
          · simp only [hd, if_false]
            rw [hinv d]
            by_cases hdr : d = rt.route m.level
            · simp [routedTexts, hdr]
            · have hdr2 : ¬ rt.route m.level = d := fun h => hdr h.symm
              simp [routedTexts, hdr, hdr2]
        · exact Or.inr ⟨hl, fun h => hnf (hor.noFailure.2 h)⟩
      · rw [hh]
        exact Or.inr ⟨rfl, hnf⟩
    | tick =>
      simp only [List.cons_append, workerLoop]
      rcases flushAll_spec glog rt w hr hfair with
        ⟨rt1, w1, hf, hr1, hfn, hkeys, hor, hc, hw, _⟩ | ⟨hf, hnf⟩
      · rw [hf]
        simp only
        have hroute := route_congr hfn
        have hev1 : ∀ m, Event.msg m ∈ rest →
            m.level ≠ SIGNAL_CLOSE ∧ rt1.Routed m.level ∧ rt1.route m.level ≠ [] := by
          intro m2 hm2
          obtain ⟨a, b, c⟩ := hev m2 (List.mem_cons_of_mem _ hm2)
          refine ⟨a, ?_, by rw [hroute]; exact c⟩
          unfold runtime.Routed
          rw [hroute, hkeys]
          exact b
        rcases ih rt1 w1 hr1 (hor.fairRange hfair) hev1 with ⟨rt2, w2, hl, hc2, hw2⟩ | ⟨hl, hnf⟩
        · refine Or.inl ⟨rt2, w2, hl, hc2, fun d => ?_⟩
          rw [hw2 d, hroute, hw d, pending_of_counter_le rt1 d (by rw [hc d])]
          simp [routedTexts]
        · exact Or.inr ⟨hl, fun h => hnf (hor.noFailure.2 h)⟩
      · rw [hf]
        exact Or.inr ⟨rfl, hnf⟩

/-! ## The worker: start, and the producers -/

theorem runLogChan_start (glog : Log) (rt0 : runtime) (w : World)
    (id : Nat) (v : Int) (hsplit : parse_split w.caseTable glog.Split = .ok (id, v)) (hbuf : 1 ≤ glog.Buf)
    (hfair : w.FairRange) :
    ∃ rt, (∀ events, runLogChan glog rt0 w events =
        workerLoop glog rt { w with ranges := w.ranges + 1 } events) ∧
      Ready glog rt ∧ (∀ d, rt.pending d = []) ∧
      (∀ L f, mapGet? rt.fileName L = some f → f ∈ mapKeys rt.bufsCounter) ∧
      ((mapKeys glog.levelConf).Nodup → (∀ e ∈ glog.levelConf, e.2.Level = e.1) →
        ∀ L, rt.route L = glog.dest L) ∧
      (∀ L, L ∉ glog.levelConf.map (fun e => e.2.Level) → rt.route L = []) ∧
      (∀ e ∈ glog.levelConf, e.2.FileName ∈ mapKeys rt.bufsCounter) ∧
      rt.split = { id := id, value := v } ∧ rt.fileSizeCounter = [] := by
  have hperm := hfair w.ranges (Nat × LevelConf) glog.levelConf
  obtain ⟨rt, h1, h2, h3, h4, h5, h6, h7, _, h9, h10⟩ := mergeLogfiles_spec glog.Buf (by omega)
    (w.rangeOrder w.ranges (Nat × LevelConf) glog.levelConf)
    (initRuntime { rt0 with split := { id := id, value := v } })
    (by simp [initRuntime, mapKeys]) (by simp [initRuntime, mapKeys])
    (by simp [initRuntime, mapGet?])
  have hb := parse_split_bounds _ _ _ _ hsplit
  refine ⟨rt, ?_, ⟨hbuf, h3, ?_, ?_⟩, ?_, h5, ?_, ?_, fun e he => h9 e (hperm.mem_iff.2 he), h2, h10⟩
  · intro events
    unfold runLogChan
    simp only [hsplit, World.range, h1]
  · intro d hd
    obtain ⟨a, b⟩ := h4 d hd
    rw [a]
    exact ⟨le_refl _, by omega, b⟩
  · rw [h2]
    show id = SPLIT_HOUR ∨ id = SPLIT_MIN → v ≠ 0
    rintro (h | h)
    · have := hb.2.2.1 h; omega
    · have := hb.2.2.2.1 h; omega
  · intro d
    apply pending_of_counter_le
    by_cases hd : d ∈ mapKeys rt.bufsCounter
    · rw [(h4 d hd).1]
    · have : mapGet? rt.bufsCounter d = none := by
        cases hg : mapGet? rt.bufsCounter d with
        | none => rfl
        | some x => exact absurd ((mem_mapKeys_iff _ _).2 ⟨x, hg⟩) hd
      simp [runtime.counter, this]
  · intro hnd hwell L
    have hlevels : (w.rangeOrder w.ranges (Nat × LevelConf) glog.levelConf).map (fun e => e.2.Level) =
        (w.rangeOrder w.ranges (Nat × LevelConf) glog.levelConf).map Prod.fst := by
      apply List.map_congr_left
      intro e he
      exact hwell e (hperm.mem_iff.1 he)
    have hnd2 : ((w.rangeOrder w.ranges (Nat × LevelConf) glog.levelConf).map
        (fun e => e.2.Level)).Nodup := by
      rw [hlevels]
      exact (hperm.map Prod.fst).nodup_iff.2 hnd
    unfold runtime.route Log.dest
    cases hg : mapGet? glog.levelConf L with
    | none =>
      have hL : L ∉ (w.rangeOrder w.ranges (Nat × LevelConf) glog.levelConf).map
          (fun e => e.2.Level) := by
        rw [hlevels]
        intro hmem
        have hmem2 : L ∈ mapKeys glog.levelConf := (hperm.map Prod.fst).mem_iff.1 hmem
        obtain ⟨x, hx⟩ := (mem_mapKeys_iff _ _).1 hmem2
        rw [hx] at hg
        exact absurd hg (by simp)
      rw [h6 L hL]
      simp [initRuntime, mapGet?]
    | some c =>
      have hmem : (L, c) ∈ w.rangeOrder w.ranges (Nat × LevelConf) glog.levelConf :=
        hperm.mem_iff.2 (mem_of_mapGet? _ _ _ hg)
      have hc : c.Level = L := hwell (L, c) (mem_of_mapGet? _ _ _ hg)
      have := h7 hnd2 (L, c) hmem
      simp only [hc] at this
      rw [this]
      rfl
  · intro L hL
    have hL2 : L ∉ (w.rangeOrder w.ranges (Nat × LevelConf) glog.levelConf).map
        (fun e => e.2.Level) := fun h => hL ((hperm.map (fun e => e.2.Level)).mem_iff.1 h)
    unfold runtime.route
    rw [h6 L hL2]
    simp [initRuntime, mapGet?]

theorem Method.level_ne_close (method : Method) : method.level ≠ SIGNAL_CLOSE := by
  cases method <;> decide

theorem write_logChan (Sprintf : List Char → List (List Char) → List Char) (log glog : Log)
    (g g1 : Globals) (level : Nat) (logStr : List Char) (args : List (List Char)) (now : Time)
    (hg : g.glog = some glog) (hchan : g.logChan = [])
    (h : log.write Sprintf g level logStr args now = .ok g1) :
    g1.glog = some glog ∧ ∀ m ∈ g1.logChan, m.level = level ∧ glog.dest level ≠ [] := by
  unfold Log.write at h
  by_cases hgate : Nat.land level log.Level ≠ level
  · rw [if_pos hgate] at h
    have := Except.ok.inj h
    subst this
    exact ⟨hg, by simp [hchan]⟩
  · rw [if_neg hgate] at h
    simp only [hg] at h
    have hdest : glog.dest level = ((mapGet? glog.levelConf level).getD
        { Level := 0, IsPrint := false, FileName := [] }).FileName := rfl
    generalize (mapGet? glog.levelConf level).getD
      { Level := 0, IsPrint := false, FileName := [] } = conf at h hdest
    cases hp : conf.IsPrint <;> by_cases hf : conf.FileName = [] <;>
      simp only [hp, hf, if_true, if_false, Bool.false_eq_true] at h <;>
      have h2 := Except.ok.inj h <;> subst h2 <;>
      simp [hg, hchan, hdest, hf]

theorem write_total (Sprintf : List Char → List (List Char) → List Char) (log glog : Log)
    (g : Globals) (level : Nat) (logStr : List Char) (args : List (List Char)) (now : Time)
    (hg : g.glog = some glog) : ∃ g1, log.write Sprintf g level logStr args now = .ok g1 := by
  unfold Log.write
  simp only [hg]
  split
  · exact ⟨_, rfl⟩
  · split <;> exact ⟨_, rfl⟩

theorem emit_eq_write (Sprintf : List Char → List (List Char) → List Char) (log : Log)
    (g : Globals) (method : Method) (logStr : List Char) (args : List (List Char)) (now : Time) :
    log.emit Sprintf g method logStr args now =
      log.write Sprintf g method.level logStr args now := by
  cases method <;> rfl

theorem drive_spec (Sprintf : List Char → List (List Char) → List Char) (log glog : Log)
    (g : Globals) (actions : List Action) (hg : g.glog = some glog) :
    ∃ events g1, drive Sprintf log g actions = .ok (events, g1) ∧
      ∀ m, Event.msg m ∈ events → m.level ≠ SIGNAL_CLOSE ∧ glog.dest m.level ≠ [] := by
  induction actions generalizing g with
  | nil => exact ⟨[], g, rfl, fun m hm => by simp at hm⟩
  | cons a rest ih =>
    cases a with
    | tick =>
      obtain ⟨events, g1, hd, hev⟩ := ih g hg
      refine ⟨.tick :: events, g1, by simp only [drive, hd], fun m hm => ?_⟩
      exact hev m (by simpa using hm)
    | emit method logStr args now =>
      obtain ⟨g1, hw⟩ := write_total Sprintf log glog { g with logChan := [] } method.level
        logStr args now hg
      obtain ⟨hg1, hchan⟩ := write_logChan Sprintf log glog { g with logChan := [] } g1 method.level
        logStr args now hg rfl hw
      obtain ⟨events, g2, hd, hev⟩ := ih { g1 with logChan := [] } hg1
      refine ⟨g1.logChan.map Event.msg ++ events, g2, by simp only [drive, emit_eq_write, hw, hd],
        fun m hm => ?_⟩
      rcases List.mem_append.1 hm with h | h
      · have hm2 : m ∈ g1.logChan := by simpa using h
        obtain ⟨hl, hdst⟩ := hchan m hm2
        rw [hl]
        exact ⟨Method.level_ne_close method, hdst⟩
      · exact hev m h

/-! ## `New` -/

theorem setAll_spec (m levelConf : List (Nat × LevelConf))
    (hnd : (mapKeys levelConf).Nodup) :
    (mapKeys (setAll levelConf m)).Nodup ∧
    ((∀ e ∈ levelConf, e.2.Level = e.1) → (∀ e ∈ m, e.2.Level = e.1) →
      ∀ e ∈ setAll levelConf m, e.2.Level = e.1) := by
  induction m generalizing levelConf with
  | nil => exact ⟨hnd, fun h _ => h⟩
  | cons x rest ih =>
    obtain ⟨t, c⟩ := x
    obtain ⟨h1, h2⟩ := ih (mapSet levelConf t c) (mapKeys_mapSet_nodup _ _ _ hnd)
    refine ⟨h1, fun hw hm => h2 ?_ (fun e he => hm e (List.mem_cons_of_mem _ he))⟩
    intro e he
    rcases mem_mapSet _ _ _ _ he with h | h
    · rw [h]
      exact hm (t, c) (by simp)
    · exact hw e h

theorem setLevelConfs_spec (arg1 : Option Arg) (args : List Arg) (i : Nat)
    (levelConf : List (Nat × LevelConf)) (err : Option NewError)
    (out : List (Nat × LevelConf)) (err2 : Option NewError)
    (h : setLevelConfs arg1 i args (levelConf, err) = .ok (out, err2))
    (hnd : (mapKeys levelConf).Nodup) :
    (mapKeys out).Nodup ∧
    ((∀ e ∈ levelConf, e.2.Level = e.1) →
      (∀ m, arg1 = some (Arg.levelMap m) → ∀ e ∈ m, e.2.Level = e.1) →
      ∀ e ∈ out, e.2.Level = e.1) := by
  induction args generalizing i levelConf err with
  | nil =>
    simp only [setLevelConfs] at h
    have := Except.ok.inj h
    simp only [Prod.mk.injEq] at this
    obtain ⟨rfl, _⟩ := this
    exact ⟨hnd, fun hw _ => hw⟩
  | cons a rest ih =>
    cases a with
    | log l =>
      simp only [setLevelConfs] at h
      exact ih _ _ _ h hnd
    | other =>
      simp only [setLevelConfs] at h
      exact ih _ _ _ h hnd
    | levelConf c =>
      simp only [setLevelConfs] at h
      obtain ⟨h1, h2⟩ := ih _ _ _ h (mapKeys_mapSet_nodup _ c.Level c hnd)
      refine ⟨h1, fun hw hm => h2 ?_ hm⟩
      intro e he
      rcases mem_mapSet _ _ _ _ he with h3 | h3
      · rw [h3]
      · exact hw e h3
    | levelMap m0 =>
      rcases arg1 with _ | (_ | m | _ | _)
      · simp only [setLevelConfs] at h
        exact absurd h (by simp)
      · simp only [setLevelConfs] at h
        exact absurd h (by simp)
      · simp only [setLevelConfs] at h
        obtain ⟨h1, h2⟩ := ih _ _ _ h (setAll_spec m levelConf hnd).1
        refine ⟨h1, fun hw hm => h2 ?_ hm⟩
        exact (setAll_spec m levelConf hnd).2 hw (hm m rfl)
      · simp only [setLevelConfs] at h
        exact absurd h (by simp)
      · simp only [setLevelConfs] at h
        exact absurd h (by simp)

theorem defaultLevelConf_wellKeyed :
    (mapKeys defaultLevelConf).Nodup ∧ ∀ e ∈ defaultLevelConf, e.2.Level = e.1 := by
  constructor
  · decide
  · intro e he
    simp only [defaultLevelConf, List.mem_cons, List.mem_singleton, List.not_mem_nil, or_false] at he
    rcases he with h | h | h | h | h <;> rw [h]

theorem New_spec (g g1 : Globals) (args : List Arg) (log : Log) (err : Option NewError)
    (hg : g.glog = none) (h : New g args = .ok (log, err, g1)) :
    g1.glog = some log ∧ CHAN_BUFFER_SIZE ≤ log.Buf ∧ (mapKeys log.levelConf).Nodup ∧
    ((∀ m, Arg.levelMap m ∈ args → ∀ e ∈ m, e.2.Level = e.1) →
      ∀ e ∈ log.levelConf, e.2.Level = e.1) := by
  unfold New at h
  simp only [hg] at h
  split at h
  · exact absurd h (by simp)
  · rename_i log0 err0 hparsed
    have hfloor : (if log0.Buf < CHAN_BUFFER_SIZE then { log0 with Buf := CHAN_BUFFER_SIZE } else log0).levelConf
        = log0.levelConf ∧ CHAN_BUFFER_SIZE ≤
        (if log0.Buf < CHAN_BUFFER_SIZE then { log0 with Buf := CHAN_BUFFER_SIZE } else log0).Buf := by
      split
      · exact ⟨rfl, le_refl _⟩
      · rename_i hlt
        exact ⟨rfl, not_lt.1 hlt⟩
    generalize (if log0.Buf < CHAN_BUFFER_SIZE then { log0 with Buf := CHAN_BUFFER_SIZE } else log0) = L
      at h hfloor
    split at h
    · exact absurd h (by simp)
    · have h2 := Except.ok.inj h
      simp only [Prod.mk.injEq] at h2
      obtain ⟨hlog, _, hg1⟩ := h2
      subst hlog
      have hconf : L.levelConf = log0.levelConf := hfloor.1
      have hbuf : CHAN_BUFFER_SIZE ≤ L.Buf := hfloor.2
      refine ⟨by rw [← hg1], hbuf, ?_, ?_⟩
      · rw [hconf]
        split at hparsed
        · have := Except.ok.inj hparsed
          simp only [Prod.mk.injEq] at this
          rw [← this.1]
          exact defaultLevelConf_wellKeyed.1
        · rename_i l rest
          split at hparsed
          · exact absurd hparsed (by simp)
          · rename_i lc e2 hset
            have := Except.ok.inj hparsed
            simp only [Prod.mk.injEq] at this
            rw [← this.1]
            exact (setLevelConfs_spec _ _ _ _ _ _ _ hset defaultLevelConf_wellKeyed.1).1
        · have := Except.ok.inj hparsed
          simp only [Prod.mk.injEq] at this
          rw [← this.1]
          exact defaultLevelConf_wellKeyed.1
      · intro hwell
        rw [hconf]
        split at hparsed
        · have := Except.ok.inj hparsed
          simp only [Prod.mk.injEq] at this
          rw [← this.1]
          exact defaultLevelConf_wellKeyed.2
        · rename_i l rest
          split at hparsed
          · exact absurd hparsed (by simp)
          · rename_i lc e2 hset
            have := Except.ok.inj hparsed
            simp only [Prod.mk.injEq] at this
            rw [← this.1]
            refine (setLevelConfs_spec _ _ _ _ _ _ _ hset defaultLevelConf_wellKeyed.1).2
              defaultLevelConf_wellKeyed.2 ?_
            intro m hm
            apply hwell m
            cases rest with
            | nil => simp at hm
            | cons a rest2 =>
              simp only [List.head?_cons, Option.some.injEq] at hm
              rw [hm]
              simp
        · have := Except.ok.inj hparsed
          simp only [Prod.mk.injEq] at this
          rw [← this.1]
          exact defaultLevelConf_wellKeyed.2

theorem workerLoop_close_dest (glog : Log) (rt : runtime) (w : World) (events : List Event)
    (hr : Ready glog rt) (hfair : w.FairRange)
    (hev : ∀ m, Event.msg m ∈ events → m.level ≠ SIGNAL_CLOSE ∧ rt.Routed m.level) :
    (∃ rt1 w1, workerLoop glog rt w (events ++ [Event.msg closeMsg]) = .ok (.closed rt1 w1) ∧
      ∀ d, d ≠ [] → w1.written d = w.written d ++ rt.pending d ++ routedTexts rt.route events d) ∨
    (workerLoop glog rt w (events ++ [Event.msg closeMsg]) = .error .createFile ∧
      ¬ w.NoFailure) := by
  induction events generalizing rt w with
  | nil =>
    simp only [List.nil_append, workerLoop, closeMsg, if_true]
    rcases flushAll_spec glog rt w hr hfair with ⟨rt1, w1, hf, _, _, _, _, hc, hw, _⟩ | ⟨hf, hnf⟩
    · rw [hf]
      exact Or.inl ⟨rt1, w1, rfl, fun d hd => by rw [hw d]; simp [routedTexts, hd]⟩
    · rw [hf]
      exact Or.inr ⟨rfl, hnf⟩
  | cons e rest ih =>
    cases e with
    | msg m =>
      obtain ⟨hne, hrouted⟩ := hev m (by simp)
      simp only [List.cons_append, workerLoop, hne, if_false]
      rcases handleRecord_spec glog rt w m hr hrouted with
        ⟨rt1, w1, hh, hr1, hfn, hkeys, hor, hinv, _, _, _⟩ | ⟨hh, hnf⟩
      · rw [hh]
        simp only
        have hroute := route_congr hfn
        have hev1 : ∀ m, Event.msg m ∈ rest → m.level ≠ SIGNAL_CLOSE ∧ rt1.Routed m.level := by
          intro m2 hm2
          obtain ⟨a, b⟩ := hev m2 (List.mem_cons_of_mem _ hm2)
          refine ⟨a, ?_⟩
          unfold runtime.Routed
          rw [hroute, hkeys]
          exact b
        rcases ih rt1 w1 hr1 (hor.fairRange hfair) hev1 with ⟨rt2, w2, hl, hw⟩ | ⟨hl, hnf⟩
        · refine Or.inl ⟨rt2, w2, hl, fun d hd => ?_⟩
          rw [hw d hd, hroute, hinv d]
          by_cases hdr : d = rt.route m.level
          · simp [routedTexts, hdr]
          · have hdr2 : ¬ rt.route m.level = d := fun h => hdr h.symm
            simp [routedTexts, hdr, hdr2]
        · exact Or.inr ⟨hl, fun h => hnf (hor.noFailure.2 h)⟩
      · rw [hh]
        exact Or.inr ⟨rfl, hnf⟩
    | tick =>
      simp only [List.cons_append, workerLoop]
      rcases flushAll_spec glog rt w hr hfair with
        ⟨rt1, w1, hf, hr1, hfn, hkeys, hor, hc, hw, _⟩ | ⟨hf, hnf⟩
      · rw [hf]
        simp only
        have hroute := route_congr hfn
        have hev1 : ∀ m, Event.msg m ∈ rest → m.level ≠ SIGNAL_CLOSE ∧ rt1.Routed m.level := by
          intro m2 hm2
          obtain ⟨a, b⟩ := hev m2 (List.mem_cons_of_mem _ hm2)
          refine ⟨a, ?_⟩
          unfold runtime.Routed
          rw [hroute, hkeys]
          exact b
        rcases ih rt1 w1 hr1 (hor.fairRange hfair) hev1 with ⟨rt2, w2, hl, hw2⟩ | ⟨hl, hnf⟩
        · refine Or.inl ⟨rt2, w2, hl, fun d hd => ?_⟩
          rw [hw2 d hd, hroute, hw d, pending_of_counter_le rt1 d (by rw [hc d])]
          simp [routedTexts, hd]
        · exact Or.inr ⟨hl, fun h => hnf (hor.noFailure.2 h)⟩
      · rw [hf]
        exact Or.inr ⟨rfl, hnf⟩

theorem workerLoop_safe (glog : Log) (rt : runtime) (w : World) (events : List Event)
    (hr : Ready glog rt) (hfair : w.FairRange)
    (hev : ∀ m, Event.msg m ∈ events → m.level = SIGNAL_CLOSE ∨ rt.Routed m.level) :
    workerLoop glog rt w events = .error .createFile ∨
    (∃ rt1 w1, workerLoop glog rt w events = .ok (.closed rt1 w1)) ∨
    (∃ rt1 w1, workerLoop glog rt w events = .ok (.waiting rt1 w1) ∧ Ready glog rt1 ∧
      rt1.fileName = rt.fileName ∧ mapKeys rt1.bufsCounter = mapKeys rt.bufsCounter ∧
      w.SameOracles w1 ∧ rt1.split = rt.split) := by
  induction events generalizing rt w with
  | nil => exact Or.inr (Or.inr ⟨rt, w, rfl, hr, rfl, rfl, World.SameOracles.sameOracles_refl w, rfl⟩)
  | cons e rest ih =>
    cases e with
    | msg m =>
      simp only [workerLoop]
      by_cases hc : m.level = SIGNAL_CLOSE
      · rw [if_pos hc]
        rcases flushAll_spec glog rt w hr hfair with ⟨rt1, w1, hf, _⟩ | ⟨hf, _⟩
        · rw [hf]
          exact Or.inr (Or.inl ⟨rt1, w1, rfl⟩)
        · rw [hf]
          exact Or.inl rfl
      · rw [if_neg hc]
        have hrouted : rt.Routed m.level := by
          rcases hev m (by simp) with h | h
          · exact absurd h hc
          · exact h
        rcases handleRecord_spec glog rt w m hr hrouted with
          ⟨rt1, w1, hh, hr1, hfn, hkeys, hor, _, _, _, _, hsp, _⟩ | ⟨hh, _⟩
        · rw [hh]
          simp only
          have hev1 : ∀ m, Event.msg m ∈ rest → m.level = SIGNAL_CLOSE ∨ rt1.Routed m.level := by
            intro m2 hm2
            rcases hev m2 (List.mem_cons_of_mem _ hm2) with h | h
            · exact Or.inl h
            · right
              unfold runtime.Routed
              rw [route_congr hfn, hkeys]
              exact h
          rcases ih rt1 w1 hr1 (hor.fairRange hfair) hev1 with h | h |
            ⟨rt2, w2, h, hr2, hf2, hk2, hor2, hsp2⟩
          · exact Or.inl h
          · exact Or.inr (Or.inl h)
          · exact Or.inr (Or.inr ⟨rt2, w2, h, hr2, hf2.trans hfn, hk2.trans hkeys,
              World.SameOracles.sameOracles_trans hor hor2, hsp2.trans hsp⟩)
        · rw [hh]
          exact Or.inl rfl
    | tick =>
      simp only [workerLoop]
      rcases flushAll_spec glog rt w hr hfair with
        ⟨rt1, w1, hf, hr1, hfn, hkeys, hor, _, _, hsp⟩ | ⟨hf, _⟩
      · rw [hf]
        simp only
        have hev1 : ∀ m, Event.msg m ∈ rest → m.level = SIGNAL_CLOSE ∨ rt1.Routed m.level := by
          intro m2 hm2
          rcases hev m2 (List.mem_cons_of_mem _ hm2) with h | h
          · exact Or.inl h
          · right
            unfold runtime.Routed
            rw [route_congr hfn, hkeys]
            exact h
        rcases ih rt1 w1 hr1 (hor.fairRange hfair) hev1 with h | h |
          ⟨rt2, w2, h, hr2, hf2, hk2, hor2, hsp2⟩
        · exact Or.inl h
        · exact Or.inr (Or.inl h)
        · exact Or.inr (Or.inr ⟨rt2, w2, h, hr2, hf2.trans hfn, hk2.trans hkeys,
            World.SameOracles.sameOracles_trans hor hor2, hsp2.trans hsp⟩)
      · rw [hf]
        exact Or.inl rfl

theorem workerLoop_append (glog : Log) (pre events : List Event) (rt rt1 : runtime)
    (w w1 : World) (h : workerLoop glog rt w pre = .ok (.waiting rt1 w1)) :
    workerLoop glog rt w (pre ++ events) = workerLoop glog rt1 w1 events := by
  induction pre generalizing rt w with
  | nil =>
    simp only [workerLoop, Except.ok.injEq, Outcome.waiting.injEq] at h
    obtain ⟨rfl, rfl⟩ := h
    rfl
  | cons e rest ih =>
    cases e with
    | msg m =>
      simp only [List.cons_append, workerLoop] at h ⊢
      by_cases hc : m.level = SIGNAL_CLOSE
      · rw [if_pos hc] at h
        cases hf : flushAll rt w with
        | error p => rw [hf] at h; exact absurd h (by simp)
        | ok r => rw [hf] at h; exact absurd h (by simp)
      · rw [if_neg hc] at h ⊢
        cases hh : handleRecord glog rt w m with
        | error p => rw [hh] at h; exact absurd h (by simp)
        | ok r =>
          rw [hh] at h
          exact ih _ _ h
    | tick =>
      simp only [List.cons_append, workerLoop] at h ⊢
      cases hf : flushAll rt w with
      | error p => rw [hf] at h; exact absurd h (by simp)
      | ok r =>
        rw [hf] at h
        exact ih _ _ h

/-! ## The worker: records without a tick -/

theorem Ready.counter_lt {glog : Log} {rt : runtime} (hr : Ready glog rt) (d : List Char) :
    0 ≤ rt.counter d ∧ rt.counter d < glog.Buf := by
  by_cases hd : d ∈ mapKeys rt.bufsCounter
  · exact ⟨(hr.bounds d hd).1, (hr.bounds d hd).2.1⟩
  · have : mapGet? rt.bufsCounter d = none := by
      cases hg : mapGet? rt.bufsCounter d with
      | none => rfl
      | some x => exact absurd ((mem_mapKeys_iff _ _).2 ⟨x, hg⟩) hd
    have h0 : rt.counter d = 0 := by simp [runtime.counter, this]
    rw [h0]
    exact ⟨le_refl _, by have := hr.buf_pos; omega⟩

theorem records_run (glog : Log) (d : List Char) (events : List Event) (rt : runtime) (w : World)
    (hr : Ready glog rt) (hmode : rt.split.id ≠ SPLIT_SIZE) (hnf : w.NoFailure)
    (hev : ∀ e ∈ events, ∃ m, e = Event.msg m ∧ m.level ≠ SIGNAL_CLOSE ∧ rt.Routed m.level)
    (hle : rt.counter d + ((routedTexts rt.route events d).length : Int) ≤ glog.Buf) :
    ∃ rt1 w1, workerLoop glog rt w events = .ok (.waiting rt1 w1) ∧
      w1.written d ++ rt1.pending d =
        w.written d ++ rt.pending d ++ routedTexts rt.route events d ∧
      (rt.counter d + ((routedTexts rt.route events d).length : Int) < glog.Buf →
        rt1.counter d = rt.counter d + ((routedTexts rt.route events d).length : Int) ∧
          w1.written d = w.written d) ∧
      (rt.counter d + ((routedTexts rt.route events d).length : Int) = glog.Buf →
        rt1.counter d = 0) := by
  induction events generalizing rt w with
  | nil =>
    have hc := hr.counter_lt d
    refine ⟨rt, w, rfl, by simp [routedTexts], fun _ => by simp [routedTexts], fun h => ?_⟩
    simp only [routedTexts, List.filterMap_nil, List.length_nil, Nat.cast_zero, add_zero] at h
    omega
  | cons e rest ih =>
    obtain ⟨m, rfl, hne, hrouted⟩ := hev e (by simp)
    have hc := hr.counter_lt d
    simp only [workerLoop, hne, if_false]
    rcases handleRecord_spec glog rt w m hr hrouted with
      ⟨rt1, w1, hh, hr1, hfn, hkeys, hor, hinv, hother, hquiet, hfull, hsplit, _, _⟩ | ⟨_, hbad⟩
    · rw [hh]
      simp only
      have hroute := route_congr hfn
      have hfl : flushNow glog (storeRecord rt (rt.route m.level) (rt.counter (rt.route m.level)) m.str)
          (rt.route m.level) (rt.counter (rt.route m.level)) ↔
          rt.counter (rt.route m.level) ≥ glog.Buf - 1 := by
        unfold flushNow
        constructor
        · rintro (h | ⟨h, _⟩)
          · exact h
          · exact absurd h hmode
        · exact Or.inl
      have hev1 : ∀ e ∈ rest, ∃ m, e = Event.msg m ∧ m.level ≠ SIGNAL_CLOSE ∧ rt1.Routed m.level := by
        intro e he
        obtain ⟨m2, a, b, c⟩ := hev e (List.mem_cons_of_mem _ he)
        refine ⟨m2, a, b, ?_⟩
        unfold runtime.Routed
        rw [hroute, hkeys]
        exact c
      have hmode1 : rt1.split.id ≠ SPLIT_SIZE := by rw [hsplit]; exact hmode
      have hnf1 : w1.NoFailure := hor.noFailure.2 hnf
      by_cases hd : rt.route m.level = d
      · have htexts : routedTexts rt.route (Event.msg m :: rest) d =
            m.str :: routedTexts rt.route rest d := by
          simp [routedTexts, hd]
        rw [htexts] at hle ⊢
        simp only [List.length_cons, Nat.cast_add, Nat.cast_one] at hle ⊢
        rw [hd] at hfl hquiet hfull
        by_cases hlast : rt.counter d ≥ glog.Buf - 1
        · have hc1 : rt1.counter d = 0 := hfull (hfl.2 hlast)
          have hk : ((routedTexts rt.route rest d).length : Int) = 0 := by omega
          obtain ⟨rt2, w2, hl, hinv2, hlt2, _⟩ := ih rt1 w1 hr1 hmode1 hnf1 hev1
            (by rw [hroute, hc1, hk]; have := hr.buf_pos; omega)
          refine ⟨rt2, w2, hl, ?_, fun h => by omega, fun _ => ?_⟩
          · rw [hinv2, hroute, hinv d]
            simp [hd]
          · have := (hlt2 (by rw [hroute, hc1, hk]; have := hr.buf_pos; omega)).1
            rw [this, hroute, hc1, hk]
            rfl
        · obtain ⟨hc1, hw1⟩ := hquiet (fun h => hlast (hfl.1 h))
          obtain ⟨rt2, w2, hl, hinv2, hlt2, heq2⟩ := ih rt1 w1 hr1 hmode1 hnf1 hev1
            (by rw [hroute, hc1]; omega)
          refine ⟨rt2, w2, hl, ?_, fun h => ?_, fun h => ?_⟩
          · rw [hinv2, hroute, hinv d]
            simp [hd]
          · obtain ⟨a, b⟩ := hlt2 (by rw [hroute, hc1]; omega)
            rw [a, b, hroute, hc1, hw1 d]
            exact ⟨by omega, rfl⟩
          · exact heq2 (by rw [hroute, hc1]; omega)
      · have hd2 : d ≠ rt.route m.level := fun h => hd h.symm
        have htexts : routedTexts rt.route (Event.msg m :: rest) d = routedTexts rt.route rest d := by
          simp [routedTexts, hd]
        rw [htexts] at hle ⊢
        obtain ⟨hc1, hw1⟩ := hother d hd2
        obtain ⟨rt2, w2, hl, hinv2, hlt2, heq2⟩ := ih rt1 w1 hr1 hmode1 hnf1 hev1
          (by rw [hroute, hc1]; exact hle)
        refine ⟨rt2, w2, hl, ?_, fun h => ?_, fun h => ?_⟩
        · rw [hinv2, hroute, hinv d]
          simp [hd2]
        · obtain ⟨a, b⟩ := hlt2 (by rw [hroute, hc1]; exact h)
          rw [a, b, hroute, hc1, hw1]
          exact ⟨rfl, rfl⟩
        · exact heq2 (by rw [hroute, hc1]; exact h)
    · exact absurd hnf hbad

theorem byteLen_nonneg (s : List Char) : 0 ≤ byteLen s := by
  unfold byteLen
  exact Int.natCast_nonneg _

theorem byteLen_append (a b : List Char) : byteLen (a ++ b) = byteLen a + byteLen b := by
  simp [byteLen]

theorem byteLen_cons (c : Char) (s : List Char) : byteLen (c :: s) = c.utf8Size + byteLen s := by
  simp [byteLen]

/-- Records for one destination that fill neither the buffer nor, in size mode, the byte
budget are stored without any write. -/
theorem quiet_run (glog : Log) (d : List Char) (b T : Int) (ms : List logMsg) (rt : runtime)
    (w : World)
    (hms : ∀ m ∈ ms, rt.route m.level = d ∧ m.level ≠ SIGNAL_CLOSE ∧ byteLen m.str ≤ b)
    (hc0 : 0 ≤ rt.counter d) (hlen : ((rt.buffer d).length : Int) = glog.Buf)
    (hcount : rt.counter d + (ms.length : Int) < glog.Buf)
    (hT : mul64 (mul64 rt.split.value 1024) 1024 = T) (hTmax : T ≤ maxInt)
    (hs0 : 0 ≤ (mapGet? rt.fileSizeCounter d).getD 0)
    (hsize : (mapGet? rt.fileSizeCounter d).getD 0 + (ms.length : Int) * b ≤ T) :
    ∃ rt1, workerLoop glog rt w (ms.map Event.msg) = .ok (.waiting rt1 w) ∧
      rt1.counter d = rt.counter d + (ms.length : Int) := by
  induction ms generalizing rt with
  | nil => exact ⟨rt, rfl, by simp⟩
  | cons m rest ih =>
    obtain ⟨hd, hne, hb⟩ := hms m (by simp)
    simp only [List.length_cons, Nat.cast_add, Nat.cast_one] at hcount hsize
    have hbl := byteLen_nonneg m.str
    have hidx : ¬ (rt.counter d < 0 ∨ ((rt.buffer d).length : Int) ≤ rt.counter d) := by omega
    have hnn : 0 ≤ (rest.length : Int) * b := by
      have : 0 ≤ b := le_trans hbl hb
      positivity
    have hsz : (mapGet? (storeRecord rt d (rt.counter d) m.str).fileSizeCounter d).getD 0 =
        (mapGet? rt.fileSizeCounter d).getD 0 + byteLen m.str := by
      simp only [storeRecord, mapGet?_mapSet_self, Option.getD_some]
      apply wrap64_eq
      · simp only [minInt]; omega
      · nlinarith
    have hfl : ¬ flushNow glog (storeRecord rt d (rt.counter d) m.str) d (rt.counter d) := by
      unfold flushNow
      rintro (h | ⟨_, h⟩)
      · omega
      · rw [hsz] at h
        have : (storeRecord rt d (rt.counter d) m.str).split = rt.split := rfl
        rw [this, hT] at h
        nlinarith
    have hstep : handleRecord glog rt w m = .ok (storeRecord rt d (rt.counter d) m.str, w) := by
      unfold handleRecord
      simp only [hd, hidx, if_false, hfl]
    have hcnt : (storeRecord rt d (rt.counter d) m.str).counter d = rt.counter d + 1 := by
      rw [storeRecord_counter]; simp
    obtain ⟨rt1, hl, hc⟩ := ih (storeRecord rt d (rt.counter d) m.str)
      (fun m2 hm2 => hms m2 (List.mem_cons_of_mem _ hm2))
      (by rw [hcnt]; omega)
      (by rw [storeRecord_buffer]; simpa using hlen)
      (by rw [hcnt]; omega)
      hT
      (by rw [hsz]; omega)
      (by rw [hsz]; nlinarith)
    refine ⟨rt1, ?_, by rw [hc, hcnt]; simp only [List.length_cons, Nat.cast_add, Nat.cast_one]; ring⟩
    simp only [List.map_cons, workerLoop, hne, if_false, hstep]
    exact hl

theorem byteLen_replicate (n : Nat) : byteLen (List.replicate n 'x') = (n : Int) := by
  have : Char.utf8Size 'x' = 1 := by decide
  simp [byteLen, List.map_replicate, List.sum_replicate, this]

theorem workerLoop_cons_msg (glog : Log) (rt : runtime) (w : World) (m : logMsg)
    (rest : List Event) (h : m.level ≠ SIGNAL_CLOSE) :
    workerLoop glog rt w (Event.msg m :: rest) =
      match handleRecord glog rt w m with
      | .error p => .error p
      | .ok (rt1, w1) => workerLoop glog rt1 w1 rest := by
  simp only [workerLoop, h, if_false]

/-! ## The worker started on a logger of `New` -/

theorem routed_of_dest (glog : Log) (rt : runtime)
    (hroute : ∀ L, rt.route L = glog.dest L)
    (htracked : ∀ L f, mapGet? rt.fileName L = some f → f ∈ mapKeys rt.bufsCounter)
    (L : Nat) (h : glog.dest L ≠ []) : rt.Routed L := by
  unfold runtime.Routed
  have h2 : rt.route L ≠ [] := by rw [hroute]; exact h
  cases hg : mapGet? rt.fileName L with
  | none => simp [runtime.route, hg] at h2
  | some f =>
    have : rt.route L = f := by simp [runtime.route, hg]
    rw [this]
    exact htracked L f hg

/-- The states of a worker started on a logger of `New`: in every state in which the
worker waits for its next event the invariant `Ready` holds, the routes are those of the
configuration, and the oracles and the split are those of the start. -/
theorem runLogChan_waiting (g g1 : Globals) (args : List Arg) (log : Log)
    (err : Option NewError) (hfresh : g.glog = none) (hnew : New g args = .ok (log, err, g1))
    (hwell : ∀ m, Arg.levelMap m ∈ args → ∀ e ∈ m, e.2.Level = e.1)
    (rt0 : runtime) (w : World) (hfair : w.FairRange) (events : List Event)
    (hev : ∀ m, Event.msg m ∈ events → m.level = SIGNAL_CLOSE ∨ log.dest m.level ≠ []) :
    runLogChan log rt0 w events ≠ .error .indexOutOfRange ∧
    ∀ rt w1, runLogChan log rt0 w events = .ok (.waiting rt w1) →
      Ready log rt ∧ (∀ level, rt.route level = log.dest level) ∧
      (∀ level, log.dest level ≠ [] → rt.Routed level) ∧ w.SameOracles w1 ∧
      (∀ id v, parse_split w.caseTable log.Split = .ok (id, v) →
        rt.split = { id := id, value := v }) ∧
      ∀ more, runLogChan log rt0 w (events ++ more) = workerLoop log rt w1 more := by
  obtain ⟨_, hbuf, hnd, hwk⟩ := New_spec g g1 args log err hfresh hnew
  have hbuf1 : 1 ≤ log.Buf := by
    simp only [CHAN_BUFFER_SIZE] at hbuf; omega
  cases hsplit : parse_split w.caseTable log.Split with
  | error e =>
    have hrun : runLogChan log rt0 w events = .error (.splitConfig e) := by
      unfold runLogChan
      simp only [hsplit]
    rw [hrun]
    exact ⟨by simp, fun rt w1 h => by simp at h⟩
  | ok r =>
    obtain ⟨id, v⟩ := r
    obtain ⟨rt, hrun, hr, _, htracked, hroute, _, _, hsp, _⟩ :=
      runLogChan_start log rt0 w id v hsplit hbuf1 hfair
    have hroute2 := hroute hnd (hwk hwell)
    have hev2 : ∀ m, Event.msg m ∈ events → m.level = SIGNAL_CLOSE ∨ rt.Routed m.level := by
      intro m hm
      rcases hev m hm with h | h
      · exact Or.inl h
      · exact Or.inr (routed_of_dest log rt hroute2 htracked _ h)
    have hfair2 : World.FairRange { w with ranges := w.ranges + 1 } := hfair
    rw [hrun]
    rcases workerLoop_safe log rt _ events hr hfair2 hev2 with h | ⟨rt1, w1, h⟩ |
      ⟨rt1, w1, h, hr1, hfn, hkeys, hor, hsp1⟩
    · rw [h]
      exact ⟨by simp, fun rt w1 h => by simp at h⟩
    · rw [h]
      exact ⟨by simp, fun rt w1 h => by simp at h⟩
    · rw [h]
      refine ⟨by simp, fun rt2 w2 h2 => ?_⟩
      have h3 := Except.ok.inj h2
      simp only [Outcome.waiting.injEq] at h3
      obtain ⟨rfl, rfl⟩ := h3
      have hr1route : ∀ level, rt1.route level = log.dest level := by
        intro level
        rw [route_congr hfn]
        exact hroute2 level
      refine ⟨hr1, hr1route, fun level hl => ?_, hor, fun id2 v2 h4 => ?_, fun more => ?_⟩
      · have hrd := routed_of_dest log rt hroute2 htracked level hl
        unfold runtime.Routed at hrd ⊢
        rw [route_congr hfn, hkeys]
        exact hrd
      · have h5 := Except.ok.inj h4
        simp only [Prod.mk.injEq] at h5
        rw [hsp1, hsp, h5.1, h5.2]
      · rw [hrun (events ++ more)]
        exact workerLoop_append log events more rt rt1 _ w1 h

/-! ## The rotation spec strings -/

/-- C3 (amended): for every decimal integer `N` in the range of `int`, `parse_split`
succeeds on `N` followed by `hour` with unit hour and magnitude `N` when `1 ≤ N ≤ 23` and
`1` otherwise, on `N` followed by `min` with unit minute and magnitude `N` when
`5 ≤ N ≤ 60` and `5` otherwise, on `N` followed by `m` with unit size and magnitude `N`
when `1 ≤ N` and `1` otherwise, and on `day` with unit day; every successful parse has
hour magnitude in `[1,23]`, minute magnitude in `[5,60]` and size magnitude at least `1`.
This holds whatever the case tables of the library are. -/
theorem parse_split_clamping (caseTable : Char → Char) (N : Int) (hlo : minInt ≤ N)
    (hhi : N ≤ maxInt) :
    parse_split caseTable (Itoa N ++ strHour) =
      .ok (SPLIT_HOUR, if 1 ≤ N ∧ N ≤ 23 then N else 1) ∧
    parse_split caseTable (Itoa N ++ strMin) =
      .ok (SPLIT_MIN, if 5 ≤ N ∧ N ≤ 60 then N else 5) ∧
    parse_split caseTable (Itoa N ++ strM) = .ok (SPLIT_SIZE, if 1 ≤ N then N else 1) ∧
    parse_split caseTable strDay = .ok (SPLIT_DAY, 1) ∧
    (∀ (s : List Char) (id : Nat) (v : Int), parse_split caseTable s = .ok (id, v) →
      (id = SPLIT_HOUR → 1 ≤ v ∧ v ≤ 23) ∧ (id = SPLIT_MIN → 5 ≤ v ∧ v ≤ 60) ∧
        (id = SPLIT_SIZE → 1 ≤ v)) := by
  have ha := Atoi_Itoa N hlo hhi
  have hsuf : ∀ suffix : List Char, (∀ c ∈ suffix, c.toNat ≤ 127) →
      ToLower exampleCaseTable suffix = suffix →
      ToLower caseTable (Itoa N ++ suffix) = Itoa N ++ suffix := by
    intro suffix hascii hfix
    rw [ToLower_append, ToLower_Itoa, ToLower_ascii caseTable exampleCaseTable suffix hascii,
      hfix]
  refine ⟨parse_split_hour _ _ _ N (hsuf strHour (by decide) (by decide)) ha,
    parse_split_min _ _ _ N (hsuf strMin (by decide) (by decide)) ha,
    parse_split_m _ _ _ N (hsuf strM (by decide) (by decide)) ha,
    parse_split_day caseTable, fun s id v h => ?_⟩
  exact (parse_split_bounds caseTable s id v h).2.2

/-- Witness of C3 at the inputs of the specification: `30min`, `3min`, `25hour`. -/
theorem parse_split_clamping_witness :
    parse_split exampleCaseTable "30min".toList = .ok (SPLIT_MIN, 30) ∧
    parse_split exampleCaseTable "3min".toList = .ok (SPLIT_MIN, 5) ∧
    parse_split exampleCaseTable "25hour".toList = .ok (SPLIT_HOUR, 1) :=
  ⟨(parse_split_clamping exampleCaseTable 30 (by decide) (by decide)).2.1,
   (parse_split_clamping exampleCaseTable 3 (by decide) (by decide)).2.1,
   (parse_split_clamping exampleCaseTable 25 (by decide) (by decide)).1⟩

/-- C3 as stated fails: `2^63` is a decimal integer, and on `9223372036854775808hour`
the conversion overflows `int`, so that `parse_split` returns an error instead of unit hour
with magnitude `1`, whatever the case tables of the library are. -/
theorem parse_split_clamping_overflow :
    Itoa (2 ^ 63) ++ strHour = "9223372036854775808hour".toList ∧
    (∀ caseTable : Char → Char,
      parse_split caseTable (Itoa (2 ^ 63) ++ strHour) = .error (.atoi .ErrRange)) ∧
    (∀ caseTable : Char → Char,
      parse_split caseTable (Itoa (2 ^ 63) ++ strHour) ≠ .ok (SPLIT_HOUR, 1)) := by
  have h : ∀ caseTable : Char → Char,
      parse_split caseTable (Itoa (2 ^ 63) ++ strHour) = .error (.atoi .ErrRange) := by
    intro caseTable
    rw [parse_split_ascii caseTable exampleCaseTable _ (by decide)]
    decide
  refine ⟨by decide, h, fun caseTable hok => ?_⟩
  rw [h caseTable] at hok
  exact absurd hok (by decide)

/-- C4 (amended): `parse_split` returns an error exactly when the lower-cased input, as
`strings.ToLower` returns it for the case tables of the library, is neither `day` nor a
decimal integer in the range of `int` immediately followed by `hour`, `min` or `m`; so
`xyz`, `hour`, `m` and `5.5m` are errors, while `DAY` and `10Min` are accepted, whatever
the case tables are, and `5M` U+0130 `n` is accepted as five minutes by every library whose
tables give U+0130 the small letter `i`. -/
theorem parse_split_error_iff :
    (∀ (caseTable : Char → Char) (s : List Char),
      isError (parse_split caseTable s) = true ↔
        ¬ RecognizedSpecInRange (ToLower caseTable s)) ∧
    (∀ caseTable : Char → Char,
      isError (parse_split caseTable "xyz".toList) = true ∧
      isError (parse_split caseTable "hour".toList) = true ∧
      isError (parse_split caseTable "m".toList) = true ∧
      isError (parse_split caseTable "5.5m".toList) = true ∧
      parse_split caseTable "DAY".toList = .ok (SPLIT_DAY, 1) ∧
      parse_split caseTable "10Min".toList = .ok (SPLIT_MIN, 10)) ∧
    (∀ caseTable : Char → Char, caseTable (Char.ofNat 304) = 'i' →
      parse_split caseTable ['5', 'M', Char.ofNat 304, 'n'] = .ok (SPLIT_MIN, 5)) ∧
    parse_split exampleCaseTable ['5', 'M', Char.ofNat 304, 'n'] = .ok (SPLIT_MIN, 5) := by
  refine ⟨fun caseTable s => ?_, fun caseTable => ?_, fun caseTable hi => ?_, by decide⟩
  · constructor
    · rintro h (hd | ⟨body, N, hdec, hlo, hhi, hs | hs | hs⟩)
      · have : parse_split caseTable s = .ok (SPLIT_DAY, 1) := by
          unfold parse_split
          simp only [hd, if_true]
        rw [this] at h
        exact absurd h (by simp [isError])
      · rw [parse_split_hour caseTable s body N hs ((Atoi_ok_iff _ _).2 ⟨hdec, hlo, hhi⟩)] at h
        exact absurd h (by simp [isError])
      · rw [parse_split_min caseTable s body N hs ((Atoi_ok_iff _ _).2 ⟨hdec, hlo, hhi⟩)] at h
        exact absurd h (by simp [isError])
      · rw [parse_split_m caseTable s body N hs ((Atoi_ok_iff _ _).2 ⟨hdec, hlo, hhi⟩)] at h
        exact absurd h (by simp [isError])
    · intro h
      cases hp : parse_split caseTable s with
      | error e => rfl
      | ok r =>
        exfalso
        apply h
        obtain ⟨id, v⟩ := r
        rcases parse_split_ok_cases caseTable s id v hp with ⟨hd, _, _⟩ | ⟨N, hs, ha, _, _⟩ |
          ⟨N, hs, ha, _, _⟩ | ⟨N, hs, ha, _, _⟩
        · exact Or.inl hd
        · obtain ⟨hdec, hlo, hhi⟩ := (Atoi_ok_iff _ _).1 ha
          exact Or.inr ⟨_, N, hdec, hlo, hhi, Or.inl (HasSuffix_eq _ _ hs)⟩
        · obtain ⟨hdec, hlo, hhi⟩ := (Atoi_ok_iff _ _).1 ha
          exact Or.inr ⟨_, N, hdec, hlo, hhi, Or.inr (Or.inl (HasSuffix_eq _ _ hs))⟩
        · obtain ⟨hdec, hlo, hhi⟩ := (Atoi_ok_iff _ _).1 ha
          exact Or.inr ⟨_, N, hdec, hlo, hhi, Or.inr (Or.inr (HasSuffix_eq _ _ hs))⟩
  · rw [parse_split_ascii caseTable exampleCaseTable "xyz".toList (by decide),
      parse_split_ascii caseTable exampleCaseTable "hour".toList (by decide),
      parse_split_ascii caseTable exampleCaseTable "m".toList (by decide),
      parse_split_ascii caseTable exampleCaseTable "5.5m".toList (by decide),
      parse_split_ascii caseTable exampleCaseTable "DAY".toList (by decide),
      parse_split_ascii caseTable exampleCaseTable "10Min".toList (by decide)]
    decide
  · have hlow : ToLower caseTable ['5', 'M', Char.ofNat 304, 'n'] = ['5'] ++ strMin := by
      have h5 : toLowerRune caseTable '5' = '5' := toLowerRune_fixed caseTable '5' (by decide)
      have hM : toLowerRune caseTable 'M' = 'm' :=
        (toLowerRune_ascii caseTable exampleCaseTable 'M' (by decide)).trans (by decide)
      have hn : toLowerRune caseTable 'n' = 'n' :=
        (toLowerRune_ascii caseTable exampleCaseTable 'n' (by decide)).trans (by decide)
      have hI : toLowerRune caseTable (Char.ofNat 304) = 'i' := by
        unfold toLowerRune
        rw [if_neg (by decide)]
        exact hi
      simp only [ToLower, List.map_cons, List.map_nil, h5, hM, hn, hI, strMin,
        List.singleton_append]
    exact parse_split_min caseTable _ ['5'] 5 hlow (by decide)

/-- C4 as stated fails: the lower-cased `9223372036854775808m` is a decimal integer
immediately followed by `m`, and `parse_split` returns an error on it, whatever the case
tables of the library are. -/
theorem parse_split_error_on_recognized :
    (∀ caseTable : Char → Char,
      isError (parse_split caseTable "9223372036854775808m".toList) = true) ∧
    (∀ caseTable : Char → Char,
      ToLower caseTable "9223372036854775808m".toList = "9223372036854775808m".toList) ∧
    RecognizedSpec "9223372036854775808m".toList := by
  refine ⟨fun caseTable => ?_, fun caseTable => ?_,
    Or.inr ⟨Itoa (2 ^ 63), 2 ^ 63, DecimalInteger_Itoa _, Or.inr (Or.inr (by decide))⟩⟩
  · rw [parse_split_ascii caseTable exampleCaseTable _ (by decide)]
    decide
  · rw [ToLower_ascii caseTable exampleCaseTable _ (by decide)]
    decide

/-! ## The producer path and `New` -/

/-- C2: an emit call at one of the five levels whose bit is not set in the enabled mask
leaves the standard output and the queue as they were, whatever the routing. -/
theorem write_level_gate (Sprintf : List Char → List (List Char) → List Char) (log : Log)
    (g : Globals) (level : Nat) (logStr : List Char) (args : List (List Char)) (now : Time)
    (hlevel : level = ERROR ∨ level = WARNING ∨ level = NOTICE ∨ level = INFO ∨ level = DEBUG)
    (hmask : Nat.land log.Level level = 0) :
    log.write Sprintf g level logStr args now = .ok g := by
  have hne : Nat.land level log.Level ≠ level := by
    have hc : Nat.land level log.Level = Nat.land log.Level level := Nat.land_comm _ _
    rw [hc, hmask]
    rcases hlevel with h | h | h | h | h <;> rw [h] <;> decide
  unfold Log.write
  rw [if_pos hne]

/-- Witness of C2: with the default mask `7`, an `Info` call changes nothing. -/
theorem write_level_gate_witness :
    Nat.land defaultLog.Level INFO = 0 ∧
    defaultLog.Info (fun s _ => s) { glog := some defaultLog, logChan := [], stdout := [], workers := 1 }
        ['x'] [] { year := 2024, month := 1, day := 2, hour := 3, minute := 4, second := 5 } =
      .ok { glog := some defaultLog, logChan := [], stdout := [], workers := 1 } :=
  ⟨by decide, write_level_gate _ defaultLog _ INFO _ _ _ (by decide) (by decide)⟩

/-- C9: when a logger is active, `New` with any arguments returns that logger with a nil
error and leaves the package state, the logger with all its fields included, as it was. -/
theorem New_returns_existing (g : Globals) (existing : Log) (args : List Arg)
    (h : g.glog = some existing) : New g args = .ok (existing, none, g) := by
  unfold New
  rw [h]

/-- Witness of C9: a second `New` with a malformed argument. -/
theorem New_returns_existing_witness :
    New { glog := some defaultLog, logChan := [], stdout := [], workers := 1 } [Arg.other] =
      .ok (defaultLog, none, { glog := some defaultLog, logChan := [], stdout := [], workers := 1 }) :=
  New_returns_existing _ defaultLog [Arg.other] rfl

/-! ## Rotation -/

/-- C5 (amended): in size mode with magnitude `1 ≤ v < 2^43`, `getFile` resolves a
destination with no open file to `base.1`; for a destination whose open file is `base.k`
with `0 ≤ k < 2^63 - 1` it resolves to `base.(k+1)` when the size of the open file on disk
exceeds `v*1024*1024` bytes and to the open `base.k` when it does not. -/
theorem getFile_size_suffix (rt : runtime) (w : World) (base : List Char) (v k : Nat)
    (hid : rt.split.id = SPLIT_SIZE) (hval : rt.split.value = (v : Int))
    (hv1 : 1 ≤ v) (hv2 : v < 2 ^ 43) (hk : (k : Int) + 1 ≤ maxInt)
    (hio : ∀ i, w.ioFails i = false) :
    (rt.file base = none → resolvedName (getFile rt w base) = some (base ++ '.' :: ['1'])) ∧
    (rt.file base = some { name := base ++ '.' :: Itoa k } →
      ((v : Int) * 1024 * 1024 < w.size (base ++ '.' :: Itoa k) →
        resolvedName (getFile rt w base) = some (base ++ '.' :: Itoa (k + 1))) ∧
      (¬ (v : Int) * 1024 * 1024 < w.size (base ++ '.' :: Itoa k) →
        resolvedName (getFile rt w base) = some (base ++ '.' :: Itoa k))) := by
  have hth : mul64 (mul64 rt.split.value 1024) 1024 = (v : Int) * 1024 * 1024 := by
    rw [hval]
    exact threshold_eq _ (by omega) (by exact_mod_cast hv2)
  constructor
  · intro hf
    have hs := makeSuffix_size_none rt w base hid hf
    obtain ⟨files, w2, hg, _⟩ := getFile_of_suffix rt w w base _ hs (World.SameEnv.sameEnv_refl w) hio
    rw [hg]; rfl
  · intro hf
    have hfield : lastDotField (base ++ '.' :: Itoa k) = Itoa k :=
      lastDotField_append _ _ (fun c hc => (Itoa_chars _ c hc).1)
    have ha : Atoi (lastDotField (File.name { name := base ++ '.' :: Itoa k })) = .ok (k : Int) := by
      simp only [hfield]
      exact Atoi_Itoa _ (by simp only [minInt]; omega) (by omega)
    have hs := makeSuffix_size rt w base _ _ hid hf (hio _) ha
    rw [hth] at hs
    have hw : wrap64 ((k : Int) + 1) = (k : Int) + 1 :=
      wrap64_eq _ (by simp only [minInt]; omega) hk
    constructor
    · intro hgt
      rw [if_pos hgt, hw] at hs
      obtain ⟨files, w2, hg, _⟩ :=
        getFile_of_suffix rt w _ base _ hs ⟨rfl, rfl, rfl, rfl, rfl⟩ hio
      rw [hg]; rfl
    · intro hle
      rw [if_neg hle] at hs
      simp only [hfield] at hs
      obtain ⟨files, w2, hg, _⟩ :=
        getFile_of_suffix rt w _ base _ hs ⟨rfl, rfl, rfl, rfl, rfl⟩ hio
      rw [hg]; rfl

/-- Witness of C5: spec `1m`, open file `a.1` of size zero. -/
theorem getFile_size_suffix_witness :
    resolvedName (getFile (exampleRuntime ['a'] (some { name := ['a', '.', '1'] }) ⟨SPLIT_SIZE, 1⟩)
      (exampleWorld [(['a', '.', '1'], [])]) ['a']) = some ['a', '.', '1'] :=
  ((getFile_size_suffix (exampleRuntime ['a'] (some { name := ['a', '.', '1'] }) ⟨SPLIT_SIZE, 1⟩)
      (exampleWorld [(['a', '.', '1'], [])]) ['a'] 1 1 rfl rfl (by decide) (by decide) (by decide)
      (fun _ => rfl)).2 rfl).2 (by decide)

/-- C5 as stated fails in two places.  The spec string `8796093022208m` is parsed to size
magnitude `2^43`, for which `v*1024*1024` overflows `int`: the open file `a.1` of size zero
does not exceed `2^63` bytes, yet `getFile` resolves to `a.2`.  And for the open file
`a.9223372036854775807`, larger than one megabyte under the spec `1m`, the increment of the
suffix overflows and `getFile` resolves to `a.-9223372036854775808`. -/
theorem getFile_size_suffix_overflow :
    ((∀ caseTable : Char → Char,
        parse_split caseTable "8796093022208m".toList = .ok (SPLIT_SIZE, 2 ^ 43)) ∧
      ¬ ((2 : Int) ^ 43 * 1024 * 1024 < (exampleWorld [("a.1".toList, [])]).size "a.1".toList) ∧
      resolvedName (getFile (exampleRuntime ['a'] (some { name := "a.1".toList }) ⟨SPLIT_SIZE, 2 ^ 43⟩)
        (exampleWorld [("a.1".toList, [])]) ['a']) = some "a.2".toList) ∧
    ((1 : Int) * 1024 * 1024 <
        (exampleWorld [('a' :: '.' :: Itoa maxInt, List.replicate 1048577 'x')]).size
          ('a' :: '.' :: Itoa maxInt) ∧
      resolvedName (getFile (exampleRuntime ['a'] (some { name := 'a' :: '.' :: Itoa maxInt }) ⟨SPLIT_SIZE, 1⟩)
        (exampleWorld [('a' :: '.' :: Itoa maxInt, List.replicate 1048577 'x')]) ['a']) =
          some "a.-9223372036854775808".toList) := by
  refine ⟨⟨fun caseTable => ?_, by decide, by decide⟩, ?_⟩
  · rw [parse_split_ascii caseTable exampleCaseTable _ (by decide)]
    decide
  have hsize : (exampleWorld [('a' :: '.' :: Itoa maxInt, List.replicate 1048577 'x')]).size
      ('a' :: '.' :: Itoa maxInt) = 1048577 := by
    simp only [World.size, exampleWorld, mapGet?, if_true, Option.getD_some]
    exact byteLen_replicate 1048577
  refine ⟨by rw [hsize]; norm_num, ?_⟩
  have hfield : lastDotField (['a'] ++ '.' :: Itoa maxInt) = Itoa maxInt :=
    lastDotField_append _ _ (fun c hc => (Itoa_chars _ c hc).1)
  have ha : Atoi (lastDotField (File.name { name := 'a' :: '.' :: Itoa maxInt })) = .ok maxInt := by
    have := Atoi_Itoa maxInt (by decide) (by decide)
    rw [← hfield] at this
    exact this
  have hs := makeSuffix_size
    (exampleRuntime ['a'] (some { name := 'a' :: '.' :: Itoa maxInt }) ⟨SPLIT_SIZE, 1⟩)
    (exampleWorld [('a' :: '.' :: Itoa maxInt, List.replicate 1048577 'x')]) ['a'] _ _ rfl rfl rfl ha
  rw [hsize] at hs
  have hth : mul64 (mul64 (runtime.split
      (exampleRuntime ['a'] (some { name := 'a' :: '.' :: Itoa maxInt }) ⟨SPLIT_SIZE, 1⟩)).value 1024) 1024
      = 1048576 := by decide
  rw [hth, if_pos (by norm_num)] at hs
  obtain ⟨files, w2, hg, _⟩ := getFile_of_suffix _ _ _ ['a'] _ hs ⟨rfl, rfl, rfl, rfl, rfl⟩ (fun _ => rfl)
  rw [hg]
  show some (['a'] ++ '.' :: Itoa (wrap64 (maxInt + 1))) = some "a.-9223372036854775808".toList
  decide

/-- C6 (amended): in day mode, for every base name and every two clock readings whose
dates differ in the last two digits of the year, in the month or in the day, the names
`getFile` resolves at the two readings are `base.suffix` with the date suffix of each
reading, and they are different. -/
theorem getFile_day_distinct (rt1 rt2 : runtime) (w1 w2 : World) (base : List Char)
    (hid1 : rt1.split.id = SPLIT_DAY) (hid2 : rt2.split.id = SPLIT_DAY)
    (hio1 : ∀ i, w1.ioFails i = false) (hio2 : ∀ i, w2.ioFails i = false)
    (hv1 : (w1.now w1.reads).Valid) (hv2 : (w2.now w2.reads).Valid)
    (hdiff : (w1.now w1.reads).year % 100 ≠ (w2.now w2.reads).year % 100 ∨
      (w1.now w1.reads).month ≠ (w2.now w2.reads).month ∨
      (w1.now w1.reads).day ≠ (w2.now w2.reads).day) :
    resolvedName (getFile rt1 w1 base) = some (base ++ '.' :: Format060102 (w1.now w1.reads)) ∧
    resolvedName (getFile rt2 w2 base) = some (base ++ '.' :: Format060102 (w2.now w2.reads)) ∧
    resolvedName (getFile rt1 w1 base) ≠ resolvedName (getFile rt2 w2 base) := by
  obtain ⟨f1, w1b, hg1, _⟩ := getFile_of_suffix rt1 w1 _ base _ (makeSuffix_day rt1 w1 base hid1)
    ⟨rfl, rfl, rfl, rfl, rfl⟩ hio1
  obtain ⟨f2, w2b, hg2, _⟩ := getFile_of_suffix rt2 w2 _ base _ (makeSuffix_day rt2 w2 base hid2)
    ⟨rfl, rfl, rfl, rfl, rfl⟩ hio2
  rw [hg1, hg2]
  refine ⟨rfl, rfl, ?_⟩
  intro he
  simp only [resolvedName, Option.some.injEq, List.append_cancel_left_eq, List.cons.injEq,
    true_and] at he
  have := Format060102_inj _ _ hv1 hv2 he
  omega

/-- Witness of C6: the second and the third of January 2024. -/
theorem getFile_day_distinct_witness :
    resolvedName (getFile (exampleRuntime ['a'] none ⟨SPLIT_DAY, 1⟩)
        (exampleWorldAt { year := 2024, month := 1, day := 2, hour := 23, minute := 59, second := 59 })
        ['a']) = some "a.240102".toList ∧
    resolvedName (getFile (exampleRuntime ['a'] none ⟨SPLIT_DAY, 1⟩)
        (exampleWorldAt { year := 2024, month := 1, day := 3, hour := 0, minute := 0, second := 0 })
        ['a']) = some "a.240103".toList :=
  ⟨(getFile_day_distinct (exampleRuntime ['a'] none ⟨SPLIT_DAY, 1⟩)
      (exampleRuntime ['a'] none ⟨SPLIT_DAY, 1⟩)
      (exampleWorldAt { year := 2024, month := 1, day := 2, hour := 23, minute := 59, second := 59 })
      (exampleWorldAt { year := 2024, month := 1, day := 3, hour := 0, minute := 0, second := 0 })
      ['a'] rfl rfl (fun _ => rfl) (fun _ => rfl) (by decide) (by decide) (by decide)).1,
   (getFile_day_distinct (exampleRuntime ['a'] none ⟨SPLIT_DAY, 1⟩)
      (exampleRuntime ['a'] none ⟨SPLIT_DAY, 1⟩)
      (exampleWorldAt { year := 2024, month := 1, day := 2, hour := 23, minute := 59, second := 59 })
      (exampleWorldAt { year := 2024, month := 1, day := 3, hour := 0, minute := 0, second := 0 })
      ['a'] rfl rfl (fun _ => rfl) (fun _ => rfl) (by decide) (by decide) (by decide)).2.1⟩

/-- C6 as stated fails: the second of January 2006 and the second of January 2106 are
different calendar dates, and in day mode `getFile` resolves the same name at both. -/
theorem getFile_day_century :
    ((2006, 1, 2) : Nat × Nat × Nat) ≠ (2106, 1, 2) ∧
    resolvedName (getFile (exampleRuntime ['a'] none ⟨SPLIT_DAY, 1⟩)
        (exampleWorldAt { year := 2006, month := 1, day := 2, hour := 0, minute := 0, second := 0 })
        ['a']) =
      resolvedName (getFile (exampleRuntime ['a'] none ⟨SPLIT_DAY, 1⟩)
        (exampleWorldAt { year := 2106, month := 1, day := 2, hour := 0, minute := 0, second := 0 })
        ['a']) := by
  decide

/-- C7: in hour mode with magnitude `v` in `[1,23]`, at hour `h` in `[0,23]`, the suffix
`getFile` makes is the date followed by the two-digit rendering of the greatest multiple
of `v` that is at most `h`; in minute mode with magnitude `v` in `[5,60]`, at minute `m` in
`[0,59]`, it is the date, the two digits of the current hour and the two-digit rendering
of the greatest multiple of `v` that is at most `m`. -/
theorem makeSuffix_bucket (rt : runtime) (w : World) (base : List Char) (v : Nat)
    (hval : rt.split.value = (v : Int)) (hclock : (w.now w.reads).Valid)
    (hclock2 : (w.now (w.reads + 1)).Valid) :
    (rt.split.id = SPLIT_HOUR → 1 ≤ v → v ≤ 23 →
      ∃ g w1, makeSuffix rt w base = .ok (.ok (Format060102 (w.now w.reads) ++ twoDigits g), w1) ∧
        (v ∣ g ∧ g ≤ (w.now (w.reads + 1)).hour ∧
          ∀ k, v ∣ k → k ≤ (w.now (w.reads + 1)).hour → k ≤ g)) ∧
    (rt.split.id = SPLIT_MIN → 5 ≤ v → v ≤ 60 →
      ∃ g w1, makeSuffix rt w base =
          .ok (.ok (Format060102 (w.now w.reads) ++ twoDigits (w.now w.reads).hour ++ twoDigits g), w1) ∧
        (v ∣ g ∧ g ≤ (w.now (w.reads + 1)).minute ∧
          ∀ k, v ∣ k → k ≤ (w.now (w.reads + 1)).minute → k ≤ g)) := by
  constructor
  · intro hid h1 h2
    have hne : rt.split.value ≠ 0 := by rw [hval]; omega
    have hh : (w.now (w.reads + 1)).hour ≤ 23 := hclock2.2.2.2.2.1
    refine ⟨(w.now (w.reads + 1)).hour / v * v, { w with reads := w.reads + 1 + 1 }, ?_,
      bucket_greatest _ v h1⟩
    rw [makeSuffix_hour rt w base hid hne, hval, bucket_eq _ v h1, fmt02d_eq]
    have := Nat.div_mul_le_self (w.now (w.reads + 1)).hour v
    omega
  · intro hid h1 h2
    have hne : rt.split.value ≠ 0 := by rw [hval]; omega
    have hm : (w.now (w.reads + 1)).minute ≤ 59 := hclock2.2.2.2.2.2.1
    have hh : (w.now w.reads).hour ≤ 23 := hclock.2.2.2.2.1
    refine ⟨(w.now (w.reads + 1)).minute / v * v, { w with reads := w.reads + 1 + 1 }, ?_,
      bucket_greatest _ v (by omega)⟩
    rw [makeSuffix_min rt w base hid hne, hval, bucket_eq _ v (by omega), fmt02d_eq]
    · simp only [Format06010215]
      rw [fmt02d_eq _ (by omega)]
    · have := Nat.div_mul_le_self (w.now (w.reads + 1)).minute v
      omega

/-- Witness of C7: magnitude `5` at 13 hours gives the hour field `10`, and magnitude `15`
at 13:47 gives the fields `13` and `45`. -/
theorem makeSuffix_bucket_witness :
    (∃ g w1, makeSuffix (exampleRuntime ['a'] none ⟨SPLIT_HOUR, 5⟩)
        (exampleWorldAt { year := 2024, month := 1, day := 2, hour := 13, minute := 47, second := 0 })
        ['a'] = .ok (.ok ("240102".toList ++ twoDigits g), w1) ∧
      (5 ∣ g ∧ g ≤ 13 ∧ ∀ k, 5 ∣ k → k ≤ 13 → k ≤ g)) ∧
    (∃ g w1, makeSuffix (exampleRuntime ['a'] none ⟨SPLIT_MIN, 15⟩)
        (exampleWorldAt { year := 2024, month := 1, day := 2, hour := 13, minute := 47, second := 0 })
        ['a'] = .ok (.ok ("240102".toList ++ "13".toList ++ twoDigits g), w1) ∧
      (15 ∣ g ∧ g ≤ 47 ∧ ∀ k, 15 ∣ k → k ≤ 47 → k ≤ g)) :=
  ⟨(makeSuffix_bucket (exampleRuntime ['a'] none ⟨SPLIT_HOUR, 5⟩)
      (exampleWorldAt { year := 2024, month := 1, day := 2, hour := 13, minute := 47, second := 0 })
      ['a'] 5 rfl (by decide) (by decide)).1 rfl (by decide) (by decide),
   (makeSuffix_bucket (exampleRuntime ['a'] none ⟨SPLIT_MIN, 15⟩)
      (exampleWorldAt { year := 2024, month := 1, day := 2, hour := 13, minute := 47, second := 0 })
      ['a'] 15 rfl (by decide) (by decide)).2 rfl (by decide) (by decide)⟩

/-! ## The worker -/

/-- C10: for every configuration passed to `New` whose level routes carry a `Level` field
equal to their map key, `Buf` is at least `1024`, and for every sequence of records of
levels with a file destination, close signals and timer ticks, the worker never indexes a
buffer out of its range: in every state in which it waits for the next event, each
tracked destination has a buffer of `Buf` entries and a pending counter in `[0, Buf)`, and
every level with a file destination is routed to a tracked destination. -/
theorem buffer_index_in_bounds (g g1 : Globals) (args : List Arg) (log : Log)
    (err : Option NewError) (hfresh : g.glog = none) (hnew : New g args = .ok (log, err, g1))
    (hwell : ∀ m, Arg.levelMap m ∈ args → ∀ e ∈ m, e.2.Level = e.1)
    (rt0 : runtime) (w : World) (hfair : w.FairRange) (events : List Event)
    (hev : ∀ m, Event.msg m ∈ events → m.level = SIGNAL_CLOSE ∨ log.dest m.level ≠ []) :
    CHAN_BUFFER_SIZE ≤ log.Buf ∧
    runLogChan log rt0 w events ≠ .error .indexOutOfRange ∧
    ∀ rt w1, runLogChan log rt0 w events = .ok (.waiting rt w1) →
      (∀ d ∈ mapKeys rt.bufsCounter,
        0 ≤ rt.counter d ∧ rt.counter d < log.Buf ∧ ((rt.buffer d).length : Int) = log.Buf) ∧
      ∀ level, log.dest level ≠ [] → rt.route level ∈ mapKeys rt.bufsCounter := by
  obtain ⟨_, hbuf, _, _⟩ := New_spec g g1 args log err hfresh hnew
  obtain ⟨hne, hwait⟩ := runLogChan_waiting g g1 args log err hfresh hnew hwell rt0 w hfair events hev
  refine ⟨hbuf, hne, fun rt w1 h => ?_⟩
  obtain ⟨hr, _, hrouted, _⟩ := hwait rt w1 h
  exact ⟨hr.bounds, hrouted⟩

/-- Witness of C10: `New` with `Buf: -5` and a route of `ERROR` to `a.log`, then two
records around a tick. -/
theorem buffer_index_in_bounds_witness :
    CHAN_BUFFER_SIZE ≤ routedLog.Buf ∧
    runLogChan routedLog zeroRuntime (exampleWorld [])
      [Event.msg smallMsg, Event.tick, Event.msg smallMsg] ≠ .error .indexOutOfRange ∧
    ∀ rt w1, runLogChan routedLog zeroRuntime (exampleWorld [])
        [Event.msg smallMsg, Event.tick, Event.msg smallMsg] = .ok (.waiting rt w1) →
      (∀ d ∈ mapKeys rt.bufsCounter,
        0 ≤ rt.counter d ∧ rt.counter d < routedLog.Buf ∧
          ((rt.buffer d).length : Int) = routedLog.Buf) ∧
      ∀ level, routedLog.dest level ≠ [] → rt.route level ∈ mapKeys rt.bufsCounter :=
  buffer_index_in_bounds freshGlobals { freshGlobals with glog := some routedLog, workers := 1 }
    routedArgs routedLog none rfl (by decide)
    (by intro m hm; simp [routedArgs] at hm)
    zeroRuntime (exampleWorld []) (fun _ _ m => List.Perm.refl m)
    [Event.msg smallMsg, Event.tick, Event.msg smallMsg]
    (by
      intro m hm
      have : m = smallMsg := by simpa using hm
      subst this
      exact Or.inr (by decide))

/-- C8 (amended): outside size mode and with file opens succeeding, for every logger of
`New` (its routes carrying their own level) and every destination whose pending counter is
`0` after the events `pre`, when the worker then consumes records (with no tick and no
close signal in between) of which exactly `Buf` are for that destination, all these lines
have been written for that destination after what was written before, in arrival order,
and its pending counter is back to `0`; when fewer than `Buf` are for that destination,
nothing more has been written for it. -/
theorem buffer_full_flush (g g1 : Globals) (args : List Arg) (log : Log)
    (err : Option NewError) (hfresh : g.glog = none) (hnew : New g args = .ok (log, err, g1))
    (hwell : ∀ m, Arg.levelMap m ∈ args → ∀ e ∈ m, e.2.Level = e.1)
    (rt0 : runtime) (w : World) (id : Nat) (v : Int)
    (hsplit : parse_split w.caseTable log.Split = .ok (id, v)) (hmode : id ≠ SPLIT_SIZE)
    (hfair : w.FairRange) (hnf : w.NoFailure)
    (pre events : List Event) (d : List Char)
    (hpre : ∀ m, Event.msg m ∈ pre → m.level = SIGNAL_CLOSE ∨ log.dest m.level ≠ [])
    (hev : ∀ e ∈ events, ∃ m, e = Event.msg m ∧ m.level ≠ SIGNAL_CLOSE ∧ log.dest m.level ≠ [])
    (hempty : counterWaiting (runLogChan log rt0 w pre) d = some 0) :
    (((routedTexts log.dest events d).length : Int) = log.Buf →
      counterWaiting (runLogChan log rt0 w (pre ++ events)) d = some 0 ∧
      ∃ before, writtenWaiting (runLogChan log rt0 w pre) d = some before ∧
        writtenWaiting (runLogChan log rt0 w (pre ++ events)) d =
          some (before ++ routedTexts log.dest events d)) ∧
    (((routedTexts log.dest events d).length : Int) < log.Buf →
      ∃ before, writtenWaiting (runLogChan log rt0 w pre) d = some before ∧
        writtenWaiting (runLogChan log rt0 w (pre ++ events)) d = some before) := by
  obtain ⟨_, hwait⟩ := runLogChan_waiting g g1 args log err hfresh hnew hwell rt0 w hfair pre hpre
  cases hrun : runLogChan log rt0 w pre with
  | error p => rw [hrun] at hempty; simp [counterWaiting] at hempty
  | ok out =>
    cases out with
    | closed rt wp => rw [hrun] at hempty; simp [counterWaiting] at hempty
    | waiting rt wp =>
      rw [hrun] at hempty
      have hc0 : rt.counter d = 0 := by simpa [counterWaiting] using hempty
      obtain ⟨hr, hroute, hrouted, hor, hsp, happ⟩ := hwait rt wp hrun
      have hfun : rt.route = log.dest := funext hroute
      have hmode2 : rt.split.id ≠ SPLIT_SIZE := by rw [hsp id v hsplit]; exact hmode
      have hnf2 : wp.NoFailure := hor.noFailure.2 hnf
      have hev2 : ∀ e ∈ events, ∃ m, e = Event.msg m ∧ m.level ≠ SIGNAL_CLOSE ∧ rt.Routed m.level := by
        intro e he
        obtain ⟨m, a, b, c⟩ := hev e he
        exact ⟨m, a, b, hrouted _ c⟩
      have hpend : rt.pending d = [] := pending_of_counter_le rt d (by omega)
      rw [happ events]
      have hbuf := hr.buf_pos
      constructor
      · intro hfull
        obtain ⟨rt1, w1, hl, hinv, _, heq⟩ := records_run log d events rt wp hr hmode2 hnf2 hev2
          (by rw [hc0, hfun, hfull]; omega)
        have hc := heq (by rw [hc0, hfun, hfull]; omega)
        rw [hl]
        refine ⟨by simp [counterWaiting, hc], wp.written d, rfl, ?_⟩
        rw [pending_of_counter_le rt1 d (by omega), hpend, hfun] at hinv
        simp only [List.append_nil] at hinv
        simp [writtenWaiting, hinv]
      · intro hlt
        obtain ⟨rt1, w1, hl, _, hlt2, _⟩ := records_run log d events rt wp hr hmode2 hnf2 hev2
          (by rw [hc0, hfun]; omega)
        rw [hl]
        refine ⟨wp.written d, rfl, ?_⟩
        simp [writtenWaiting, (hlt2 (by rw [hc0, hfun]; omega)).2]

theorem routedTexts_replicate (route : Nat → List Char) (n : Nat) (m : logMsg) :
    routedTexts route (List.replicate n (Event.msg m)) (route m.level) = List.replicate n m.str := by
  induction n with
  | zero => rfl
  | succ n ih =>
    have : routedTexts route (Event.msg m :: List.replicate n (Event.msg m)) (route m.level) =
        m.str :: routedTexts route (List.replicate n (Event.msg m)) (route m.level) := by
      simp [routedTexts]
    rw [List.replicate_succ, this, ih, List.replicate_succ]

/-- Witness of C8: on the logger of `routedArgs`, in day mode, the worker consumes from
its start 1024 records for `a.log`. -/
theorem buffer_full_flush_witness :
    counterWaiting (runLogChan routedLog zeroRuntime (exampleWorld [])
      ([] ++ List.replicate 1024 (Event.msg smallMsg))) "a.log".toList = some 0 ∧
    ∃ before, writtenWaiting (runLogChan routedLog zeroRuntime (exampleWorld []) [])
        "a.log".toList = some before ∧
      writtenWaiting (runLogChan routedLog zeroRuntime (exampleWorld [])
        ([] ++ List.replicate 1024 (Event.msg smallMsg))) "a.log".toList =
        some (before ++ routedTexts routedLog.dest (List.replicate 1024 (Event.msg smallMsg))
          "a.log".toList) :=
  (buffer_full_flush freshGlobals { freshGlobals with glog := some routedLog, workers := 1 }
    routedArgs routedLog none rfl (by decide) (by intro m hm; simp [routedArgs] at hm)
    zeroRuntime (exampleWorld []) 1 1 (by decide) (by decide) (fun _ _ m => List.Perm.refl m)
    (fun _ => rfl) [] (List.replicate 1024 (Event.msg smallMsg)) "a.log".toList
    (by intro m hm; simp at hm)
    (by
      intro e he
      exact ⟨smallMsg, List.eq_of_mem_replicate he, by decide, by decide⟩)
    (by decide)).1
    (by
      have h := routedTexts_replicate routedLog.dest 1024 smallMsg
      have hd : routedLog.dest smallMsg.level = "a.log".toList := by decide
      rw [hd] at h
      rw [h, List.length_replicate]
      rfl)

theorem byteLen_bigMsg : byteLen bigMsg.str = 1048604 := by
  show byteLen (fmtLeft7 (Level.String ERROR) ++ '\t' :: (FormatStamp exampleTime ++
    '\t' :: (List.replicate 1048577 'x' ++ ['\n']))) = 1048604
  have e1 : byteLen (fmtLeft7 (Level.String ERROR)) = 7 := by decide
  have e2 : byteLen (FormatStamp exampleTime) = 17 := by decide
  have e3 : byteLen ['\n'] = 1 := by decide
  have e4 : ('\t').utf8Size = 1 := by decide
  rw [byteLen_append, byteLen_cons, byteLen_append, byteLen_cons, byteLen_append,
    byteLen_replicate, e1, e2, e3, e4]
  norm_num

/-- C8 as stated fails in size mode.  With the spec `1m` and `Buf` 1024, the worker
consumes, from its start and with no tick, exactly 1024 records for `a.log`, the first of
them longer than one megabyte: the first record is flushed alone as soon as it arrives, and
after the 1024 records only that line has been written and the pending counter is 1023,
not 0. -/
theorem size_mode_early_flush :
    New freshGlobals sizeArgs =
      .ok (sizeLog, none, { freshGlobals with glog := some sizeLog, workers := 1 }) ∧
    sizeLog.Buf = 1024 ∧ sizeLog.dest ERROR = "a.log".toList ∧
    (Event.msg bigMsg :: List.replicate 1023 (Event.msg smallMsg)).length = 1024 ∧
    ∃ rt1 w1, runLogChan sizeLog zeroRuntime (exampleWorld [])
        (Event.msg bigMsg :: List.replicate 1023 (Event.msg smallMsg)) = .ok (.waiting rt1 w1) ∧
      w1.written "a.log".toList = [bigMsg.str] ∧ rt1.counter "a.log".toList = 1023 := by
  refine ⟨by decide, rfl, by decide, by simp only [List.length_cons, List.length_replicate], ?_⟩
  obtain ⟨rt, hrun, hr, hpend, htracked, hroute, _, _, hsplit, hfsc⟩ :=
    runLogChan_start sizeLog zeroRuntime (exampleWorld []) 9 1 (by decide) (by decide)
      (fun _ _ m => List.Perm.refl m)
  have hroute2 := hroute (by decide) (by decide)
  have hrE : rt.route ERROR = "a.log".toList := by rw [hroute2]; decide
  have hrouted : rt.Routed bigMsg.level :=
    routed_of_dest sizeLog rt hroute2 htracked ERROR (by decide)
  have hT : mul64 (mul64 rt.split.value 1024) 1024 = 1048576 := by rw [hsplit]; decide
  have hlevel : bigMsg.level = ERROR := rfl
  rw [hrun, workerLoop_cons_msg _ _ _ _ _ (by decide)]
  rcases handleRecord_spec sizeLog rt { exampleWorld [] with ranges := (exampleWorld []).ranges + 1 }
    bigMsg hr hrouted with
    ⟨rt1, w1, hh, hr1, hfn, hkeys, hor, hinv, _, _, hfull, hsp, hsz0, _⟩ | ⟨_, hbad⟩
  · rw [hh]
    simp only
    rw [hlevel, hrE] at hinv hfull hsz0
    have hfl : flushNow sizeLog
        (storeRecord rt "a.log".toList (rt.counter "a.log".toList) bigMsg.str) "a.log".toList
        (rt.counter "a.log".toList) := by
      refine Or.inr ⟨?_, ?_⟩
      · show rt.split.id = SPLIT_SIZE
        rw [hsplit]; rfl
      · show (mapGet? (storeRecord rt "a.log".toList (rt.counter "a.log".toList)
            bigMsg.str).fileSizeCounter "a.log".toList).getD 0 > mul64 (mul64 rt.split.value 1024) 1024
        rw [hT]
        simp only [storeRecord, mapGet?_mapSet_self, Option.getD_some, hfsc, mapGet?,
          Option.getD_none, byteLen_bigMsg]
        decide
    have hc1 : rt1.counter "a.log".toList = 0 := hfull hfl
    have hs1 : (mapGet? rt1.fileSizeCounter "a.log".toList).getD 0 = 0 :=
      hsz0 hfl (by rw [hsplit]; rfl)
    have hw1 : w1.written "a.log".toList = [bigMsg.str] := by
      have := hinv "a.log".toList
      rw [pending_of_counter_le rt1 _ (by omega), hpend] at this
      simpa [World.written, exampleWorld] using this
    have hd1 : "a.log".toList ∈ mapKeys rt1.bufsCounter := by
      rw [hkeys]
      have : rt.route bigMsg.level ∈ mapKeys rt.bufsCounter := hrouted
      rw [hlevel, hrE] at this
      exact this
    obtain ⟨rt2, hl, hc2⟩ := quiet_run sizeLog "a.log".toList 28 1048576
      (List.replicate 1023 smallMsg) rt1 w1
      (by
        intro m hm
        have : m = smallMsg := List.eq_of_mem_replicate hm
        subst this
        refine ⟨?_, by decide, by decide⟩
        rw [route_congr hfn]
        exact hrE)
      (by omega) (hr1.bounds _ hd1).2.2
      (by rw [hc1]; simp only [List.length_replicate]; decide)
      (by rw [hsp]; exact hT) (by decide) (by omega)
      (by rw [hs1]; simp only [List.length_replicate]; decide)
    refine ⟨rt2, w1, ?_, hw1, ?_⟩
    · rw [← hl, List.map_replicate]
    · rw [hc2, hc1, List.length_replicate]
      rfl
  · exact absurd (fun _ => rfl) hbad

/-- No loss under graceful shutdown, for the configurations whose level routes carry a
`Level` field equal to their map key and for a worker that finds the logger of `New` in
the global `glog` when it starts: when the rotation spec parses and no open or stat
fails, for every sequence of emit calls and timer ticks followed by `Close` the worker
leaves its loop through the close signal, and the texts written for each destination are,
in write order, exactly the texts of the records queued for it, in queue order. -/
theorem graceful_shutdown_no_loss (Sprintf : List Char → List (List Char) → List Char)
    (g g1 : Globals) (args : List Arg) (log : Log) (err : Option NewError)
    (hfresh : g.glog = none) (hnew : New g args = .ok (log, err, g1))
    (hwell : ∀ m, Arg.levelMap m ∈ args → ∀ e ∈ m, e.2.Level = e.1)
    (rt0 : runtime) (w : World) (id : Nat) (v : Int)
    (hsplit : parse_split w.caseTable log.Split = .ok (id, v))
    (hfair : w.FairRange) (hnf : w.NoFailure) (actions : List Action) :
    ∃ events g2 rt1 w1, drive Sprintf log g1 actions = .ok (events, g2) ∧
      runSession Sprintf log g1 rt0 w actions = .ok (.closed rt1 w1) ∧
      ∀ d, w1.written d = w.written d ++ routedTexts log.dest events d := by
  obtain ⟨hg1, hbuf, hnd, hwk⟩ := New_spec g g1 args log err hfresh hnew
  have hbuf1 : 1 ≤ log.Buf := by
    simp only [CHAN_BUFFER_SIZE] at hbuf; omega
  obtain ⟨events, g2, hdrive, hev⟩ := drive_spec Sprintf log log g1 actions hg1
  obtain ⟨rt, hrun, hr, hpend, htracked, hroute, _⟩ :=
    runLogChan_start log rt0 w id v hsplit hbuf1 hfair
  have hroute2 := hroute hnd (hwk hwell)
  have hfun : rt.route = log.dest := funext hroute2
  have hev2 : ∀ m, Event.msg m ∈ events →
      m.level ≠ SIGNAL_CLOSE ∧ rt.Routed m.level ∧ rt.route m.level ≠ [] := by
    intro m hm
    obtain ⟨a, b⟩ := hev m hm
    exact ⟨a, routed_of_dest log rt hroute2 htracked _ b, by rw [hroute2]; exact b⟩
  have hfair2 : World.FairRange { w with ranges := w.ranges + 1 } := hfair
  have hnf2 : World.NoFailure { w with ranges := w.ranges + 1 } := hnf
  rcases workerLoop_close log rt _ events hr hfair2 hev2 with ⟨rt1, w1, hl, _, hw⟩ | ⟨_, hbad⟩
  · refine ⟨events, g2, rt1, w1, hdrive, ?_, fun d => ?_⟩
    · unfold runSession
      simp only [hdrive]
      rw [hrun, hl]
    · rw [hw d, hpend d, hfun]
      have : World.written { w with ranges := w.ranges + 1 } d = w.written d := rfl
      rw [this]
      simp
  · exact absurd hnf2 hbad

/-- The loss on `misKeyedArgs` does not depend on the order in which the maps are visited,
nor on the clock or the disk: whenever no open fails, nothing is written for `a.log`. -/
theorem misKeyed_loss_any_order (w : World) (hfair : w.FairRange) (hnf : w.NoFailure) :
    writtenAtClose (runLogChan misKeyedLog zeroRuntime w
      ([Event.msg smallMsgX] ++ [Event.msg closeMsg])) "a.log".toList =
      some (w.written "a.log".toList) := by
  obtain ⟨rt, hrun, hr, hpend, _, _, hmiss, hkeys, _⟩ :=
    runLogChan_start misKeyedLog zeroRuntime w 1 1 (parse_split_day w.caseTable) (by decide) hfair
  have hrE : rt.route ERROR = [] := hmiss ERROR (by decide)
  have hempty : ([] : List Char) ∈ mapKeys rt.bufsCounter :=
    hkeys (WARNING, { Level := WARNING, IsPrint := true, FileName := [] }) (by decide)
  have hev : ∀ m, Event.msg m ∈ [Event.msg smallMsgX] →
      m.level ≠ SIGNAL_CLOSE ∧ rt.Routed m.level := by
    intro m hm
    have : m = smallMsgX := by simpa using hm
    subst this
    refine ⟨by decide, ?_⟩
    show rt.route ERROR ∈ mapKeys rt.bufsCounter
    rw [hrE]
    exact hempty
  have hfair2 : World.FairRange { w with ranges := w.ranges + 1 } := hfair
  have hnf2 : World.NoFailure { w with ranges := w.ranges + 1 } := hnf
  rw [hrun]
  rcases workerLoop_close_dest misKeyedLog rt { w with ranges := w.ranges + 1 }
      [Event.msg smallMsgX] hr hfair2 hev with ⟨rt1, w1, hl, hw⟩ | ⟨_, hbad⟩
  · rw [hl]
    show some (w1.written "a.log".toList) = some (w.written "a.log".toList)
    rw [hw _ (by decide), hpend]
    have hx : smallMsgX.level = ERROR := rfl
    have hne : ¬ (([] : List Char) = "a.log".toList) := by decide
    have htexts : routedTexts rt.route [Event.msg smallMsgX] "a.log".toList = [] := by
      simp only [routedTexts, List.filterMap_cons, List.filterMap_nil, hx, hrE, hne, if_false]
    rw [htexts, List.append_nil, List.append_nil]
    rfl
  · exact absurd hnf2 hbad

/-- C1 fails on the code for a route whose `Level` field differs from its map key.  `New`
accepts `misKeyedArgs`; `Error("x")` passes the gate, finds the destination `a.log` under
the key `ERROR` and queues the record; the worker files routes under their `Level` field,
finds no route for `ERROR` and stores the record in the buffer of the empty destination,
which no flush writes: after `Close` nothing has been written for `a.log`. -/
theorem misKeyed_route_loses_record :
    New freshGlobals misKeyedArgs =
      .ok (misKeyedLog, none, { freshGlobals with glog := some misKeyedLog, workers := 1 }) ∧
    (∃ g2, drive noSprintf misKeyedLog { freshGlobals with glog := some misKeyedLog, workers := 1 }
        [Action.emit Method.Error ['x'] [] exampleTime] = .ok ([Event.msg smallMsgX], g2)) ∧
    routedTexts misKeyedLog.dest [Event.msg smallMsgX] "a.log".toList = [smallMsgX.str] ∧
    writtenAtClose (runSession noSprintf misKeyedLog
      { freshGlobals with glog := some misKeyedLog, workers := 1 } zeroRuntime (exampleWorld [])
      [Action.emit Method.Error ['x'] [] exampleTime]) "a.log".toList = some [] := by
  have hdrive : drive noSprintf misKeyedLog
      { freshGlobals with glog := some misKeyedLog, workers := 1 }
      [Action.emit Method.Error ['x'] [] exampleTime] =
      .ok ([Event.msg smallMsgX], { freshGlobals with glog := some misKeyedLog, workers := 1 }) := by
    decide
  refine ⟨by decide, ⟨_, hdrive⟩, by decide, ?_⟩
  unfold runSession
  simp only [hdrive]
  exact misKeyed_loss_any_order (exampleWorld []) (fun _ _ m => List.Perm.refl m) (fun _ => rfl)

end Glog
